import Mathlib

/-!
Verification of the pyroutelib3 core against its specification.

The development shallowly embeds the routing core of pyroutelib3:

* association lists model Python dictionaries (insertion-ordered,
  first-occurrence lookup and in-place update);
* rationals model Python floats (edge costs, penalties, heuristic values);
* the haversine distance function is kept abstract as a parameter
  (floating-point trigonometry has no exact rational counterpart, and no
  verified property depends on its concrete values);
* functions that may raise in Python return Option or Except;
* the unbounded while-loops of the A-star search are given explicit fuel,
  and every theorem about them is a partial-correctness statement;
* the binary heap of the heapq module is modelled by extraction of a
  minimal-score element (the tie-break among equal scores is
  implementation-defined in the spec, the model picks the first one).
-/

namespace Pyroutelib3

/-! ## Association lists: the model of Python dict -/

/-- Lookup of the value stored at the first occurrence of a key,
the model of Python dict subscript / dict.get. -/
def alget {κ α : Type} [DecidableEq κ] (l : List (κ × α)) (k : κ) : Option α :=
  match l with
  | [] => none
  | p :: ps => if p.1 = k then some p.2 else alget ps k

/-- Update the first occurrence of a key in place, append when absent,
the model of Python dict item assignment. -/
def alset {κ α : Type} [DecidableEq κ] (l : List (κ × α)) (k : κ) (v : α) :
    List (κ × α) :=
  match l with
  | [] => [(k, v)]
  | p :: ps => if p.1 = k then (k, v) :: ps else p :: alset ps k v

/-- Remove the first occurrence of a key, the model of Python dict del / pop. -/
def alerase {κ α : Type} [DecidableEq κ] (l : List (κ × α)) (k : κ) :
    List (κ × α) :=
  match l with
  | [] => []
  | p :: ps => if p.1 = k then ps else p :: alerase ps k

theorem alget_alset_self {κ α : Type} [DecidableEq κ]
    (l : List (κ × α)) (k : κ) (v : α) : alget (alset l k v) k = some v := by
  induction l with
  | nil => simp [alset, alget]
  | cons p ps ih =>
    by_cases h : p.1 = k
    · simp [alset, h, alget]
    · simpa [alset, h, alget] using ih

theorem alget_alset_ne {κ α : Type} [DecidableEq κ]
    (l : List (κ × α)) (k k' : κ) (v : α) (h : k' ≠ k) :
    alget (alset l k v) k' = alget l k' := by
  induction l with
  | nil => simp [alset, alget, Ne.symm h]
  | cons p ps ih =>
    by_cases hp : p.1 = k
    · subst hp
      simp [alset, alget, Ne.symm h]
    · by_cases hp' : p.1 = k'
      · simp [alset, hp, alget, hp', h]
      · simpa [alset, hp, alget, hp'] using ih

theorem alget_eq_none {κ α : Type} [DecidableEq κ]
    {l : List (κ × α)} {k : κ} (h : k ∉ l.map Prod.fst) : alget l k = none := by
  induction l with
  | nil => simp [alget]
  | cons p ps ih =>
    simp only [List.map_cons, List.mem_cons] at h
    push_neg at h
    simpa [alget, Ne.symm h.1] using ih h.2

theorem alget_alerase_self {κ α : Type} [DecidableEq κ]
    (l : List (κ × α)) (k : κ) (hnd : (l.map Prod.fst).Nodup) :
    alget (alerase l k) k = none := by
  induction l with
  | nil => simp [alerase, alget]
  | cons p ps ih =>
    simp only [List.map_cons, List.nodup_cons] at hnd
    by_cases h : p.1 = k
    · subst h
      simp only [alerase, if_pos rfl]
      exact alget_eq_none hnd.1
    · simpa [alerase, h, alget] using ih hnd.2

theorem alget_alerase_ne {κ α : Type} [DecidableEq κ]
    (l : List (κ × α)) (k k' : κ) (h : k' ≠ k) :
    alget (alerase l k) k' = alget l k' := by
  induction l with
  | nil => simp [alerase]
  | cons p ps ih =>
    by_cases hp : p.1 = k
    · subst hp
      have : p.1 ≠ k' := fun hh => h (hh.symm ▸ rfl)
      simp [alerase, alget, this]
    · by_cases hp' : p.1 = k'
      · simp [alerase, hp, alget, hp', h]
      · simpa [alerase, hp, alget, hp'] using ih

theorem alget_mem {κ α : Type} [DecidableEq κ]
    {l : List (κ × α)} {k : κ} {v : α} (h : alget l k = some v) : (k, v) ∈ l := by
  induction l with
  | nil => simp [alget] at h
  | cons p ps ih =>
    by_cases hp : p.1 = k
    · simp only [alget, hp, if_true, Option.some_inj] at h
      cases p
      simp_all
    · simp only [alget, hp, if_false] at h
      exact List.mem_cons_of_mem _ (ih h)

theorem mem_alget {κ α : Type} [DecidableEq κ]
    {l : List (κ × α)} {k : κ} {v : α} (hnd : (l.map Prod.fst).Nodup)
    (h : (k, v) ∈ l) : alget l k = some v := by
  induction l with
  | nil => simp at h
  | cons p ps ih =>
    simp only [List.map_cons, List.nodup_cons] at hnd
    rcases List.mem_cons.mp h with h | h
    · subst h
      simp [alget]
    · have hp : p.1 ≠ k := by
        intro hh
        exact hnd.1 (hh ▸ (by simpa using List.mem_map_of_mem Prod.fst h))
      simpa [alget, hp] using ih hnd.2 h

theorem alget_isSome_iff {κ α : Type} [DecidableEq κ]
    (l : List (κ × α)) (k : κ) :
    (alget l k).isSome = true ↔ k ∈ l.map Prod.fst := by
  induction l with
  | nil => simp [alget]
  | cons p ps ih =>
    by_cases hp : p.1 = k
    · simp [alget, hp]
    · simpa [alget, hp, Ne.symm hp] using ih

/-! ## Data model: positions, tags, graph nodes, graphs -/

/-- A position, the pair (latitude, longitude); Python floats are rationals. -/
abbrev Position : Type := ℚ × ℚ

/-- OSM tag maps (Python Mapping from string to string). -/
abbrev Tags : Type := List (String × String)

def tagGet (tags : Tags) (k : String) : Option String := alget tags k

/-- TurnRestriction, the classification returned by Profile.is_turn_restriction. -/
inductive TurnRestriction : Type
  | INAPPLICABLE
  | PROHIBITORY
  | MANDATORY
deriving DecidableEq

/-- A Profile as a record of its three pure functions (osm/profile.py,
class Profile). -/
structure Profile : Type where
  way_penalty : Tags → Option ℚ
  way_direction : Tags → Bool × Bool
  is_turn_restriction : Tags → TurnRestriction

/-- GraphNode from simple_graph.py / osm/graph.py: id, position, external id. -/
structure GraphNode : Type where
  id : Int
  position : Position
  external_id : Int
deriving DecidableEq

/-- The OSM Graph of osm/graph.py: nodes and edges as insertion-ordered
dictionaries, a profile, and the phantom-node id counter. -/
structure Graph : Type where
  profile : Profile
  nodes : List (Int × GraphNode)
  edges : List (Int × List (Int × ℚ))
  phantom_node_id_counter : Int

/-- _MAX_NODE_ID from osm/graph.py (0x0008_0000_0000_0000 = 2^51). -/
def MAX_NODE_ID : Int := 2251799813685248

/-- Total variant of Graph.get_node; Python raises KeyError on a missing id,
the model returns a junk node, and every theorem that relies on the value
assumes the id is present. -/
def getNodeD (g : Graph) (id : Int) : GraphNode :=
  (alget g.nodes id).getD ⟨0, (0, 0), 0⟩

/-- The external id of the node stored under an id (GraphNode.osm_id). -/
def extId (g : Graph) (id : Int) : Int := (getNodeD g id).external_id

/-- Graph.get_edges: outgoing edge list of a node, empty when absent. -/
def getEdges (g : Graph) (id : Int) : List (Int × ℚ) :=
  (alget g.edges id).getD []

/-- The cost of the edge between two given nodes, when present. -/
def edgeCost (g : Graph) (a b : Int) : Option ℚ := alget (getEdges g a) b

/-- All consecutive elements of the list are connected by a directed edge. -/
def pathIn (g : Graph) (p : List Int) : Prop :=
  p.Chain' (fun a b => (edgeCost g a b).isSome)

/-- Executable check of pathIn. -/
def chainB (g : Graph) : List Int → Bool
  | [] => true
  | [_] => true
  | a :: b :: rest => (edgeCost g a b).isSome && chainB g (b :: rest)

theorem chainB_pathIn (g : Graph) :
    ∀ p, chainB g p = true ↔ pathIn g p := by
  intro p
  induction p with
  | nil => simp [chainB, pathIn]
  | cons a rest ih =>
    cases rest with
    | nil => simp [chainB, pathIn]
    | cons b rest2 =>
      rw [pathIn, List.chain'_cons]
      show ((edgeCost g a b).isSome && chainB g (b :: rest2)) = true ↔ _
      rw [Bool.and_eq_true, ih]
      rw [pathIn]

instance (g : Graph) (p : List Int) : Decidable (pathIn g p) :=
  decidable_of_iff (chainB g p = true) (chainB_pathIn g p)

/-- Total cost of a path (sum of consecutive edge costs; missing edges
count as zero and are excluded by pathIn hypotheses). -/
def pathCost (g : Graph) : List Int → ℚ
  | [] => 0
  | [_] => 0
  | a :: b :: rest => (edgeCost g a b).getD 0 + pathCost g (b :: rest)

/-- A path realising a route request: nonempty, starts at the start node,
ends at the end node, and follows directed edges. -/
def IsRoutePath (g : Graph) (s e : Int) (p : List Int) : Prop :=
  p ≠ [] ∧ p.head? = some s ∧ p.getLast? = some e ∧ pathIn g p

/-! ## Profiles (osm/profile.py) -/

/-- HighwayProfile.EQUIVALENT_TAGS. -/
def EQUIVALENT_TAGS : List (String × String) :=
  [("motorway_link", "motorway"), ("trunk_link", "trunk"),
   ("primary_link", "primary"), ("secondary_link", "secondary"),
   ("tertiary_link", "tertiary"), ("minor", "unclassified")]

/-- HighwayProfile.get_active_highway_value. -/
def highway_get_active_highway_value (tags : Tags) : String :=
  let highway := (tagGet tags "highway").getD ""
  (alget EQUIVALENT_TAGS highway).getD highway

/-- HighwayProfile.is_allowed: walk the access hierarchy from most specific
to least specific; "no" and "private" exclude the way. -/
def highway_is_allowed (access : List String) (tags : Tags) : Bool :=
  go access.reverse
where
  go : List String → Bool
  | [] => true
  | k :: ks =>
    match tagGet tags k with
    | some v => if v = "no" ∨ v = "private" then false else true
    | none => go ks

/-- NonMotorroadHighwayProfile.is_allowed: motorroad=yes forbids the way. -/
def nonmotorroad_is_allowed (access : List String) (tags : Tags) : Bool :=
  if tagGet tags "motorroad" = some "yes" then false
  else highway_is_allowed access tags

/-- FootProfile.get_active_highway_value: platform reclassification applies
only when the highway value is empty. -/
def foot_get_active_highway_value (tags : Tags) : String :=
  let highway := highway_get_active_highway_value tags
  if highway = "" ∧
      (tagGet tags "public_transport" = some "platform" ∨
       tagGet tags "railway" = some "platform") then
    "platform"
  else highway

/-- Default FootProfile penalties. -/
def footPenalties : List (String × ℚ) :=
  [("trunk", 4), ("primary", 2), ("secondary", 13/10), ("tertiary", 6/5),
   ("unclassified", 6/5), ("residential", 6/5), ("living_street", 6/5),
   ("track", 6/5), ("service", 6/5), ("bridleway", 6/5), ("footway", 21/20),
   ("path", 21/20), ("steps", 23/20), ("pedestrian", 1), ("platform", 11/10)]

/-- Default FootProfile access hierarchy. -/
def footAccess : List String := ["access", "foot"]

/-- FootProfile.way_penalty (inherited HighwayProfile.way_penalty with the
foot-specific highway value and the non-motorroad access check). -/
def foot_way_penalty (tags : Tags) : Option ℚ :=
  let highway := foot_get_active_highway_value tags
  match alget footPenalties highway with
  | none => none
  | some penalty =>
    if nonmotorroad_is_allowed footAccess tags then some penalty else none

/-! ## Graph.find_nearest_node (osm/graph.py) -/

/-- Python min with a key function over a nonempty list: the first element
attaining the minimal key. -/
def minByFirst {α : Type} (f : α → ℚ) : List α → Option α
  | [] => none
  | x :: xs => some (xs.foldl (fun best y => if f y < f best then y else best) x)

/-- Graph.find_nearest_node: linear scan over the regular nodes
(id equal to osm_id), minimising the distance to the requested position.
Python raises ValueError when no regular node exists (min of an empty
sequence); the model returns none in that case. The haversine distance is
the dist parameter. -/
def find_nearest_node (dist : Position → Position → ℚ) (g : Graph)
    (position : Position) : Option GraphNode :=
  minByFirst (fun nd => dist position nd.position)
    (g.nodes.filterMap
      (fun p => if p.2.id = p.2.external_id then some p.2 else none))

theorem foldl_minBy_spec {α : Type} (f : α → ℚ) (xs : List α) : ∀ best : α,
    (xs.foldl (fun b y => if f y < f b then y else b) best = best ∨
      xs.foldl (fun b y => if f y < f b then y else b) best ∈ xs) ∧
    f (xs.foldl (fun b y => if f y < f b then y else b) best) ≤ f best ∧
    ∀ y ∈ xs, f (xs.foldl (fun b y => if f y < f b then y else b) best) ≤ f y := by
  induction xs with
  | nil => intro best; exact ⟨Or.inl rfl, le_refl _, by simp⟩
  | cons z zs ih =>
    intro best
    simp only [List.foldl_cons]
    by_cases h : f z < f best
    · rw [if_pos h]
      rcases ih z with ⟨hmem, hle, hall⟩
      refine ⟨?_, le_trans hle (le_of_lt h), ?_⟩
      · rcases hmem with h' | h'
        · exact Or.inr (by simp [h'])
        · exact Or.inr (List.mem_cons_of_mem _ h')
      · intro y hy
        rcases List.mem_cons.mp hy with rfl | hy
        · exact hle
        · exact hall y hy
    · rw [if_neg h]
      rcases ih best with ⟨hmem, hle, hall⟩
      refine ⟨?_, hle, ?_⟩
      · rcases hmem with h' | h'
        · exact Or.inl h'
        · exact Or.inr (List.mem_cons_of_mem _ h')
      · intro y hy
        rcases List.mem_cons.mp hy with rfl | hy
        · exact le_trans hle (not_lt.mp h)
        · exact hall y hy

theorem minByFirst_spec {α : Type} (f : α → ℚ) (l : List α) (m : α)
    (h : minByFirst f l = some m) : m ∈ l ∧ ∀ y ∈ l, f m ≤ f y := by
  cases l with
  | nil => simp [minByFirst] at h
  | cons x xs =>
    simp only [minByFirst, Option.some_inj] at h
    rcases foldl_minBy_spec f xs x with ⟨hmem, hle, hall⟩
    subst h
    constructor
    · rcases hmem with h' | h'
      · rw [h']; exact List.mem_cons_self x xs
      · exact List.mem_cons_of_mem _ h'
    · intro y hy
      rcases List.mem_cons.mp hy with rfl | hy
      · exact hle
      · exact hall y hy

/-- C10: Graph.find_nearest_node considers only the nodes with id equal to
external_id, and when no such node exists (in particular on an empty graph)
it fails (Python: ValueError from taking min of an empty sequence, modelled
as none) instead of returning a node. When it does return a node, that node
is regular, stored in the graph, and minimises the distance among all
regular nodes. -/
theorem C10_find_nearest_node_regular_only
    (dist : Position → Position → ℚ) (g : Graph) (pos : Position) :
    ((∀ p ∈ g.nodes, p.2.id ≠ p.2.external_id) →
      find_nearest_node dist g pos = none) ∧
    (∀ nd, find_nearest_node dist g pos = some nd →
      nd.id = nd.external_id ∧ (∃ p ∈ g.nodes, p.2 = nd) ∧
      ∀ p ∈ g.nodes, p.2.id = p.2.external_id →
        dist pos nd.position ≤ dist pos p.2.position) := by
  constructor
  · intro hall
    have : g.nodes.filterMap
        (fun p => if p.2.id = p.2.external_id then some p.2 else none) = [] := by
      rw [List.filterMap_eq_nil]
      intro p hp
      simp [hall p hp]
    simp [find_nearest_node, this, minByFirst]
  · intro nd hnd
    rcases minByFirst_spec _ _ _ hnd with ⟨hmem, hmin⟩
    rw [List.mem_filterMap] at hmem
    rcases hmem with ⟨p, hp, hcond⟩
    have hreg : p.2.id = p.2.external_id ∧ p.2 = nd := by
      by_cases h : p.2.id = p.2.external_id
      · simp [h] at hcond; exact ⟨h, hcond⟩
      · simp [h] at hcond
    refine ⟨hreg.2 ▸ hreg.1, ⟨p, hp, hreg.2⟩, ?_⟩
    intro q hq hqreg
    exact hmin q.2 (List.mem_filterMap.mpr ⟨q, hq, by simp [hqreg]⟩)

/-- SkeletonProfile from osm/profile.py. -/
def SkeletonProfile : Profile :=
  { way_penalty := fun _ => some 1,
    way_direction := fun tags =>
      match tagGet tags "oneway" with
      | some v =>
        if v = "yes" then (true, false)
        else if v = "-1" then (false, true)
        else (true, true)
      | none => (true, true),
    is_turn_restriction := fun _ => TurnRestriction.INAPPLICABLE }

/-- Witness for C10: on an empty graph, find_nearest_node fails. -/
theorem C10_witness :
    find_nearest_node (fun _ _ => 0) ⟨SkeletonProfile, [], [], MAX_NODE_ID⟩ (0, 0)
      = none :=
  (C10_find_nearest_node_regular_only (fun _ _ => 0)
    ⟨SkeletonProfile, [], [], MAX_NODE_ID⟩ (0, 0)).1 (by simp)

/-- C9 (amended): for the Foot profile, a way with no highway tag (or an
empty one) whose tags contain public_transport=platform or railway=platform
is classified as highway=platform, and its penalty resolves through the
platform entry (11/10), subject to the access checks. -/
theorem C9_foot_platform_classification (tags : Tags)
    (hhw : tagGet tags "highway" = none ∨ tagGet tags "highway" = some "")
    (hplat : tagGet tags "public_transport" = some "platform" ∨
             tagGet tags "railway" = some "platform") :
    foot_get_active_highway_value tags = "platform" ∧
    foot_way_penalty tags =
      (if nonmotorroad_is_allowed footAccess tags then some (11/10 : ℚ)
       else none) := by
  have he : alget EQUIVALENT_TAGS "" = none := by decide
  have hg : highway_get_active_highway_value tags = "" := by
    rcases hhw with h | h <;> simp [highway_get_active_highway_value, h, he]
  have hf : foot_get_active_highway_value tags = "platform" := by
    simp only [foot_get_active_highway_value, hg]
    simp [hplat]
  have hp : alget footPenalties "platform" = some (11/10 : ℚ) := by
    simp [footPenalties, alget]
  refine ⟨hf, ?_⟩
  simp only [foot_way_penalty, hf, hp]

/-- Witness for C9: a bare railway=platform way is classified platform with
penalty 11/10. -/
theorem C9_witness :
    foot_get_active_highway_value [("railway", "platform")] = "platform" ∧
    foot_way_penalty [("railway", "platform")] =
      (if nonmotorroad_is_allowed footAccess [("railway", "platform")]
       then some (11/10 : ℚ) else none) :=
  C9_foot_platform_classification [("railway", "platform")]
    (Or.inl (by decide)) (Or.inr (by decide))

/-- C9 counterexample: a way carrying railway=platform together with a
highway tag is NOT classified as platform; the penalty resolves through the
highway value (footway, 21/20) instead of the platform entry (11/10). -/
theorem C9_counterexample :
    foot_get_active_highway_value [("highway", "footway"), ("railway", "platform")]
        = "footway" ∧
    foot_way_penalty [("highway", "footway"), ("railway", "platform")]
        = some (21/20 : ℚ) ∧
    (21/20 : ℚ) ≠ (11/10 : ℚ) := by
  have h1 : foot_get_active_highway_value
      [("highway", "footway"), ("railway", "platform")] = "footway" := by decide
  refine ⟨h1, ?_, by norm_num⟩
  have hp : alget footPenalties "footway" = some (21/20 : ℚ) := by
    simp [footPenalties, alget]
  have ha : nonmotorroad_is_allowed footAccess
      [("highway", "footway"), ("railway", "platform")] = true := by decide
  simp only [foot_way_penalty, h1, hp, ha, if_true]

/-! ## The A-star search (router.py) -/

/-- _AStarQueueItem from router.py: frozen dataclass whose ordering compares
only the score field. -/
structure AStarQueueItem : Type where
  node_id : Int
  cost : ℚ
  score : ℚ
  external_id_before : Option Int := none
deriving DecidableEq

/-- Modelled from the spec: the priority queue of the heapq module.
Pop extracts an element of minimal score (section 4.6.1 of the spec:
pop smallest, tie-break implementation-defined; the model extracts the
first minimal element); push appends. -/
def selectMin (x : AStarQueueItem) :
    List AStarQueueItem → AStarQueueItem × List AStarQueueItem
  | [] => (x, [])
  | y :: ys =>
    if y.score < x.score then
      let r := selectMin y ys
      (r.1, x :: r.2)
    else
      let r := selectMin x ys
      (r.1, y :: r.2)

/-- heappop on the queue: none on an empty queue. -/
def heappop : List AStarQueueItem → Option (AStarQueueItem × List AStarQueueItem)
  | [] => none
  | x :: xs => some (selectMin x xs)

/-- The outcome of a fuelled search: a returned path (empty when no route
exists), the StepLimitExceeded exception, or exhaustion of the fuel of the
model (the Python loop is unbounded). -/
inductive RouteResult : Type
  | route (path : List Int)
  | stepLimitExceeded
  | outOfFuel
deriving DecidableEq

/-- _reconstruct_path from router.py, with fuel for the while-loop.
The accumulator plays the role of the reversed path. -/
def reconstruct_path (came_from : List (Int × Int)) :
    Nat → Int → List Int → Option (List Int)
  | 0, _, _ => none
  | fuel + 1, nd, acc =>
    match alget came_from nd with
    | none => some (nd :: acc)
    | some prev => reconstruct_path came_from fuel prev (nd :: acc)

/-- The body of the for-loop of find_route (router.py lines 101-108):
relax a single outgoing edge. -/
def relaxOne (g : Graph) (d : Position → Position → ℚ) (end_position : Position)
    (item : AStarQueueItem)
    (st : List AStarQueueItem × List (Int × Int) × List (Int × ℚ))
    (e : Int × ℚ) :
    List AStarQueueItem × List (Int × Int) × List (Int × ℚ) :=
  let neighbor_cost := item.cost + e.2
  let better : Bool :=
    match alget st.2.2 e.1 with
    | some k => decide (neighbor_cost < k)
    | none => true
  if better then
    (st.1 ++ [⟨e.1, neighbor_cost,
        neighbor_cost + d end_position (getNodeD g e.1).position, none⟩],
     alset st.2.1 e.1 item.node_id,
     alset st.2.2 e.1 neighbor_cost)
  else st

/-- Is the popped item stale (router.py line 94: item.cost exceeds the best
known cost; a missing entry acts as plus infinity)? -/
def isStale (known_costs : List (Int × ℚ)) (item : AStarQueueItem) : Bool :=
  match alget known_costs item.node_id with
  | some k => decide (k < item.cost)
  | none => false

/-- Has the steps counter exceeded the step limit (router.py line 98)? -/
def overLimit (step_limit : Option Nat) (steps : Nat) : Bool :=
  match step_limit with
  | some l => decide (l < steps)
  | none => false

/-- The while-loop of find_route, with fuel. Returns the result together
with the final steps counter and the final known_costs map (both needed to
state the specification claims). -/
def find_route_loop (g : Graph) (endId : Int) (d : Position → Position → ℚ)
    (end_position : Position) (step_limit : Option Nat) :
    Nat → List AStarQueueItem → List (Int × Int) → List (Int × ℚ) → Nat →
    RouteResult × Nat × List (Int × ℚ)
  | 0, _, _, known_costs, steps => (.outOfFuel, steps, known_costs)
  | fuel + 1, queue, came_from, known_costs, steps =>
    match heappop queue with
    | none => (.route [], steps, known_costs)
    | some (item, queue') =>
      if item.node_id = endId then
        match reconstruct_path came_from (came_from.length + 1) endId [] with
        | some p => (.route p, steps, known_costs)
        | none => (.outOfFuel, steps, known_costs)
      else if isStale known_costs item then
        find_route_loop g endId d end_position step_limit fuel
          queue' came_from known_costs steps
      else if overLimit step_limit (steps + 1) then
        (.stepLimitExceeded, steps + 1, known_costs)
      else
        let st := (getEdges g item.node_id).foldl
          (relaxOne g d end_position item) (queue', came_from, known_costs)
        find_route_loop g endId d end_position step_limit fuel
          st.1 st.2.1 st.2.2 (steps + 1)

/-- find_route from router.py: A-star search (fuelled model). -/
def find_route (g : Graph) (start endId : Int) (d : Position → Position → ℚ)
    (step_limit : Option Nat) (fuel : Nat) :
    RouteResult × Nat × List (Int × ℚ) :=
  let end_position := (getNodeD g endId).position
  find_route_loop g endId d end_position step_limit fuel
    [⟨start, 0, d end_position (getNodeD g start).position, none⟩]
    [] [(start, 0)] 0

/-- _NodeAndBefore from router.py: a node id paired with the external id of
the previous node. -/
abbrev NodeAndBefore : Type := Int × Option Int

/-- _reconstruct_path_without_turn_around from router.py, with fuel. -/
def reconstruct_path_wta (came_from : List (NodeAndBefore × NodeAndBefore)) :
    Nat → NodeAndBefore → List Int → Option (List Int)
  | 0, _, _ => none
  | fuel + 1, nd, acc =>
    match alget came_from nd with
    | none => some (nd.1 :: acc)
    | some prev => reconstruct_path_wta came_from fuel prev (nd.1 :: acc)

/-- The body of the for-loop of find_route_without_turn_around
(router.py lines 173-195): skip immediate turn-arounds, otherwise relax
into the (node, previous external id) key. -/
def relaxOneWTA (g : Graph) (d : Position → Position → ℚ)
    (end_position : Position) (item : AStarQueueItem) (item_external_id : Int)
    (st : List AStarQueueItem × List (NodeAndBefore × NodeAndBefore) ×
      List (NodeAndBefore × ℚ))
    (e : Int × ℚ) :
    List AStarQueueItem × List (NodeAndBefore × NodeAndBefore) ×
      List (NodeAndBefore × ℚ) :=
  let neighbor := getNodeD g e.1
  if some neighbor.external_id = item.external_id_before then st
  else
    let neighbor_cost := item.cost + e.2
    let neighbor_key : NodeAndBefore := (e.1, some item_external_id)
    let better : Bool :=
      match alget st.2.2 neighbor_key with
      | some k => decide (neighbor_cost < k)
      | none => true
    if better then
      (st.1 ++ [⟨e.1, neighbor_cost,
          neighbor_cost + d end_position neighbor.position,
          some item_external_id⟩],
       alset st.2.1 neighbor_key (item.node_id, item.external_id_before),
       alset st.2.2 neighbor_key neighbor_cost)
    else st

/-- Staleness for the keyed search state of the no-turn-around variant. -/
def isStaleWTA (known_costs : List (NodeAndBefore × ℚ))
    (item : AStarQueueItem) : Bool :=
  match alget known_costs (item.node_id, item.external_id_before) with
  | some k => decide (k < item.cost)
  | none => false

/-- The while-loop of find_route_without_turn_around, with fuel. -/
def find_route_wta_loop (g : Graph) (endId : Int)
    (d : Position → Position → ℚ) (end_position : Position)
    (step_limit : Option Nat) :
    Nat → List AStarQueueItem → List (NodeAndBefore × NodeAndBefore) →
      List (NodeAndBefore × ℚ) → Nat →
    RouteResult × Nat × List (NodeAndBefore × ℚ)
  | 0, _, _, known_costs, steps => (.outOfFuel, steps, known_costs)
  | fuel + 1, queue, came_from, known_costs, steps =>
    match heappop queue with
    | none => (.route [], steps, known_costs)
    | some (item, queue') =>
      if item.node_id = endId then
        match reconstruct_path_wta came_from (came_from.length + 1)
            (item.node_id, item.external_id_before) [] with
        | some p => (.route p, steps, known_costs)
        | none => (.outOfFuel, steps, known_costs)
      else if isStaleWTA known_costs item then
        find_route_wta_loop g endId d end_position step_limit fuel
          queue' came_from known_costs steps
      else if overLimit step_limit (steps + 1) then
        (.stepLimitExceeded, steps + 1, known_costs)
      else
        let st := (getEdges g item.node_id).foldl
          (relaxOneWTA g d end_position item (extId g item.node_id))
          (queue', came_from, known_costs)
        find_route_wta_loop g endId d end_position step_limit fuel
          st.1 st.2.1 st.2.2 (steps + 1)

/-- find_route_without_turn_around from router.py (fuelled model). -/
def find_route_without_turn_around (g : Graph) (start endId : Int)
    (d : Position → Position → ℚ) (step_limit : Option Nat) (fuel : Nat) :
    RouteResult × Nat × List (NodeAndBefore × ℚ) :=
  let end_position := (getNodeD g endId).position
  find_route_wta_loop g endId d end_position step_limit fuel
    [⟨start, 0, d end_position (getNodeD g start).position, none⟩]
    [] [((start, none), 0)] 0

/-! ## Branch equations for the search loops -/

theorem find_route_loop_zero (g : Graph) (endId : Int)
    (d : Position → Position → ℚ) (ep : Position) (sl : Option Nat)
    (q : List AStarQueueItem) (cf : List (Int × Int)) (kn : List (Int × ℚ))
    (s : Nat) :
    find_route_loop g endId d ep sl 0 q cf kn s = (.outOfFuel, s, kn) := rfl

theorem find_route_loop_empty (g : Graph) (endId : Int)
    (d : Position → Position → ℚ) (ep : Position) (sl : Option Nat)
    (fuel : Nat) (q : List AStarQueueItem) (cf : List (Int × Int))
    (kn : List (Int × ℚ)) (s : Nat) (h : heappop q = none) :
    find_route_loop g endId d ep sl (fuel + 1) q cf kn s =
      (.route [], s, kn) := by
  simp [find_route_loop, h]

theorem find_route_loop_pop_end (g : Graph) (endId : Int)
    (d : Position → Position → ℚ) (ep : Position) (sl : Option Nat)
    (fuel : Nat) (q : List AStarQueueItem) (cf : List (Int × Int))
    (kn : List (Int × ℚ)) (s : Nat) (item : AStarQueueItem)
    (q' : List AStarQueueItem) (h : heappop q = some (item, q'))
    (he : item.node_id = endId) :
    find_route_loop g endId d ep sl (fuel + 1) q cf kn s =
      (match reconstruct_path cf (cf.length + 1) endId [] with
       | some p => (.route p, s, kn)
       | none => (.outOfFuel, s, kn)) := by
  simp [find_route_loop, h, he]

theorem find_route_loop_pop_stale (g : Graph) (endId : Int)
    (d : Position → Position → ℚ) (ep : Position) (sl : Option Nat)
    (fuel : Nat) (q : List AStarQueueItem) (cf : List (Int × Int))
    (kn : List (Int × ℚ)) (s : Nat) (item : AStarQueueItem)
    (q' : List AStarQueueItem) (h : heappop q = some (item, q'))
    (he : item.node_id ≠ endId) (hst : isStale kn item = true) :
    find_route_loop g endId d ep sl (fuel + 1) q cf kn s =
      find_route_loop g endId d ep sl fuel q' cf kn s := by
  simp [find_route_loop, h, he, hst]

theorem find_route_loop_pop_over (g : Graph) (endId : Int)
    (d : Position → Position → ℚ) (ep : Position) (sl : Option Nat)
    (fuel : Nat) (q : List AStarQueueItem) (cf : List (Int × Int))
    (kn : List (Int × ℚ)) (s : Nat) (item : AStarQueueItem)
    (q' : List AStarQueueItem) (h : heappop q = some (item, q'))
    (he : item.node_id ≠ endId) (hst : isStale kn item = false)
    (hov : overLimit sl (s + 1) = true) :
    find_route_loop g endId d ep sl (fuel + 1) q cf kn s =
      (.stepLimitExceeded, s + 1, kn) := by
  simp [find_route_loop, h, he, hst, hov]

theorem find_route_loop_pop_expand (g : Graph) (endId : Int)
    (d : Position → Position → ℚ) (ep : Position) (sl : Option Nat)
    (fuel : Nat) (q : List AStarQueueItem) (cf : List (Int × Int))
    (kn : List (Int × ℚ)) (s : Nat) (item : AStarQueueItem)
    (q' : List AStarQueueItem) (h : heappop q = some (item, q'))
    (he : item.node_id ≠ endId) (hst : isStale kn item = false)
    (hov : overLimit sl (s + 1) = false) :
    find_route_loop g endId d ep sl (fuel + 1) q cf kn s =
      (let st := (getEdges g item.node_id).foldl
        (relaxOne g d ep item) (q', cf, kn)
       find_route_loop g endId d ep sl fuel st.1 st.2.1 st.2.2 (s + 1)) := by
  simp [find_route_loop, h, he, hst, hov]

theorem find_route_wta_loop_zero (g : Graph) (endId : Int)
    (d : Position → Position → ℚ) (ep : Position) (sl : Option Nat)
    (q : List AStarQueueItem) (cf : List (NodeAndBefore × NodeAndBefore))
    (kn : List (NodeAndBefore × ℚ)) (s : Nat) :
    find_route_wta_loop g endId d ep sl 0 q cf kn s = (.outOfFuel, s, kn) := rfl

theorem find_route_wta_loop_empty (g : Graph) (endId : Int)
    (d : Position → Position → ℚ) (ep : Position) (sl : Option Nat)
    (fuel : Nat) (q : List AStarQueueItem)
    (cf : List (NodeAndBefore × NodeAndBefore)) (kn : List (NodeAndBefore × ℚ))
    (s : Nat) (h : heappop q = none) :
    find_route_wta_loop g endId d ep sl (fuel + 1) q cf kn s =
      (.route [], s, kn) := by
  simp [find_route_wta_loop, h]

theorem find_route_wta_loop_pop_end (g : Graph) (endId : Int)
    (d : Position → Position → ℚ) (ep : Position) (sl : Option Nat)
    (fuel : Nat) (q : List AStarQueueItem)
    (cf : List (NodeAndBefore × NodeAndBefore)) (kn : List (NodeAndBefore × ℚ))
    (s : Nat) (item : AStarQueueItem) (q' : List AStarQueueItem)
    (h : heappop q = some (item, q')) (he : item.node_id = endId) :
    find_route_wta_loop g endId d ep sl (fuel + 1) q cf kn s =
      (match reconstruct_path_wta cf (cf.length + 1)
          (item.node_id, item.external_id_before) [] with
       | some p => (.route p, s, kn)
       | none => (.outOfFuel, s, kn)) := by
  simp [find_route_wta_loop, h, he]

theorem find_route_wta_loop_pop_stale (g : Graph) (endId : Int)
    (d : Position → Position → ℚ) (ep : Position) (sl : Option Nat)
    (fuel : Nat) (q : List AStarQueueItem)
    (cf : List (NodeAndBefore × NodeAndBefore)) (kn : List (NodeAndBefore × ℚ))
    (s : Nat) (item : AStarQueueItem) (q' : List AStarQueueItem)
    (h : heappop q = some (item, q')) (he : item.node_id ≠ endId)
    (hst : isStaleWTA kn item = true) :
    find_route_wta_loop g endId d ep sl (fuel + 1) q cf kn s =
      find_route_wta_loop g endId d ep sl fuel q' cf kn s := by
  simp [find_route_wta_loop, h, he, hst]

theorem find_route_wta_loop_pop_over (g : Graph) (endId : Int)
    (d : Position → Position → ℚ) (ep : Position) (sl : Option Nat)
    (fuel : Nat) (q : List AStarQueueItem)
    (cf : List (NodeAndBefore × NodeAndBefore)) (kn : List (NodeAndBefore × ℚ))
    (s : Nat) (item : AStarQueueItem) (q' : List AStarQueueItem)
    (h : heappop q = some (item, q')) (he : item.node_id ≠ endId)
    (hst : isStaleWTA kn item = false) (hov : overLimit sl (s + 1) = true) :
    find_route_wta_loop g endId d ep sl (fuel + 1) q cf kn s =
      (.stepLimitExceeded, s + 1, kn) := by
  simp [find_route_wta_loop, h, he, hst, hov]

theorem find_route_wta_loop_pop_expand (g : Graph) (endId : Int)
    (d : Position → Position → ℚ) (ep : Position) (sl : Option Nat)
    (fuel : Nat) (q : List AStarQueueItem)
    (cf : List (NodeAndBefore × NodeAndBefore)) (kn : List (NodeAndBefore × ℚ))
    (s : Nat) (item : AStarQueueItem) (q' : List AStarQueueItem)
    (h : heappop q = some (item, q')) (he : item.node_id ≠ endId)
    (hst : isStaleWTA kn item = false) (hov : overLimit sl (s + 1) = false) :
    find_route_wta_loop g endId d ep sl (fuel + 1) q cf kn s =
      (let st := (getEdges g item.node_id).foldl
        (relaxOneWTA g d ep item (extId g item.node_id)) (q', cf, kn)
       find_route_wta_loop g endId d ep sl fuel st.1 st.2.1 st.2.2 (s + 1)) := by
  simp [find_route_wta_loop, h, he, hst, hov]

/-! ## C8: step-limit semantics -/

theorem find_route_loop_steps_mono (g : Graph) (endId : Int)
    (d : Position → Position → ℚ) (ep : Position) (sl : Option Nat) :
    ∀ (fuel : Nat) q cf kn (s : Nat),
    s ≤ (find_route_loop g endId d ep sl fuel q cf kn s).2.1 := by
  intro fuel
  induction fuel with
  | zero => intro q cf kn s; simp [find_route_loop_zero]
  | succ fuel ih =>
    intro q cf kn s
    cases h : heappop q with
    | none => simp [find_route_loop_empty _ _ _ _ _ _ _ _ _ _ h]
    | some pr =>
      obtain ⟨item, q'⟩ := pr
      by_cases he : item.node_id = endId
      · rw [find_route_loop_pop_end _ _ _ _ _ _ _ _ _ _ _ _ h he]
        cases hr : reconstruct_path cf (cf.length + 1) endId [] <;> simp
      · by_cases hst : isStale kn item = true
        · rw [find_route_loop_pop_stale _ _ _ _ _ _ _ _ _ _ _ _ h he hst]
          exact ih q' cf kn s
        · by_cases hov : overLimit sl (s + 1) = true
          · rw [find_route_loop_pop_over _ _ _ _ _ _ _ _ _ _ _ _ h he
              (Bool.not_eq_true _ ▸ hst) hov]
            exact Nat.le_succ s
          · rw [find_route_loop_pop_expand _ _ _ _ _ _ _ _ _ _ _ _ h he
              (Bool.not_eq_true _ ▸ hst) (Bool.not_eq_true _ ▸ hov)]
            exact le_trans (Nat.le_succ s) (ih _ _ _ (s + 1))

theorem find_route_loop_none_ne_SLE (g : Graph) (endId : Int)
    (d : Position → Position → ℚ) (ep : Position) :
    ∀ (fuel : Nat) q cf kn (s : Nat),
    (find_route_loop g endId d ep none fuel q cf kn s).1 ≠
      RouteResult.stepLimitExceeded := by
  intro fuel
  induction fuel with
  | zero => intro q cf kn s; simp [find_route_loop_zero]
  | succ fuel ih =>
    intro q cf kn s
    cases h : heappop q with
    | none => simp [find_route_loop_empty _ _ _ _ _ _ _ _ _ _ h]
    | some pr =>
      obtain ⟨item, q'⟩ := pr
      by_cases he : item.node_id = endId
      · rw [find_route_loop_pop_end _ _ _ _ _ _ _ _ _ _ _ _ h he]
        cases hr : reconstruct_path cf (cf.length + 1) endId [] <;> simp
      · by_cases hst : isStale kn item = true
        · rw [find_route_loop_pop_stale _ _ _ _ _ _ _ _ _ _ _ _ h he hst]
          exact ih q' cf kn s
        · rw [find_route_loop_pop_expand _ _ _ _ none _ _ _ _ _ _ _ h he
            (Bool.not_eq_true _ ▸ hst) rfl]
          exact ih _ _ _ (s + 1)

theorem find_route_loop_SLE_iff (g : Graph) (endId : Int)
    (d : Position → Position → ℚ) (ep : Position) (L : Nat) :
    ∀ (fuel : Nat) q cf kn (s : Nat), s ≤ L →
    ((find_route_loop g endId d ep (some L) fuel q cf kn s).1 =
        RouteResult.stepLimitExceeded ↔
      L < (find_route_loop g endId d ep none fuel q cf kn s).2.1) := by
  intro fuel
  induction fuel with
  | zero =>
    intro q cf kn s hs
    simp [find_route_loop_zero, Nat.not_lt.mpr hs]
  | succ fuel ih =>
    intro q cf kn s hs
    cases h : heappop q with
    | none =>
      rw [find_route_loop_empty _ _ _ _ _ _ _ _ _ _ h,
        find_route_loop_empty _ _ _ _ _ _ _ _ _ _ h]
      simp [Nat.not_lt.mpr hs]
    | some pr =>
      obtain ⟨item, q'⟩ := pr
      by_cases he : item.node_id = endId
      · rw [find_route_loop_pop_end _ _ _ _ _ _ _ _ _ _ _ _ h he,
          find_route_loop_pop_end _ _ _ _ _ _ _ _ _ _ _ _ h he]
        cases hr : reconstruct_path cf (cf.length + 1) endId [] <;>
          simp [Nat.not_lt.mpr hs]
      · by_cases hst : isStale kn item = true
        · rw [find_route_loop_pop_stale _ _ _ _ _ _ _ _ _ _ _ _ h he hst,
            find_route_loop_pop_stale _ _ _ _ _ _ _ _ _ _ _ _ h he hst]
          exact ih q' cf kn s hs
        · by_cases hl : L < s + 1
          · have hov : overLimit (some L) (s + 1) = true := by
              simp [overLimit, hl]
            rw [find_route_loop_pop_over _ _ _ _ _ _ _ _ _ _ _ _ h he
                (Bool.not_eq_true _ ▸ hst) hov,
              find_route_loop_pop_expand _ _ _ _ none _ _ _ _ _ _ _ h he
                (Bool.not_eq_true _ ▸ hst) rfl]
            refine iff_of_true rfl ?_
            exact lt_of_lt_of_le hl
              (find_route_loop_steps_mono g endId d ep none fuel _ _ _ (s + 1))
          · have hov : overLimit (some L) (s + 1) = false := by
              simp [overLimit, hl]
            rw [find_route_loop_pop_expand _ _ _ _ _ _ _ _ _ _ _ _ h he
                (Bool.not_eq_true _ ▸ hst) hov,
              find_route_loop_pop_expand _ _ _ _ none _ _ _ _ _ _ _ h he
                (Bool.not_eq_true _ ▸ hst) rfl]
            exact ih _ _ _ (s + 1) (Nat.lt_succ_iff.mp (Nat.not_lt.mp hl |> Nat.lt_succ_of_le))

theorem find_route_wta_loop_steps_mono (g : Graph) (endId : Int)
    (d : Position → Position → ℚ) (ep : Position) (sl : Option Nat) :
    ∀ (fuel : Nat) q cf kn (s : Nat),
    s ≤ (find_route_wta_loop g endId d ep sl fuel q cf kn s).2.1 := by
  intro fuel
  induction fuel with
  | zero => intro q cf kn s; simp [find_route_wta_loop_zero]
  | succ fuel ih =>
    intro q cf kn s
    cases h : heappop q with
    | none => simp [find_route_wta_loop_empty _ _ _ _ _ _ _ _ _ _ h]
    | some pr =>
      obtain ⟨item, q'⟩ := pr
      by_cases he : item.node_id = endId
      · rw [find_route_wta_loop_pop_end _ _ _ _ _ _ _ _ _ _ _ _ h he]
        cases hr : reconstruct_path_wta cf (cf.length + 1)
          (item.node_id, item.external_id_before) [] <;> simp
      · by_cases hst : isStaleWTA kn item = true
        · rw [find_route_wta_loop_pop_stale _ _ _ _ _ _ _ _ _ _ _ _ h he hst]
          exact ih q' cf kn s
        · by_cases hov : overLimit sl (s + 1) = true
          · rw [find_route_wta_loop_pop_over _ _ _ _ _ _ _ _ _ _ _ _ h he
              (Bool.not_eq_true _ ▸ hst) hov]
            exact Nat.le_succ s
          · rw [find_route_wta_loop_pop_expand _ _ _ _ _ _ _ _ _ _ _ _ h he
              (Bool.not_eq_true _ ▸ hst) (Bool.not_eq_true _ ▸ hov)]
            exact le_trans (Nat.le_succ s) (ih _ _ _ (s + 1))

theorem find_route_wta_loop_none_ne_SLE (g : Graph) (endId : Int)
    (d : Position → Position → ℚ) (ep : Position) :
    ∀ (fuel : Nat) q cf kn (s : Nat),
    (find_route_wta_loop g endId d ep none fuel q cf kn s).1 ≠
      RouteResult.stepLimitExceeded := by
  intro fuel
  induction fuel with
  | zero => intro q cf kn s; simp [find_route_wta_loop_zero]
  | succ fuel ih =>
    intro q cf kn s
    cases h : heappop q with
    | none => simp [find_route_wta_loop_empty _ _ _ _ _ _ _ _ _ _ h]
    | some pr =>
      obtain ⟨item, q'⟩ := pr
      by_cases he : item.node_id = endId
      · rw [find_route_wta_loop_pop_end _ _ _ _ _ _ _ _ _ _ _ _ h he]
        cases hr : reconstruct_path_wta cf (cf.length + 1)
          (item.node_id, item.external_id_before) [] <;> simp
      · by_cases hst : isStaleWTA kn item = true
        · rw [find_route_wta_loop_pop_stale _ _ _ _ _ _ _ _ _ _ _ _ h he hst]
          exact ih q' cf kn s
        · rw [find_route_wta_loop_pop_expand _ _ _ _ none _ _ _ _ _ _ _ h he
            (Bool.not_eq_true _ ▸ hst) rfl]
          exact ih _ _ _ (s + 1)

theorem find_route_wta_loop_SLE_iff (g : Graph) (endId : Int)
    (d : Position → Position → ℚ) (ep : Position) (L : Nat) :
    ∀ (fuel : Nat) q cf kn (s : Nat), s ≤ L →
    ((find_route_wta_loop g endId d ep (some L) fuel q cf kn s).1 =
        RouteResult.stepLimitExceeded ↔
      L < (find_route_wta_loop g endId d ep none fuel q cf kn s).2.1) := by
  intro fuel
  induction fuel with
  | zero =>
    intro q cf kn s hs
    simp [find_route_wta_loop_zero, Nat.not_lt.mpr hs]
  | succ fuel ih =>
    intro q cf kn s hs
    cases h : heappop q with
    | none =>
      rw [find_route_wta_loop_empty _ _ _ _ _ _ _ _ _ _ h,
        find_route_wta_loop_empty _ _ _ _ _ _ _ _ _ _ h]
      simp [Nat.not_lt.mpr hs]
    | some pr =>
      obtain ⟨item, q'⟩ := pr
      by_cases he : item.node_id = endId
      · rw [find_route_wta_loop_pop_end _ _ _ _ _ _ _ _ _ _ _ _ h he,
          find_route_wta_loop_pop_end _ _ _ _ _ _ _ _ _ _ _ _ h he]
        cases hr : reconstruct_path_wta cf (cf.length + 1)
          (item.node_id, item.external_id_before) [] <;>
          simp [Nat.not_lt.mpr hs]
      · by_cases hst : isStaleWTA kn item = true
        · rw [find_route_wta_loop_pop_stale _ _ _ _ _ _ _ _ _ _ _ _ h he hst,
            find_route_wta_loop_pop_stale _ _ _ _ _ _ _ _ _ _ _ _ h he hst]
          exact ih q' cf kn s hs
        · by_cases hl : L < s + 1
          · have hov : overLimit (some L) (s + 1) = true := by
              simp [overLimit, hl]
            rw [find_route_wta_loop_pop_over _ _ _ _ _ _ _ _ _ _ _ _ h he
                (Bool.not_eq_true _ ▸ hst) hov,
              find_route_wta_loop_pop_expand _ _ _ _ none _ _ _ _ _ _ _ h he
                (Bool.not_eq_true _ ▸ hst) rfl]
            refine iff_of_true rfl ?_
            exact lt_of_lt_of_le hl
              (find_route_wta_loop_steps_mono g endId d ep none fuel _ _ _ (s + 1))
          · have hov : overLimit (some L) (s + 1) = false := by
              simp [overLimit, hl]
            rw [find_route_wta_loop_pop_expand _ _ _ _ _ _ _ _ _ _ _ _ h he
                (Bool.not_eq_true _ ▸ hst) hov,
              find_route_wta_loop_pop_expand _ _ _ _ none _ _ _ _ _ _ _ h he
                (Bool.not_eq_true _ ▸ hst) rfl]
            exact ih _ _ _ (s + 1) (Nat.lt_succ_iff.mp (Nat.not_lt.mp hl |> Nat.lt_succ_of_le))

/-- C8: with a step limit L, find_route and find_route_without_turn_around
raise StepLimitExceeded exactly when the number of popped queue entries that
lead to an expansion (the steps counter, which skips stale entries and the
final pop of the end node) exceeds L before the end node is popped - that
count is the final steps counter of the same search run without a limit.
With step_limit = None the exception is never raised. -/
theorem C8_step_limit_exceeded (g : Graph) (start endId : Int)
    (d : Position → Position → ℚ) (L : Nat) (fuel : Nat) :
    ((find_route g start endId d (some L) fuel).1 =
        RouteResult.stepLimitExceeded ↔
      L < (find_route g start endId d none fuel).2.1) ∧
    (find_route g start endId d none fuel).1 ≠
      RouteResult.stepLimitExceeded ∧
    ((find_route_without_turn_around g start endId d (some L) fuel).1 =
        RouteResult.stepLimitExceeded ↔
      L < (find_route_without_turn_around g start endId d none fuel).2.1) ∧
    (find_route_without_turn_around g start endId d none fuel).1 ≠
      RouteResult.stepLimitExceeded := by
  refine ⟨?_, ?_, ?_, ?_⟩
  · exact find_route_loop_SLE_iff g endId d _ L fuel _ _ _ 0 (Nat.zero_le L)
  · exact find_route_loop_none_ne_SLE g endId d _ fuel _ _ _ 0
  · exact find_route_wta_loop_SLE_iff g endId d _ L fuel _ _ _ 0 (Nat.zero_le L)
  · exact find_route_wta_loop_none_ne_SLE g endId d _ fuel _ _ _ 0

/-! ## C4: the no-turn-around guarantee -/

/-- No immediate turn-around in a node list: positions i and i+2 never hold
nodes with the same external id. -/
def noTA3 (g : Graph) (p : List Int) : Prop :=
  ∀ i a c, p.get? i = some a → p.get? (i + 2) = some c →
    extId g a ≠ extId g c

theorem noTA3_nil (g : Graph) : noTA3 g [] := by
  intro i a c ha
  simp at ha

theorem noTA3_singleton (g : Graph) (x : Int) : noTA3 g [x] := by
  intro i a c ha hc
  cases i with
  | zero => simp at hc
  | succ j => simp at ha

theorem noTA3_cons (g : Graph) (x : Int) (p : List Int)
    (hp : noTA3 g p) (hx : ∀ c, p.get? 1 = some c → extId g x ≠ extId g c) :
    noTA3 g (x :: p) := by
  intro i a c ha hc
  cases i with
  | zero =>
    simp only [List.get?_cons_zero, Option.some_inj] at ha
    subst ha
    exact hx c (by simpa using hc)
  | succ j =>
    exact hp j a c (by simpa using ha) (by simpa using hc)

/-- The invariant of the came_from map of find_route_without_turn_around:
every recorded predecessor link carries the external id of the predecessor
in the key, and the guard of relaxOneWTA forbids stepping onto a node whose
external id equals the key component of the predecessor. -/
def cfInv (g : Graph) (cf : List (NodeAndBefore × NodeAndBefore)) : Prop :=
  ∀ k k', alget cf k = some k' →
    k.2 = some (extId g k'.1) ∧ some (extId g k.1) ≠ k'.2

theorem cfInv_nil (g : Graph) : cfInv g [] := by
  intro k k' h
  simp [alget] at h

theorem relaxOneWTA_cfInv (g : Graph) (d : Position → Position → ℚ)
    (ep : Position) (item : AStarQueueItem)
    (st : List AStarQueueItem × List (NodeAndBefore × NodeAndBefore) ×
      List (NodeAndBefore × ℚ)) (e : Int × ℚ)
    (hinv : cfInv g st.2.1) :
    cfInv g (relaxOneWTA g d ep item (extId g item.node_id) st e).2.1 := by
  unfold relaxOneWTA
  by_cases hskip : some (getNodeD g e.1).external_id = item.external_id_before
  · simpa [hskip] using hinv
  · rw [if_neg hskip]
    by_cases hbet : (match alget st.2.2 (e.1, some (extId g item.node_id)) with
        | some k => decide (item.cost + e.2 < k)
        | none => true) = true
    · simp only [hbet, if_true]
      intro k k' h
      by_cases hk : k = (e.1, some (extId g item.node_id))
      · subst hk
        rw [alget_alset_self] at h
        rcases Option.some_inj.mp h with rfl
        exact ⟨rfl, hskip⟩
      · rw [alget_alset_ne _ _ _ _ hk] at h
        exact hinv k k' h
    · simp only [Bool.not_eq_true] at hbet
      simpa [hbet] using hinv

theorem foldl_relaxOneWTA_cfInv (g : Graph) (d : Position → Position → ℚ)
    (ep : Position) (item : AStarQueueItem) (es : List (Int × ℚ)) :
    ∀ st, cfInv g st.2.1 →
    cfInv g (es.foldl (relaxOneWTA g d ep item (extId g item.node_id)) st).2.1 := by
  induction es with
  | nil => intro st h; simpa using h
  | cons e es ih =>
    intro st h
    exact ih _ (relaxOneWTA_cfInv g d ep item st e h)

theorem reconstruct_path_wta_noTA3 (g : Graph)
    (cf : List (NodeAndBefore × NodeAndBefore)) (hinv : cfInv g cf) :
    ∀ (fuel : Nat) (nd : NodeAndBefore) (acc p : List Int),
    noTA3 g (nd.1 :: acc) →
    (acc = [] ∨ ∃ kx : NodeAndBefore,
      acc.head? = some kx.1 ∧ alget cf kx = some nd) →
    reconstruct_path_wta cf fuel nd acc = some p → noTA3 g p := by
  intro fuel
  induction fuel with
  | zero =>
    intro nd acc p h1 h2 hr
    simp [reconstruct_path_wta] at hr
  | succ fuel ih =>
    intro nd acc p h1 h2 hr
    simp only [reconstruct_path_wta] at hr
    cases hprev : alget cf nd with
    | none =>
      rw [hprev] at hr
      simp only [Option.some_inj] at hr
      exact hr ▸ h1
    | some prev =>
      rw [hprev] at hr
      refine ih prev (nd.1 :: acc) p ?_ (Or.inr ⟨nd, rfl, hprev⟩) hr
      refine noTA3_cons g prev.1 (nd.1 :: acc) h1 ?_
      intro c hc
      rcases h2 with h2 | ⟨kx, hkh, hkx⟩
      · subst h2
        simp at hc
      · have hc' : c = kx.1 := by
          cases acc with
          | nil => simp at hkh
          | cons y ys =>
            simp only [List.head?_cons, Option.some_inj] at hkh
            simp only [List.get?_cons_succ, List.get?_cons_zero,
              Option.some_inj] at hc
            rw [← hc, hkh]
        rcases hinv kx nd hkx with ⟨_, hne1⟩
        rcases hinv nd prev hprev with ⟨heq2, _⟩
        subst hc'
        intro hcontra
        exact hne1 (by rw [heq2, hcontra])

theorem find_route_wta_loop_noTA3 (g : Graph) (endId : Int)
    (d : Position → Position → ℚ) (ep : Position) (sl : Option Nat) :
    ∀ (fuel : Nat) q cf kn (s : Nat) (p : List Int), cfInv g cf →
    (find_route_wta_loop g endId d ep sl fuel q cf kn s).1 =
      RouteResult.route p →
    noTA3 g p := by
  intro fuel
  induction fuel with
  | zero =>
    intro q cf kn s p hinv h
    simp [find_route_wta_loop_zero] at h
  | succ fuel ih =>
    intro q cf kn s p hinv h
    cases hq : heappop q with
    | none =>
      rw [find_route_wta_loop_empty _ _ _ _ _ _ _ _ _ _ hq] at h
      have h2 : RouteResult.route ([] : List Int) = RouteResult.route p := h
      injection h2 with h3
      rw [← h3]
      exact noTA3_nil g
    | some pr =>
      obtain ⟨item, q'⟩ := pr
      by_cases he : item.node_id = endId
      · rw [find_route_wta_loop_pop_end _ _ _ _ _ _ _ _ _ _ _ _ hq he] at h
        cases hr : reconstruct_path_wta cf (cf.length + 1)
            (item.node_id, item.external_id_before) [] with
        | none => rw [hr] at h; simp at h
        | some p' =>
          rw [hr] at h
          have h2 : RouteResult.route p' = RouteResult.route p := h
          injection h2 with h3
          rw [← h3]
          exact reconstruct_path_wta_noTA3 g cf hinv _ _ [] p'
            (noTA3_singleton g _) (Or.inl rfl) hr
      · by_cases hst : isStaleWTA kn item = true
        · rw [find_route_wta_loop_pop_stale _ _ _ _ _ _ _ _ _ _ _ _ hq he hst] at h
          exact ih q' cf kn s p hinv h
        · by_cases hov : overLimit sl (s + 1) = true
          · rw [find_route_wta_loop_pop_over _ _ _ _ _ _ _ _ _ _ _ _ hq he
              (Bool.not_eq_true _ ▸ hst) hov] at h
            simp at h
          · rw [find_route_wta_loop_pop_expand _ _ _ _ _ _ _ _ _ _ _ _ hq he
              (Bool.not_eq_true _ ▸ hst) (Bool.not_eq_true _ ▸ hov)] at h
            exact ih _ _ _ _ p
              (foldl_relaxOneWTA_cfInv g d ep item _ _ hinv) h

/-- C4: every path returned by find_route_without_turn_around contains no
immediate turn-around: no two nodes two positions apart in the returned
sequence share an external id. -/
theorem C4_no_immediate_turn_around (g : Graph) (start endId : Int)
    (d : Position → Position → ℚ) (sl : Option Nat) (fuel : Nat)
    (p : List Int)
    (h : (find_route_without_turn_around g start endId d sl fuel).1 =
      RouteResult.route p) :
    ∀ i a c, p.get? i = some a → p.get? (i + 2) = some c →
      extId g a ≠ extId g c :=
  find_route_wta_loop_noTA3 g endId d _ sl fuel _ _ _ 0 p (cfInv_nil g) h

/-- A two-node graph for search witnesses. -/
def witnessGraph : Graph :=
  { profile := SkeletonProfile,
    nodes := [(1, ⟨1, (0, 0), 1⟩), (2, ⟨2, (1, 0), 2⟩)],
    edges := [(1, [(2, 1)])],
    phantom_node_id_counter := MAX_NODE_ID }

/-- Witness for C4: a concrete search returns the path [1, 2], and the
theorem yields the absence of turn-arounds in it. -/
theorem C4_witness :
    (find_route_without_turn_around witnessGraph 1 2 (fun _ _ => 0) none 5).1 =
      RouteResult.route [1, 2] ∧
    (∀ i a c, ([1, 2] : List Int).get? i = some a →
      ([1, 2] : List Int).get? (i + 2) = some c →
      extId witnessGraph a ≠ extId witnessGraph c) :=
  ⟨by decide,
   C4_no_immediate_turn_around witnessGraph 1 2 (fun _ _ => 0) none 5 [1, 2]
     (by decide)⟩

/-! ## OSM features (the data model of osm/reader.py) -/

structure OSMNode : Type where
  id : Int
  position : Position
  tags : Tags
deriving DecidableEq

structure OSMWay : Type where
  id : Int
  nodes : List Int
  tags : Tags
deriving DecidableEq

inductive MemberType : Type
  | node
  | way
  | relation
deriving DecidableEq

structure RelationMember : Type where
  type : MemberType
  ref : Int
  role : String
deriving DecidableEq

structure OSMRelation : Type where
  id : Int
  members : List RelationMember
  tags : Tags
deriving DecidableEq

inductive Feature : Type
  | node (n : OSMNode)
  | way (w : OSMWay)
  | relation (r : OSMRelation)
deriving DecidableEq

/-! ## The graph builder (osm/graph.py, _GraphBuilder and _GraphChange) -/

/-- The fatal ValueErrors of the builder: a node id at or above _MAX_NODE_ID
(add_node) and an invalid way penalty (_get_way_penalty). -/
inductive BuildError : Type
  | idCollision
  | badPenalty
deriving DecidableEq

/-- The builder state besides the graph: the set of nodes not used by any
way yet, and the node lists of accepted ways. -/
structure GraphBuilder : Type where
  g : Graph
  unused_nodes : List Int
  way_nodes : List (Int × List Int)

/-- _GraphBuilder.add_node. -/
def add_node (b : GraphBuilder) (node : OSMNode) :
    Except BuildError GraphBuilder :=
  if MAX_NODE_ID ≤ node.id then .error .idCollision
  else if (alget b.g.nodes node.id).isSome then .ok b
  else .ok { b with
    g := { b.g with
      nodes := alset b.g.nodes node.id ⟨node.id, node.position, node.id⟩ },
    unused_nodes := node.id :: b.unused_nodes }

/-- _GraphBuilder._get_way_penalty: a rational is always finite, so only the
lower bound of the penalty contract is checked. -/
def get_way_penalty (b : GraphBuilder) (way : OSMWay) :
    Except BuildError (Option ℚ) :=
  match b.g.profile.way_penalty way.tags with
  | none => .ok none
  | some p => if p < 1 then .error .badPenalty else .ok (some p)

/-- _GraphBuilder._get_way_nodes: drop references to unknown nodes; the way
is unusable when fewer than two nodes remain. -/
def get_way_nodes (b : GraphBuilder) (way : OSMWay) : Option (List Int) :=
  let nodes := way.nodes.filter (fun n => (alget b.g.nodes n).isSome)
  if nodes.length < 2 then none else some nodes

/-- dict.setdefault(a, dict())[b] = w on the edge map. -/
def alset2 (edges : List (Int × List (Int × ℚ))) (a b : Int) (w : ℚ) :
    List (Int × List (Int × ℚ)) :=
  alset edges a (alset ((alget edges a).getD []) b w)

/-- _GraphBuilder._create_edges: one edge per direction per consecutive node
pair, with cost penalty times distance. -/
def create_edges (dist : Position → Position → ℚ) (g : Graph)
    (nodes : List Int) (penalty : ℚ) (forward backward : Bool) : Graph :=
  (nodes.zip nodes.tail).foldl (fun g pr =>
    let weight := penalty *
      dist (getNodeD g pr.1).position (getNodeD g pr.2).position
    let g1 := if forward then { g with edges := alset2 g.edges pr.1 pr.2 weight }
              else g
    if backward then { g1 with edges := alset2 g1.edges pr.2 pr.1 weight }
    else g1) g

/-- _GraphBuilder._update_state_after_adding_way. -/
def update_state_after_adding_way (b : GraphBuilder) (way_id : Int)
    (nodes : List Int) : GraphBuilder :=
  { b with
    unused_nodes := b.unused_nodes.filter (fun n => decide (n ∉ nodes)),
    way_nodes := alset b.way_nodes way_id nodes }

/-- _GraphBuilder.add_way. -/
def add_way (dist : Position → Position → ℚ) (b : GraphBuilder)
    (way : OSMWay) : Except BuildError GraphBuilder :=
  match get_way_penalty b way with
  | .error e => .error e
  | .ok none => .ok b
  | .ok (some penalty) =>
    match get_way_nodes b way with
    | none => .ok b
    | some nodes =>
      let dir := b.g.profile.way_direction way.tags
      let g' := create_edges dist b.g nodes penalty dir.1 dir.2
      .ok (update_state_after_adding_way { b with g := g' } way.id nodes)

/-- The last element of a list; 0 is the junk value of the model for the
IndexError cases, which are unreachable from the builder. -/
def lastD (l : List Int) : Int := l.getLast?.getD 0

def headD (l : List Int) : Int := l.head?.getD 0

/-- _GraphBuilder._get_ordered_restriction_members: exactly one from member,
exactly one to member, at least one via member; order from-via...via-to. -/
def order_members_go : List RelationMember → Option RelationMember →
    Option RelationMember → List RelationMember →
    Except String (Option RelationMember × Option RelationMember ×
      List RelationMember)
  | [], f, t, order => .ok (f, t, order)
  | m :: ms, f, t, order =>
    if m.role = "from" then
      match f with
      | some _ => .error "multiple from members"
      | none => order_members_go ms (some m) t order
    else if m.role = "via" then order_members_go ms f t (order ++ [m])
    else if m.role = "to" then
      match t with
      | some _ => .error "multiple to members"
      | none => order_members_go ms f (some m) order
    else order_members_go ms f t order

def get_ordered_restriction_members (r : OSMRelation) :
    Except String (List RelationMember) :=
  match order_members_go r.members none none [] with
  | .error e => .error e
  | .ok (none, _, _) => .error "missing from member"
  | .ok (some _, _, []) => .error "missing via member"
  | .ok (some _, none, _) => .error "missing to member"
  | .ok (some f, some t, order) => .ok (f :: order ++ [t])

/-- _GraphBuilder._restriction_member_to_nodes: node references only for via
members, way references through way_nodes (an empty stored list is treated
as missing, mirroring the Python falsiness check). -/
def restriction_member_to_nodes (b : GraphBuilder) (m : RelationMember) :
    Except String (List Int) :=
  if m.type = MemberType.node ∧ m.role = "via" then
    if (alget b.g.nodes m.ref).isSome then .ok [m.ref]
    else .error "reference to unknown node"
  else if m.type = MemberType.way then
    match alget b.way_nodes m.ref with
    | some ns => if ns.isEmpty then .error "reference to unknown way" else .ok ns
    | none => .error "reference to unknown way"
  else .error "invalid member type"

/-- The tail of _GraphBuilder._flatten_restriction_nodes: members after the
first; via members contribute all but their first node, the final to member
contributes only its second node. In-place reversal of the Python lists is
modelled by value-level reversal. -/
def flatten_go (nodes : List Int) : List (List Int) → Except String (List Int)
  | [] => .ok nodes
  | m :: rest =>
    let oriented : Option (List Int) :=
      if lastD nodes = headD m then some m
      else if lastD nodes = lastD m then some m.reverse
      else none
    match oriented with
    | none => .error "disjoined members"
    | some mm =>
      if rest.isEmpty then .ok (nodes ++ [((mm.drop 1).head?).getD 0])
      else flatten_go (nodes ++ mm.drop 1) rest

/-- _GraphBuilder._flatten_restriction_nodes: orient the from member against
the second member, keep only its last two nodes, then glue the rest. -/
def flatten_restriction_nodes (members_nodes : List (List Int)) :
    Except String (List Int) :=
  match members_nodes with
  | [] => .error "disjoined members"
  | first :: rest =>
    match rest.head? with
    | none => .error "disjoined members"
    | some second =>
      let firstOriented : Option (List Int) :=
        if lastD first = headD second ∨ lastD first = lastD second then
          some first
        else if headD first = headD second ∨ headD first = lastD second then
          some first.reverse
        else none
      match firstOriented with
      | none => .error "disjoined members"
      | some f => flatten_go (f.drop (f.length - 2)) rest

/-- The member-by-member application of restriction_member_to_nodes. -/
def members_to_nodes (b : GraphBuilder) :
    List RelationMember → Except String (List (List Int))
  | [] => .ok []
  | m :: ms =>
    match restriction_member_to_nodes b m with
    | .error e => .error e
    | .ok ns =>
      match members_to_nodes b ms with
      | .error e => .error e
      | .ok rest => .ok (ns :: rest)

/-- _GraphBuilder._get_restriction_nodes. -/
def get_restriction_nodes (b : GraphBuilder) (r : OSMRelation) :
    Except String (List Int) :=
  match get_ordered_restriction_members r with
  | .error e => .error e
  | .ok ord =>
    match members_to_nodes b ord with
    | .error e => .error e
    | .ok members_nodes => flatten_restriction_nodes members_nodes

/-- _GraphChange: the scratch buffer of one atomic restriction application. -/
structure GraphChange : Type where
  new_nodes : List (Int × Int)
  edges_to_add : List (Int × List (Int × ℚ))
  edges_to_remove : List (Int × Int)
  phantom_node_id_counter : Int

def GraphChange.init (g : Graph) : GraphChange :=
  ⟨[], [], [], g.phantom_node_id_counter⟩

/-- _GraphChange._get_to_node_id: the first edge target of the resolved
source node whose external id matches. -/
def get_to_node_id (g : Graph) (ch : GraphChange)
    (from_node_id to_osm_id : Int) : Option Int :=
  let original_from := (alget ch.new_nodes from_node_id).getD from_node_id
  ((alget g.edges original_from).getD []).findSome?
    (fun p => if (getNodeD g p.1).external_id = to_osm_id then some p.1
              else none)

/-- _GraphChange._make_node_clone. -/
def make_node_clone (ch : GraphChange) (original : Int) : GraphChange × Int :=
  let id := ch.phantom_node_id_counter + 1
  ({ ch with
      phantom_node_id_counter := id,
      new_nodes := ch.new_nodes ++ [(id, original)] }, id)

/-- _GraphChange._get_edge_cost. The Python walrus assignment tests the
override for truthiness, so a stored cost of 0.0 falls back to the graph. -/
def get_edge_cost (g : Graph) (ch : GraphChange) (from_id to_id : Int) : ℚ :=
  let fallback :=
    let orig := (alget ch.new_nodes from_id).getD from_id
    (alget ((alget g.edges orig).getD []) to_id).getD 0
  match alget ((alget ch.edges_to_add from_id).getD []) to_id with
  | some c => if c = 0 then fallback else c
  | none => fallback

/-- The loop of _GraphChange.restriction_as_cloned_nodes over the nodes
after the first. -/
def racn_go (g : Graph) (last_osm : Int) :
    List Int → GraphChange → Int → List Int → Option (GraphChange × List Int)
  | [], ch, _, acc => some (ch, acc.reverse)
  | osm :: rest, ch, previous, acc =>
    match get_to_node_id g ch previous osm with
    | none => none
    | some original =>
      if ¬ osm ≠ original ∧ ¬ osm = last_osm then
        let cost := get_edge_cost g ch previous original
        let pr := make_node_clone ch original
        let ch' := { pr.1 with
          edges_to_remove := pr.1.edges_to_remove ++ [(previous, original)],
          edges_to_add := alset2 pr.1.edges_to_add previous pr.2 cost }
        racn_go g last_osm rest ch' pr.2 (pr.2 :: acc)
      else
        racn_go g last_osm rest ch original (original :: acc)

/-- _GraphChange.restriction_as_cloned_nodes. -/
def restriction_as_cloned_nodes (g : Graph) (ch : GraphChange)
    (osm_nodes : List Int) : Option (GraphChange × List Int) :=
  match osm_nodes with
  | [] => none
  | n0 :: rest => racn_go g (lastD osm_nodes) rest ch n0 [n0]

/-- _GraphChange.ensure_only_edge. -/
def ensure_only_edge (g : Graph) (ch : GraphChange)
    (from_node_id to_node_id : Int) : GraphChange :=
  let ch1 : GraphChange :=
    match alget ch.edges_to_add from_node_id with
    | some m =>
      let filtered := m.filter (fun p => decide (p.1 = to_node_id))
      { ch with edges_to_add := alset ch.edges_to_add from_node_id filtered }
    | none => ch
  let original_from := (alget ch1.new_nodes from_node_id).getD from_node_id
  let removals := ((alget g.edges original_from).getD []).filterMap
    (fun p => if p.1 ≠ to_node_id then some (from_node_id, p.1) else none)
  { ch1 with edges_to_remove := ch1.edges_to_remove ++ removals }

/-- One step of _GraphChange._clone_nodes: store the phantom copy of the
node and copy its outgoing edge map. -/
def clone_node_step (g : Graph) (pr : Int × Int) : Graph :=
  let old := getNodeD g pr.2
  { g with
    nodes := alset g.nodes pr.1 ⟨pr.1, old.position, old.external_id⟩,
    edges := alset g.edges pr.1 ((alget g.edges pr.2).getD []) }

/-- One step of _GraphChange._remove_edges (edges[from].pop(to, None);
the missing-source KeyError of Python is unreachable and modelled as a
no-op). -/
def remove_edge_step (g : Graph) (pr : Int × Int) : Graph :=
  match alget g.edges pr.1 with
  | some m => { g with edges := alset g.edges pr.1 (alerase m pr.2) }
  | none => g

/-- One step of _GraphChange._add_edges for a single source node. -/
def add_edges_step (g : Graph) (pr : Int × List (Int × ℚ)) : Graph :=
  pr.2.foldl (fun g q => { g with edges := alset2 g.edges pr.1 q.1 q.2 }) g

/-- _GraphChange.apply: counter, node clones (with their edge maps), edge
removals, edge additions, in this order. -/
def apply_change (g : Graph) (ch : GraphChange) : Graph :=
  let g1 := { g with phantom_node_id_counter := ch.phantom_node_id_counter }
  let g2 := ch.new_nodes.foldl clone_node_step g1
  let g3 := ch.edges_to_remove.foldl remove_edge_step g2
  ch.edges_to_add.foldl add_edges_step g3

/-- _GraphBuilder._store_restriction: build the change set, extend it for the
restriction kind, apply atomically; none when the walk found a non-existing
route (the change is discarded, the graph untouched). -/
def store_restriction (g : Graph) (osm_nodes : List Int)
    (is_mandatory : Bool) : Option Graph :=
  match restriction_as_cloned_nodes g (GraphChange.init g) osm_nodes with
  | none => none
  | some (ch, cloned) =>
    let ch' :=
      if is_mandatory then
        ((cloned.drop 1).zip (cloned.drop 2)).foldl
          (fun c pr => ensure_only_edge g c pr.1 pr.2) ch
      else
        { ch with edges_to_remove := ch.edges_to_remove ++
            [(lastD cloned.dropLast, lastD cloned)] }
    some (apply_change g ch')

/-- _GraphBuilder.add_relation: inapplicable relations are ignored, invalid
restrictions are caught and skipped (the warning is dropped by the model). -/
def add_relation (b : GraphBuilder) (r : OSMRelation) : GraphBuilder :=
  let restriction := b.g.profile.is_turn_restriction r.tags
  if restriction = TurnRestriction.INAPPLICABLE then b
  else
    match get_restriction_nodes b r with
    | .error _ => b
    | .ok nodes =>
      match store_restriction b.g nodes
          (decide (restriction = TurnRestriction.MANDATORY)) with
      | none => b
      | some g' => { b with g := g' }

/-- _GraphBuilder.add_feature. -/
def add_feature (dist : Position → Position → ℚ) (b : GraphBuilder) :
    Feature → Except BuildError GraphBuilder
  | .node n => add_node b n
  | .way w => add_way dist b w
  | .relation r => .ok (add_relation b r)

/-- _GraphBuilder.add_features over a list. -/
def add_features_list (dist : Position → Position → ℚ) (b : GraphBuilder) :
    List Feature → Except BuildError GraphBuilder
  | [] => .ok b
  | f :: fs =>
    match add_feature dist b f with
    | .error e => .error e
    | .ok b2 => add_features_list dist b2 fs

/-- _GraphBuilder.cleanup: remove the nodes no way used. -/
def builder_cleanup (b : GraphBuilder) : Graph :=
  let ns := b.unused_nodes.foldl (fun ns id => alerase ns id) b.g.nodes
  { b.g with nodes := ns }

/-- Graph.add_features (osm/graph.py): _GraphBuilder.add_features_to. -/
def Graph.add_features (dist : Position → Position → ℚ) (g : Graph)
    (features : List Feature) : Except BuildError Graph :=
  (add_features_list dist ⟨g, [], []⟩ features).map builder_cleanup

/-! ## C5: failed turn restrictions leave the graph untouched -/

/-- C5: whenever the processing of a turn-restriction relation fails - a
malformed member set, a reference to an unknown way or node, an invalid
member type, disjoined members (all surfacing as a
get_restriction_nodes error), or a route edge absent from the graph (the
restriction_as_cloned_nodes walk failing inside store_restriction) - the
relation is absorbed without an exception and the graph (nodes, edges and
the phantom-id counter) is exactly the one from before the relation. -/
theorem C5_failed_restriction_is_atomic (dist : Position → Position → ℚ)
    (b : GraphBuilder) (r : OSMRelation)
    (happl : b.g.profile.is_turn_restriction r.tags ≠
      TurnRestriction.INAPPLICABLE)
    (hfail : (∃ e, get_restriction_nodes b r = .error e) ∨
      (∃ ns, get_restriction_nodes b r = .ok ns ∧
        store_restriction b.g ns
          (decide (b.g.profile.is_turn_restriction r.tags =
            TurnRestriction.MANDATORY)) = none)) :
    add_feature dist b (Feature.relation r) = .ok (add_relation b r) ∧
    (add_relation b r).g = b.g := by
  refine ⟨rfl, ?_⟩
  unfold add_relation
  rw [if_neg happl]
  rcases hfail with ⟨e, he⟩ | ⟨ns, hns, hstore⟩
  · rw [he]
  · rw [hns]
    dsimp only
    rw [hstore]

/-- Split a character list at the first underscore; none when absent. -/
def splitAtUnderscore : List Char → Option (List Char × List Char)
  | [] => none
  | c :: cs =>
    if c = '_' then some ([], cs)
    else
      match splitAtUnderscore cs with
      | none => none
      | some pr => some (c :: pr.1, pr.2)

/-- String.partition on the first underscore, as used by the restriction
classification: (kind, description); the separator is dropped. -/
def railway_restriction_kind (s : String) : String × String :=
  match splitAtUnderscore s.data with
  | none => (s, "")
  | some pr => (String.mk pr.1, String.mk pr.2)

def RailwayProfile : Profile :=
  { way_penalty := fun tags =>
      if tagGet tags "access" = some "no" ∨ tagGet tags "access" = some "private"
      then none
      else alget [("rail", 1), ("light_rail", 1), ("subway", 1),
        ("narrow_gauge", 1)] ((tagGet tags "railway").getD ""),
    way_direction := fun tags =>
      match tagGet tags "oneway" with
      | some v =>
        if v = "yes" then (true, false)
        else if v = "-1" then (false, true)
        else (true, true)
      | none => (true, true),
    is_turn_restriction := fun tags =>
      let kd := railway_restriction_kind ((tagGet tags "restriction").getD "")
      if tagGet tags "type" = some "restriction" ∧
          (kd.1 = "no" ∨ kd.1 = "only") ∧
          (kd.2 = "right_turn" ∨ kd.2 = "left_turn" ∨ kd.2 = "u_turn" ∨
           kd.2 = "straight_on") then
        if kd.1 = "no" then TurnRestriction.PROHIBITORY
        else TurnRestriction.MANDATORY
      else TurnRestriction.INAPPLICABLE }

/-- A builder over an empty railway graph, for the C5 witness. -/
def c5Builder : GraphBuilder :=
  ⟨⟨RailwayProfile, [], [], MAX_NODE_ID⟩, [], []⟩

/-- A no_u_turn relation with no via member. -/
def c5Relation : OSMRelation :=
  ⟨77, [⟨MemberType.way, 1, "from"⟩, ⟨MemberType.way, 2, "to"⟩],
   [("type", "restriction"), ("restriction", "no_u_turn")]⟩

/-- Witness for C5: a restriction without a via member is skipped and the
graph is unchanged. -/
theorem C5_witness :
    add_feature (fun _ _ => 1) c5Builder (Feature.relation c5Relation) =
      .ok (add_relation c5Builder c5Relation) ∧
    (add_relation c5Builder c5Relation).g = c5Builder.g :=
  C5_failed_restriction_is_atomic (fun _ _ => 1) c5Builder c5Relation
    (fun h => absurd h (by simp [c5Builder, c5Relation, RailwayProfile,
      railway_restriction_kind, splitAtUnderscore, tagGet, alget]))
    (Or.inl ⟨"missing via member", rfl⟩)

/-! ## C6: ways with direction (false, false) -/

/-- C6 (amended): a way for which the profile reports direction
(false, false) contributes nothing to the graph - no edges and no nodes are
added or removed - but it is NOT dropped: its nodes are recorded as used
(and its node list registered), so they survive the cleanup even when
isolated. -/
theorem C6_direction_false_false_adds_no_edges
    (dist : Position → Position → ℚ) (b : GraphBuilder) (way : OSMWay)
    (hdir : b.g.profile.way_direction way.tags = (false, false)) :
    ∀ result, add_way dist b way = .ok result → result.g = b.g := by
  have hce : ∀ (nodes : List Int) (penalty : ℚ),
      create_edges dist b.g nodes penalty false false = b.g := by
    intro nodes penalty
    unfold create_edges
    induction (nodes.zip nodes.tail) with
    | nil => rfl
    | cons pr prs ih => simpa using ih
  intro result h
  unfold add_way at h
  cases hp : get_way_penalty b way with
  | error e => rw [hp] at h; exact absurd h (by simp)
  | ok popt =>
    rw [hp] at h
    cases popt with
    | none =>
      simp only [Except.ok.injEq] at h
      rw [← h]
    | some penalty =>
      cases hn : get_way_nodes b way with
      | none =>
        rw [hn] at h
        simp only [Except.ok.injEq] at h
        rw [← h]
      | some nodes =>
        rw [hn] at h
        rw [hdir] at h
        simp only [Except.ok.injEq] at h
        rw [← h]
        simp only [update_state_after_adding_way]
        exact hce nodes penalty

/-- The (false, false) profile of the C6 counterexample. -/
def c6Profile : Profile :=
  ⟨fun _ => some 1, fun _ => (false, false), fun _ => TurnRestriction.INAPPLICABLE⟩

def c6Features : List Feature :=
  [Feature.node ⟨1, (0, 0), []⟩, Feature.node ⟨2, (1, 0), []⟩,
   Feature.way ⟨10, [1, 2], []⟩]

def c6Graph : Graph :=
  match Graph.add_features (fun _ _ => 1) ⟨c6Profile, [], [], MAX_NODE_ID⟩
      c6Features with
  | .ok g => g
  | .error _ => ⟨c6Profile, [], [], MAX_NODE_ID⟩

/-- C6 counterexample: after add_features with a profile that reports
(false, false) for the only way, the way is not dropped - its nodes 1 and 2
are retained in the graph with no edges at all, so isolated nodes remain
after add_features returns. -/
theorem C6_counterexample :
    (Graph.add_features (fun _ _ => 1) ⟨c6Profile, [], [], MAX_NODE_ID⟩
      c6Features).isOk = true ∧
    (alget c6Graph.nodes 1).isSome = true ∧
    (alget c6Graph.nodes 2).isSome = true ∧
    c6Graph.edges = [] := by
  refine ⟨by decide, by decide, by decide, by decide⟩

/-- Witness for C6: the amended no-edge statement at a concrete way: the
builder produced by add_way keeps the graph exactly as it was. -/
theorem C6_witness :
    (⟨⟨c6Profile, [(1, ⟨1, (0, 0), 1⟩), (2, ⟨2, (1, 0), 2⟩)], [],
        MAX_NODE_ID⟩, [], [(10, [1, 2])]⟩ : GraphBuilder).g =
      ⟨c6Profile, [(1, ⟨1, (0, 0), 1⟩), (2, ⟨2, (1, 0), 2⟩)], [],
        MAX_NODE_ID⟩ :=
  C6_direction_false_false_adds_no_edges (fun _ _ => 1)
    ⟨⟨c6Profile, [(1, ⟨1, (0, 0), 1⟩), (2, ⟨2, (1, 0), 2⟩)], [],
      MAX_NODE_ID⟩, [1, 2], []⟩ ⟨10, [1, 2], []⟩ rfl
    ⟨⟨c6Profile, [(1, ⟨1, (0, 0), 1⟩), (2, ⟨2, (1, 0), 2⟩)], [],
      MAX_NODE_ID⟩, [], [(10, [1, 2])]⟩ rfl

/-! ## Helper lemmas for the restriction analysis -/

theorem alget_append {κ α : Type} [DecidableEq κ]
    (l1 l2 : List (κ × α)) (k : κ) :
    alget (l1 ++ l2) k =
      match alget l1 k with
      | some v => some v
      | none => alget l2 k := by
  induction l1 with
  | nil => simp [alget]
  | cons p ps ih =>
    by_cases hp : p.1 = k
    · simp [alget, hp]
    · simpa [alget, hp] using ih

theorem alget_append_left {κ α : Type} [DecidableEq κ]
    {l1 : List (κ × α)} {k : κ} {v : α} (l2 : List (κ × α))
    (h : alget l1 k = some v) : alget (l1 ++ l2) k = some v := by
  rw [alget_append, h]

theorem alget_append_right {κ α : Type} [DecidableEq κ]
    {l1 : List (κ × α)} {k : κ} (l2 : List (κ × α))
    (h : alget l1 k = none) : alget (l1 ++ l2) k = alget l2 k := by
  rw [alget_append, h]

theorem alset_eq_append {κ α : Type} [DecidableEq κ]
    {l : List (κ × α)} {k : κ} (v : α)
    (h : alget l k = none) : alset l k v = l ++ [(k, v)] := by
  induction l with
  | nil => simp [alset]
  | cons p ps ih =>
    by_cases hp : p.1 = k
    · simp [alget, hp] at h
    · simp only [alget, hp, if_false] at h
      simp [alset, hp, ih h]

/-- Ids of the phantom clones minted by a walk of n steps starting from a
given counter value. -/
def chainIds (ctr : Int) : Nat → List Int
  | 0 => []
  | n + 1 => (ctr + 1) :: chainIds (ctr + 1) n

theorem chainIds_length (ctr : Int) (n : Nat) : (chainIds ctr n).length = n := by
  induction n generalizing ctr with
  | zero => rfl
  | succ n ih => simp [chainIds, ih]

theorem chainIds_mem_gt (ctr : Int) (n : Nat) :
    ∀ x ∈ chainIds ctr n, ctr < x := by
  induction n generalizing ctr with
  | zero => simp [chainIds]
  | succ n ih =>
    intro x hx
    rcases List.mem_cons.mp hx with rfl | hx
    · omega
    · have := ih (ctr + 1) x hx
      omega

theorem chainIds_mem_le (ctr : Int) (n : Nat) :
    ∀ x ∈ chainIds ctr n, x ≤ ctr + n := by
  induction n generalizing ctr with
  | zero => simp [chainIds]
  | succ n ih =>
    intro x hx
    rcases List.mem_cons.mp hx with rfl | hx
    · omega
    · have := ih (ctr + 1) x hx
      omega

theorem chainIds_nodup (ctr : Int) (n : Nat) : (chainIds ctr n).Nodup := by
  induction n generalizing ctr with
  | zero => simp [chainIds]
  | succ n ih =>
    simp only [chainIds, List.nodup_cons]
    exact ⟨fun h => absurd (chainIds_mem_gt (ctr + 1) n _ h) (by omega), ih (ctr + 1)⟩

/-- The singleton edge additions of the restriction walk: one new edge per
pair, with the matching weight. -/
def singletonAdds : List (Int × Int) → List ℚ → List (Int × List (Int × ℚ))
  | [], _ => []
  | _ :: _, [] => []
  | pr :: prs, w :: ws => (pr.1, [(pr.2, w)]) :: singletonAdds prs ws

theorem pathIn_drop (g : Graph) (p : List Int) (h : pathIn g p) (i : Nat) :
    pathIn g (p.drop i) := by
  induction i generalizing p with
  | zero => simpa using h
  | succ i ih =>
    cases p with
    | nil => simp [pathIn]
    | cons x xs =>
      simp only [List.drop_succ_cons]
      exact ih xs (List.Chain'.tail h)

theorem chain_take {α : Type} (R : α → α → Prop) (p : List α)
    (h : p.Chain' R) (n : Nat) : (p.take n).Chain' R := by
  induction p generalizing n with
  | nil => simp
  | cons x xs ih =>
    cases n with
    | zero => simp
    | succ n =>
      simp only [List.take_succ_cons]
      cases xs with
      | nil => simp
      | cons y ys =>
        rcases (List.chain'_cons).mp h with ⟨hxy, htail⟩
        cases n with
        | zero => simp
        | succ n =>
          rw [List.take_succ_cons]
          exact (List.chain'_cons).mpr ⟨hxy, by
            have := ih htail (n + 1)
            simpa using this⟩

theorem pathIn_take (g : Graph) (p : List Int) (h : pathIn g p) (n : Nat) :
    pathIn g (p.take n) :=
  chain_take _ p h n

theorem findSome_eq_some {α β : Type} (f : α → Option β) :
    ∀ (l : List α) (b : β), l.findSome? f = some b → ∃ a ∈ l, f a = some b := by
  intro l
  induction l with
  | nil => intro b h; simp [List.findSome?] at h
  | cons x xs ih =>
    intro b h
    rw [List.findSome?_cons] at h
    cases hf : f x with
    | some c =>
      rw [hf] at h
      exact ⟨x, List.mem_cons_self _ _, hf.trans h⟩
    | none =>
      rw [hf] at h
      obtain ⟨a, ha, hfa⟩ := ih b h
      exact ⟨a, List.mem_cons_of_mem _ ha, hfa⟩

/-- What a successful _get_to_node_id tells us on a phantom-free graph: the
candidate scan only sees stored nodes, which carry their id as external id,
so the returned node is the requested OSM id itself, it is stored, and the
edge from the resolved source to it exists. -/
theorem get_to_node_id_spec (g : Graph)
    (hreg : ∀ x nd, alget g.nodes x = some nd → nd.external_id = x)
    (htgt : ∀ a m, alget g.edges a = some m → ∀ p ∈ m,
      (alget g.nodes p.1).isSome = true)
    (ch : GraphChange) (prev rp osm t : Int)
    (hres : (alget ch.new_nodes prev).getD prev = rp)
    (h : get_to_node_id g ch prev osm = some t) :
    t = osm ∧ (alget g.nodes osm).isSome = true ∧
      osm ∈ ((alget g.edges rp).getD []).map Prod.fst := by
  unfold get_to_node_id at h
  rw [hres] at h
  obtain ⟨p, hp, hcond⟩ := findSome_eq_some _ _ _ h
  have hmem : ∃ m, alget g.edges rp = some m ∧ p ∈ m := by
    cases he : alget g.edges rp with
    | none => rw [he] at hp; simp at hp
    | some m => rw [he] at hp; exact ⟨m, rfl, by simpa using hp⟩
  obtain ⟨m, hm, hpm⟩ := hmem
  have hnode : (alget g.nodes p.1).isSome = true := htgt rp m hm p hpm
  obtain ⟨nd, hnd⟩ := Option.isSome_iff_exists.mp hnode
  have hext : (getNodeD g p.1).external_id = p.1 := by
    unfold getNodeD
    rw [hnd]
    exact hreg p.1 nd hnd
  by_cases hc : (getNodeD g p.1).external_id = osm
  · rw [if_pos hc] at hcond
    have ht : t = p.1 := (Option.some_inj.mp hcond).symm
    have hposm : p.1 = osm := by rw [← hext, hc]
    refine ⟨ht.trans hposm, ?_, ?_⟩
    · rw [← hposm]; exact hnode
    · rw [hm, ← hposm]
      simp only [Option.getD_some]
      exact List.mem_map_of_mem Prod.fst hpm
  · rw [if_neg hc] at hcond
    exact absurd hcond (by simp)

/-- The full characterisation of a successful restriction walk on a
phantom-free graph: each middle node is cloned onto a fresh phantom id, the
entry edge of each step is scheduled for removal and replaced by an edge to
the new clone, and the walk requires every consecutive route edge to exist
in the untouched graph. -/
theorem racn_go_spec (g : Graph)
    (hreg : ∀ x nd, alget g.nodes x = some nd → nd.external_id = x)
    (htgt : ∀ a m, alget g.edges a = some m → ∀ p ∈ m,
      (alget g.nodes p.1).isSome = true)
    (last : Int) :
    ∀ (mids : List Int) (prev rp : Int) (ch : GraphChange) (acc : List Int)
      (ch2 : GraphChange) (cloned : List Int),
    (alget ch.new_nodes prev).getD prev = rp →
    (∀ x ∈ ch.new_nodes.map Prod.fst, x ≤ ch.phantom_node_id_counter) →
    (∀ x ∈ ch.edges_to_add.map Prod.fst, x ≤ ch.phantom_node_id_counter) →
    alget ch.edges_to_add prev = none →
    prev ≤ ch.phantom_node_id_counter →
    (∀ x ∈ mids, x ≠ last) →
    racn_go g last (mids ++ [last]) ch prev acc = some (ch2, cloned) →
    ch2.phantom_node_id_counter =
      ch.phantom_node_id_counter + (mids.length : Int) ∧
    ch2.new_nodes = ch.new_nodes ++
      (chainIds ch.phantom_node_id_counter mids.length).zip mids ∧
    ch2.edges_to_remove = ch.edges_to_remove ++
      ((prev :: (chainIds ch.phantom_node_id_counter mids.length).dropLast).zip
        mids) ∧
    (∃ ws : List ℚ, ws.length = mids.length ∧
      ch2.edges_to_add = ch.edges_to_add ++
      singletonAdds
        ((prev ::
          (chainIds ch.phantom_node_id_counter mids.length).dropLast).zip
          (chainIds ch.phantom_node_id_counter mids.length)) ws) ∧
    cloned = acc.reverse ++
      chainIds ch.phantom_node_id_counter mids.length ++ [last] ∧
    (∀ x ∈ mids, (alget g.nodes x).isSome = true) ∧
    (alget g.nodes last).isSome = true ∧
    ((rp :: mids) ++ [last]).Chain'
      (fun a b => b ∈ ((alget g.edges a).getD []).map Prod.fst) := by
  intro mids
  induction mids with
  | nil =>
    intro prev rp ch acc ch2 cloned hres hnn hea heaprev hprevle hml hrun
    simp only [List.nil_append, racn_go] at hrun
    cases hg : get_to_node_id g ch prev last with
    | none => rw [hg] at hrun; exact absurd hrun (by simp)
    | some original =>
      rw [hg] at hrun
      obtain ⟨horig, hlastnode, hedge⟩ :=
        get_to_node_id_spec g hreg htgt ch prev rp last original hres hg
      rw [horig] at hrun
      dsimp only at hrun
      rw [if_neg (fun hc => hc.2 trivial)] at hrun
      have hrun2 : (some (ch, (last :: acc).reverse) :
          Option (GraphChange × List Int)) = some (ch2, cloned) := hrun
      injection hrun2 with h1
      injection h1 with h1a h1b
      subst h1a
      subst h1b
      refine ⟨by simp, by simp [chainIds], by simp [chainIds],
        ⟨[], by simp, by simp [chainIds, singletonAdds]⟩,
        by simp [chainIds], by simp, hlastnode, ?_⟩
      simpa using hedge
  | cons osm rest ih =>
    intro prev rp ch acc ch2 cloned hres hnn hea heaprev hprevle hml hrun
    simp only [List.cons_append, racn_go] at hrun
    cases hg : get_to_node_id g ch prev osm with
    | none => rw [hg] at hrun; exact absurd hrun (by simp)
    | some original =>
      rw [hg] at hrun
      obtain ⟨horig, hosmnode, hedge⟩ :=
        get_to_node_id_spec g hreg htgt ch prev rp osm original hres hg
      rw [horig] at hrun
      dsimp only at hrun
      have hosml : osm ≠ last := hml osm (List.mem_cons_self _ _)
      rw [if_pos ⟨fun hh => hh rfl, hosml⟩] at hrun
      simp only [make_node_clone] at hrun
      have heaeq : alset2 ch.edges_to_add prev (ch.phantom_node_id_counter + 1)
          (get_edge_cost g ch prev osm) = ch.edges_to_add ++
            [(prev, [(ch.phantom_node_id_counter + 1,
              get_edge_cost g ch prev osm)])] := by
        unfold alset2
        rw [heaprev]
        simp only [Option.getD_none]
        exact alset_eq_append _ heaprev
      rw [heaeq] at hrun
      have hih := ih (ch.phantom_node_id_counter + 1) osm
        ⟨ch.new_nodes ++ [(ch.phantom_node_id_counter + 1, osm)],
         ch.edges_to_add ++ [(prev, [(ch.phantom_node_id_counter + 1,
           get_edge_cost g ch prev osm)])],
         ch.edges_to_remove ++ [(prev, osm)],
         ch.phantom_node_id_counter + 1⟩
        ((ch.phantom_node_id_counter + 1) :: acc) ch2 cloned
        (by
          dsimp only
          rw [alget_append_right _ (alget_eq_none (fun hmem =>
            absurd (hnn _ hmem) (by omega)))]
          simp [alget])
        (by
          dsimp only
          intro x hx
          simp only [List.map_append, List.mem_append] at hx
          rcases hx with hx | hx
          · exact le_trans (hnn x hx) (by omega)
          · simp at hx
            omega)
        (by
          dsimp only
          intro x hx
          simp only [List.map_append, List.mem_append] at hx
          rcases hx with hx | hx
          · exact le_trans (hea x hx) (by omega)
          · simp at hx
            omega)
        (by
          dsimp only
          rw [alget_append_right _ (alget_eq_none (fun hmem =>
            absurd (hea _ hmem) (by omega)))]
          simp only [alget]
          rw [if_neg (by omega)])
        (by dsimp only; omega)
        (fun x hx => hml x (List.mem_cons_of_mem _ hx))
        hrun
      obtain ⟨hc1, hc2, hc3, ⟨ws, hwsl, hc4⟩, hc5, hc6, hc7, hc8⟩ := hih
      simp only at hc1 hc2 hc3 hc4 hc5
      have hchain : chainIds ch.phantom_node_id_counter (rest.length + 1) =
          (ch.phantom_node_id_counter + 1) ::
            chainIds (ch.phantom_node_id_counter + 1) rest.length := rfl
      refine ⟨?_, ?_, ?_, ?_, ?_, ?_, hc7, ?_⟩
      · rw [hc1]
        simp only [List.length_cons]
        push_cast
        ring
      · rw [hc2, List.length_cons, hchain]
        simp [List.append_assoc]
      · rw [hc3, List.length_cons, hchain]
        cases rest with
        | nil => simp [chainIds]
        | cons r rs =>
          have : chainIds (ch.phantom_node_id_counter + 1) (r :: rs).length =
              (ch.phantom_node_id_counter + 1 + 1) ::
                chainIds (ch.phantom_node_id_counter + 1 + 1) rs.length := rfl
          rw [this, List.dropLast_cons₂, ← this]
          simp [List.append_assoc]
      · refine ⟨get_edge_cost g ch prev osm :: ws, by simp [hwsl], ?_⟩
        rw [hc4, List.length_cons, hchain]
        cases rest with
        | nil => simp [chainIds, singletonAdds]
        | cons r rs =>
          have : chainIds (ch.phantom_node_id_counter + 1) (r :: rs).length =
              (ch.phantom_node_id_counter + 1 + 1) ::
                chainIds (ch.phantom_node_id_counter + 1 + 1) rs.length := rfl
          rw [this, List.dropLast_cons₂, ← this]
          simp [List.append_assoc, singletonAdds, List.zip]
      · rw [hc5, List.length_cons, hchain]
        simp [List.append_assoc]
      · intro x hx
        rcases List.mem_cons.mp hx with rfl | hx
        · exact hosmnode
        · exact hc6 x hx
      · simp only [List.cons_append, List.chain'_cons] at hc8 ⊢
        exact ⟨hedge, hc8⟩


/-! ## The apply phase: per-key characterisation of the three folds -/

theorem alerase_keys_subset {κ α : Type} [DecidableEq κ]
    (l : List (κ × α)) (k x : κ) (h : x ∈ (alerase l k).map Prod.fst) :
    x ∈ l.map Prod.fst := by
  induction l with
  | nil => simpa [alerase] using h
  | cons p ps ih =>
    by_cases hp : p.1 = k
    · simp only [alerase, hp, if_true] at h
      simp [h]
    · simp only [alerase, hp, if_false, List.map_cons, List.mem_cons] at h
      rcases h with h | h
      · simp [h]
      · simp [ih h]

theorem alerase_nodup {κ α : Type} [DecidableEq κ]
    (l : List (κ × α)) (k : κ) (h : (l.map Prod.fst).Nodup) :
    ((alerase l k).map Prod.fst).Nodup := by
  induction l with
  | nil => simpa [alerase] using h
  | cons p ps ih =>
    simp only [List.map_cons, List.nodup_cons] at h
    by_cases hp : p.1 = k
    · simpa [alerase, hp] using h.2
    · simp only [alerase, hp, if_false, List.map_cons, List.nodup_cons]
      exact ⟨fun hm => h.1 (alerase_keys_subset ps k p.1 hm), ih h.2⟩

theorem alget_alerase_of_none {κ α : Type} [DecidableEq κ]
    (l : List (κ × α)) (k t : κ) (h : alget l t = none) :
    alget (alerase l k) t = none := by
  cases hg : alget (alerase l k) t with
  | none => rfl
  | some v =>
    have h1 : t ∈ (alerase l k).map Prod.fst := by
      have := (alget_isSome_iff (alerase l k) t).mp (by simp [hg])
      exact this
    have h2 : t ∈ l.map Prod.fst := alerase_keys_subset l k t h1
    have := (alget_isSome_iff l t).mpr h2
    rw [h] at this
    simp at this

/-- Repeated alerase, the cumulative effect of a run of removals on one edge
map. -/
def eraseAll (m : List (Int × ℚ)) (ts : List Int) : List (Int × ℚ) :=
  ts.foldl alerase m

/-- The removal targets of a removal list aimed at one source key. -/
def removalTargets (rm : List (Int × Int)) (x : Int) : List Int :=
  rm.filterMap (fun pr => if pr.1 = x then some pr.2 else none)

theorem eraseAll_nodup (ts : List Int) (m : List (Int × ℚ))
    (h : (m.map Prod.fst).Nodup) : ((eraseAll m ts).map Prod.fst).Nodup := by
  induction ts generalizing m with
  | nil => simpa [eraseAll] using h
  | cons s ss ih =>
    simp only [eraseAll, List.foldl_cons] at ih ⊢
    exact ih (alerase m s) (alerase_nodup m s h)

theorem alget_eraseAll_of_none (ts : List Int) (m : List (Int × ℚ)) (t : Int)
    (h : alget m t = none) : alget (eraseAll m ts) t = none := by
  induction ts generalizing m with
  | nil => simpa [eraseAll] using h
  | cons s ss ih =>
    simp only [eraseAll, List.foldl_cons] at ih ⊢
    exact ih (alerase m s) (alget_alerase_of_none m s t h)

theorem alget_eraseAll_mem (ts : List Int) (m : List (Int × ℚ)) (t : Int)
    (hnd : (m.map Prod.fst).Nodup) (h : t ∈ ts) :
    alget (eraseAll m ts) t = none := by
  induction ts generalizing m with
  | nil => simp at h
  | cons s ss ih =>
    simp only [eraseAll, List.foldl_cons] at ih ⊢
    rcases List.mem_cons.mp h with rfl | h
    · exact alget_eraseAll_of_none ss _ t (alget_alerase_self m t hnd)
    · exact ih (alerase m s) (alerase_nodup m s hnd) h

theorem alget_eraseAll_not_mem (ts : List Int) (m : List (Int × ℚ)) (t : Int)
    (h : t ∉ ts) : alget (eraseAll m ts) t = alget m t := by
  induction ts generalizing m with
  | nil => simp [eraseAll]
  | cons s ss ih =>
    simp only [List.mem_cons] at h
    push_neg at h
    simp only [eraseAll, List.foldl_cons] at ih ⊢
    rw [ih (alerase m s) h.2]
    exact alget_alerase_ne m s t h.1

theorem clone_fold_nodes_not_mem (nn : List (Int × Int)) :
    ∀ (g : Graph) (x : Int), x ∉ nn.map Prod.fst →
    alget (nn.foldl clone_node_step g).nodes x = alget g.nodes x := by
  induction nn with
  | nil => intro g x _; rfl
  | cons p ps ih =>
    intro g x h
    simp only [List.map_cons, List.mem_cons] at h
    push_neg at h
    rw [List.foldl_cons, ih _ x h.2]
    simp only [clone_node_step]
    exact alget_alset_ne _ _ _ _ h.1

theorem clone_fold_edges_not_mem (nn : List (Int × Int)) :
    ∀ (g : Graph) (x : Int), x ∉ nn.map Prod.fst →
    alget (nn.foldl clone_node_step g).edges x = alget g.edges x := by
  induction nn with
  | nil => intro g x _; rfl
  | cons p ps ih =>
    intro g x h
    simp only [List.map_cons, List.mem_cons] at h
    push_neg at h
    rw [List.foldl_cons, ih _ x h.2]
    simp only [clone_node_step]
    exact alget_alset_ne _ _ _ _ h.1

theorem clone_fold_mem (nn : List (Int × Int)) :
    ∀ (g : Graph) (c n : Int), (nn.map Prod.fst).Nodup →
    (∀ pr ∈ nn, pr.2 ∉ nn.map Prod.fst) → (c, n) ∈ nn →
    alget (nn.foldl clone_node_step g).nodes c =
      some ⟨c, (getNodeD g n).position, (getNodeD g n).external_id⟩ ∧
    alget (nn.foldl clone_node_step g).edges c =
      some ((alget g.edges n).getD []) := by
  induction nn with
  | nil => intro g c n _ _ h; simp at h
  | cons p ps ih =>
    intro g c n hnd hdisj hmem
    simp only [List.map_cons, List.nodup_cons] at hnd
    rw [List.foldl_cons]
    rcases List.mem_cons.mp hmem with heq | hmem
    · have hc : p = (c, n) := heq.symm
      subst hc
      rw [clone_fold_nodes_not_mem ps _ c hnd.1,
          clone_fold_edges_not_mem ps _ c hnd.1]
      simp only [clone_node_step]
      exact ⟨alget_alset_self _ _ _, alget_alset_self _ _ _⟩
    · have hn : n ∉ (p :: ps).map Prod.fst :=
        hdisj (c, n) (List.mem_cons_of_mem _ hmem)
      simp only [List.map_cons, List.mem_cons] at hn
      push_neg at hn
      have hres := ih (clone_node_step g p) c n hnd.2
        (fun pr hpr hmm => hdisj pr (List.mem_cons_of_mem _ hpr)
          (by simp only [List.map_cons, List.mem_cons]; exact Or.inr hmm))
        hmem
      have hnode : getNodeD (clone_node_step g p) n = getNodeD g n := by
        unfold getNodeD clone_node_step
        simp only
        rw [alget_alset_ne _ _ _ _ hn.1]
      have hedge : alget (clone_node_step g p).edges n = alget g.edges n := by
        unfold clone_node_step
        simp only
        rw [alget_alset_ne _ _ _ _ hn.1]
      rw [hnode, hedge] at hres
      exact hres

theorem remove_fold_edges (rm : List (Int × Int)) :
    ∀ (g : Graph) (x : Int),
    alget (rm.foldl remove_edge_step g).edges x =
      (alget g.edges x).map (fun m => eraseAll m (removalTargets rm x)) := by
  induction rm with
  | nil =>
    intro g x
    cases he : alget g.edges x <;> simp [removalTargets, eraseAll, he]
  | cons p ps ih =>
    intro g x
    rw [List.foldl_cons, ih]
    by_cases hx : p.1 = x
    · cases he : alget g.edges p.1 with
      | none =>
        simp only [remove_edge_step, he]
        rw [← hx, he]
        simp [removalTargets, hx]
      | some m =>
        simp only [remove_edge_step, he]
        rw [← hx, alget_alset_self, he]
        simp [removalTargets, eraseAll]
    · have hxg : alget (remove_edge_step g p).edges x = alget g.edges x := by
        cases he : alget g.edges p.1 with
        | none => simp [remove_edge_step, he]
        | some m =>
          simp only [remove_edge_step, he]
          exact alget_alset_ne _ _ _ _ (fun hh => hx hh.symm)
      rw [hxg]
      simp [removalTargets, hx]

theorem add_edges_inner_ne (qs : List (Int × ℚ)) :
    ∀ (g : Graph) (a x : Int), x ≠ a →
    alget ((qs.foldl (fun g q =>
      { g with edges := alset2 g.edges a q.1 q.2 }) g)).edges x =
      alget g.edges x := by
  induction qs with
  | nil => intro g a x _; rfl
  | cons q qs ih =>
    intro g a x hx
    rw [List.foldl_cons, ih _ a x hx]
    simp only [alset2]
    exact alget_alset_ne _ _ _ _ hx

theorem add_edges_step_ne (g : Graph) (p : Int × List (Int × ℚ)) (x : Int)
    (hx : x ≠ p.1) : alget (add_edges_step g p).edges x = alget g.edges x :=
  add_edges_inner_ne p.2 g p.1 x hx

theorem add_fold_not_mem (ea : List (Int × List (Int × ℚ))) :
    ∀ (g : Graph) (x : Int), x ∉ ea.map Prod.fst →
    alget (ea.foldl add_edges_step g).edges x = alget g.edges x := by
  induction ea with
  | nil => intro g x _; rfl
  | cons p ps ih =>
    intro g x h
    simp only [List.map_cons, List.mem_cons] at h
    push_neg at h
    rw [List.foldl_cons, ih _ x h.2]
    exact add_edges_step_ne g p x h.1

theorem singletonAdds_keys (prs : List (Int × Int)) :
    ∀ (ws : List ℚ) (x : Int), x ∈ (singletonAdds prs ws).map Prod.fst →
    x ∈ prs.map Prod.fst := by
  induction prs with
  | nil => intro ws x h; simp [singletonAdds] at h
  | cons p ps ih =>
    intro ws x h
    cases ws with
    | nil => simp [singletonAdds] at h
    | cons w ws =>
      simp only [singletonAdds, List.map_cons, List.mem_cons] at h
      rcases h with h | h
      · simp [h]
      · simp [ih ws x h]

theorem add_fold_singleton_mem (prs : List (Int × Int)) :
    ∀ (ws : List ℚ) (g : Graph) (a b : Int), (prs.map Prod.fst).Nodup →
    ws.length = prs.length → (a, b) ∈ prs →
    ∃ w, alget ((singletonAdds prs ws).foldl add_edges_step g).edges a =
      some (alset ((alget g.edges a).getD []) b w) := by
  induction prs with
  | nil => intro ws g a b _ _ h; simp at h
  | cons p ps ih =>
    intro ws g a b hnd hlen hmem
    cases ws with
    | nil => simp at hlen
    | cons w ws =>
      simp only [List.map_cons, List.nodup_cons] at hnd
      simp only [List.length_cons, Nat.succ.injEq] at hlen
      simp only [singletonAdds, List.foldl_cons]
      rcases List.mem_cons.mp hmem with heq | hmem
      · have hp : p = (a, b) := heq.symm
        subst hp
        refine ⟨w, ?_⟩
        rw [add_fold_not_mem _ _ a
          (fun hm => hnd.1 (singletonAdds_keys ps ws a hm))]
        simp only [add_edges_step, List.foldl_cons, List.foldl_nil, alset2]
        exact alget_alset_self _ _ _
      · have ha : a ∈ ps.map Prod.fst := by
          simpa using List.mem_map_of_mem Prod.fst hmem
        have hane : a ≠ p.1 := fun hh => hnd.1 (hh ▸ ha)
        obtain ⟨w2, hw2⟩ := ih ws (add_edges_step g (p.1, [(p.2, w)])) a b
          hnd.2 hlen hmem
        rw [add_edges_step_ne g (p.1, [(p.2, w)]) a hane] at hw2
        exact ⟨w2, hw2⟩

theorem alset_self_of_alget {κ α : Type} [DecidableEq κ]
    (l : List (κ × α)) (k : κ) (v : α) (h : alget l k = some v) :
    alset l k v = l := by
  induction l with
  | nil => simp [alget] at h
  | cons p ps ih =>
    by_cases hp : p.1 = k
    · simp only [alget, hp, if_true, Option.some_inj] at h
      cases p
      simp_all [alset]
    · simp only [alget, hp, if_false] at h
      simp [alset, hp, ih h]

theorem lastD_concat (l : List Int) (a : Int) : lastD (l ++ [a]) = a := by
  simp [lastD]

theorem zip_get {α β : Type} :
    ∀ (l1 : List α) (l2 : List β) (i : Nat),
    (l1.zip l2).get? i =
      match l1.get? i, l2.get? i with
      | some a, some b => some (a, b)
      | _, _ => none := by
  intro l1
  induction l1 with
  | nil => intro l2 i; cases l2 <;> cases i <;> rfl
  | cons a l1 ih =>
    intro l2 i
    cases l2 with
    | nil =>
      cases i with
      | zero => rfl
      | succ i =>
        cases h : (a :: l1).get? (i + 1) <;>
          simp [List.zip_nil_right, h]
    | cons b l2 =>
      cases i with
      | zero => rfl
      | succ i => simpa [List.zip_cons_cons] using ih l2 i

theorem mem_of_get {α : Type} :
    ∀ (l : List α) (i : Nat) (a : α), l.get? i = some a → a ∈ l := by
  intro l
  induction l with
  | nil => intro i a h; simp at h
  | cons x xs ih =>
    intro i a h
    cases i with
    | zero => simp only [List.get?_cons_zero, Option.some_inj] at h; simp [h]
    | succ i => exact List.mem_cons_of_mem _ (ih i a h)

theorem get_of_mem {α : Type} :
    ∀ (l : List α) (a : α), a ∈ l → ∃ i, l.get? i = some a := by
  intro l
  induction l with
  | nil => intro a h; simp at h
  | cons x xs ih =>
    intro a h
    rcases List.mem_cons.mp h with rfl | h
    · exact ⟨0, rfl⟩
    · obtain ⟨i, hi⟩ := ih a h
      exact ⟨i + 1, hi⟩

theorem chainIds_get (ctr : Int) :
    ∀ (n : Nat) (i : Nat), (chainIds ctr n).get? i =
      if i < n then some (ctr + i + 1) else none := by
  intro n
  induction n generalizing ctr with
  | zero => intro i; simp [chainIds]
  | succ n ih =>
    intro i
    cases i with
    | zero => simp [chainIds]
    | succ i =>
      simp only [chainIds, List.get?_cons_succ, ih (ctr + 1) i]
      by_cases h : i < n
      · rw [if_pos h, if_pos (by omega)]
        congr 1
        push_cast
        ring
      · rw [if_neg h, if_neg (by omega)]

theorem chainIds_dropLast (ctr : Int) :
    ∀ (n : Nat), (chainIds ctr (n + 1)).dropLast = chainIds ctr n := by
  intro n
  induction n generalizing ctr with
  | zero => rfl
  | succ n ih =>
    have h1 : chainIds ctr (n + 2) =
        (ctr + 1) :: chainIds (ctr + 1) (n + 1) := rfl
    have h2 : chainIds (ctr + 1) (n + 1) =
        (ctr + 1 + 1) :: chainIds (ctr + 1 + 1) n := rfl
    rw [h1, h2, List.dropLast_cons₂, ← h2, ih (ctr + 1)]
    rfl

theorem head_drop {α : Type} :
    ∀ (l : List α) (i : Nat), (l.drop i).head? = l.get? i := by
  intro l
  induction l with
  | nil => intro i; cases i <;> rfl
  | cons x xs ih =>
    intro i
    cases i with
    | zero => rfl
    | succ i => exact ih i

theorem drop_eq_cons {α : Type} :
    ∀ (l : List α) (i : Nat) (a : α), l.get? i = some a →
      l.drop i = a :: l.drop (i + 1) := by
  intro l
  induction l with
  | nil => intro i a h; simp at h
  | cons x xs ih =>
    intro i a h
    cases i with
    | zero => simp only [List.get?_cons_zero, Option.some_inj] at h; simp [h]
    | succ i =>
      simp only [List.get?_cons_succ] at h
      simpa [List.drop_succ_cons] using ih i a h

theorem removalTargets_not_mem (rm : List (Int × Int)) (x : Int) :
    x ∉ rm.map Prod.fst → removalTargets rm x = [] := by
  induction rm with
  | nil => intro _; rfl
  | cons p ps ih =>
    intro h
    simp only [List.map_cons, List.mem_cons] at h
    push_neg at h
    simp only [removalTargets, List.filterMap_cons] at ih ⊢
    rw [if_neg (fun hh => h.1 hh.symm)]
    exact ih h.2

theorem removalTargets_append (a b : List (Int × Int)) (x : Int) :
    removalTargets (a ++ b) x = removalTargets a x ++ removalTargets b x := by
  simp [removalTargets, List.filterMap_append]

theorem removalTargets_zip_get (ks : List Int) :
    ∀ (vs : List Int) (x : Int) (i : Nat), ks.Nodup → ks.get? i = some x →
    removalTargets (ks.zip vs) x = (vs.get? i).toList := by
  induction ks with
  | nil => intro vs x i _ h; simp at h
  | cons k ks ih =>
    intro vs x i hnd hget
    simp only [List.nodup_cons] at hnd
    cases i with
    | zero =>
      simp only [List.get?_cons_zero, Option.some_inj] at hget
      subst hget
      cases vs with
      | nil => simp [removalTargets]
      | cons v vs =>
        simp only [List.zip_cons_cons, removalTargets, List.filterMap_cons,
          if_pos rfl]
        have h0 : removalTargets (ks.zip vs) k = [] := by
          refine removalTargets_not_mem _ _ (fun hm => hnd.1 ?_)
          obtain ⟨pr, hpr, hfst⟩ := List.mem_map.mp hm
          have hz := List.mem_zip hpr
          exact hfst ▸ hz.1
        simpa [removalTargets] using h0
    | succ i =>
      simp only [List.get?_cons_succ] at hget
      have hx : x ∈ ks := mem_of_get ks i x hget
      have hkx : ¬ (k = x) := fun hh => hnd.1 (hh ▸ hx)
      cases vs with
      | nil => simp [removalTargets]
      | cons v vs =>
        simp only [List.zip_cons_cons, removalTargets, List.filterMap_cons,
          if_neg hkx]
        exact ih vs x i hnd.2 hget

theorem removalTargets_bind {β : Type} (f : β → List (Int × Int)) :
    ∀ (l : List β) (x : Int),
    removalTargets (l.bind f) x = l.bind (fun b => removalTargets (f b) x) := by
  intro l
  induction l with
  | nil => intro x; rfl
  | cons b bs ih =>
    intro x
    show removalTargets (f b ++ bs.bind f) x =
      removalTargets (f b) x ++ bs.bind (fun b => removalTargets (f b) x)
    rw [removalTargets_append, ih x]

theorem removalTargets_const_key (l : List (Int × Int)) (k x : Int)
    (hk : ∀ pr ∈ l, pr.1 = k) (hx : k ≠ x) : removalTargets l x = [] :=
  removalTargets_not_mem l x (fun hm => by
    obtain ⟨pr, hpr, hfst⟩ := List.mem_map.mp hm
    exact hx ((hk pr hpr) ▸ hfst))

theorem singletonAdds_get (prs : List (Int × Int)) :
    ∀ (ws : List ℚ) (i : Nat), (singletonAdds prs ws).get? i =
      match prs.get? i, ws.get? i with
      | some pr, some w => some (pr.1, [(pr.2, w)])
      | _, _ => none := by
  induction prs with
  | nil => intro ws i; cases ws <;> cases i <;> rfl
  | cons p ps ih =>
    intro ws i
    cases ws with
    | nil =>
      cases i with
      | zero => rfl
      | succ i =>
        cases h : (p :: ps).get? (i + 1) <;> simp [singletonAdds, h]
    | cons w ws =>
      cases i with
      | zero => rfl
      | succ i => simpa [singletonAdds] using ih ws i

theorem singletonAdds_keys_nodup (prs : List (Int × Int)) :
    ∀ (ws : List ℚ), (prs.map Prod.fst).Nodup →
    ((singletonAdds prs ws).map Prod.fst).Nodup := by
  induction prs with
  | nil => intro ws _; simp [singletonAdds]
  | cons p ps ih =>
    intro ws hnd
    simp only [List.map_cons, List.nodup_cons] at hnd
    cases ws with
    | nil => simp [singletonAdds]
    | cons w ws =>
      simp only [singletonAdds, List.map_cons, List.nodup_cons]
      exact ⟨fun hm => hnd.1 (singletonAdds_keys ps ws p.1 hm), ih ws hnd.2⟩

theorem alget_singletonAdds (prs : List (Int × Int)) (ws : List ℚ)
    (i : Nat) (a b : Int) (w : ℚ) (hnd : (prs.map Prod.fst).Nodup)
    (hp : prs.get? i = some (a, b)) (hw : ws.get? i = some w) :
    alget (singletonAdds prs ws) a = some [(b, w)] := by
  have hmem : (a, [(b, w)]) ∈ singletonAdds prs ws := by
    refine mem_of_get _ i _ ?_
    rw [singletonAdds_get, hp, hw]
  exact mem_alget (singletonAdds_keys_nodup prs ws hnd) hmem

theorem clone_fold_nodes_profile (nn : List (Int × Int)) :
    ∀ (g : Graph), (nn.foldl clone_node_step g).profile = g.profile ∧
      (nn.foldl clone_node_step g).phantom_node_id_counter =
        g.phantom_node_id_counter := by
  induction nn with
  | nil => intro g; exact ⟨rfl, rfl⟩
  | cons p ps ih =>
    intro g
    rw [List.foldl_cons]
    exact ih (clone_node_step g p)

theorem remove_fold_nodes (rm : List (Int × Int)) :
    ∀ (g : Graph), (rm.foldl remove_edge_step g).nodes = g.nodes := by
  induction rm with
  | nil => intro g; rfl
  | cons p ps ih =>
    intro g
    rw [List.foldl_cons, ih]
    cases he : alget g.edges p.1 <;> simp [remove_edge_step, he]

theorem add_inner_nodes (qs : List (Int × ℚ)) :
    ∀ (g : Graph) (a : Int),
    ((qs.foldl (fun g q =>
      { g with edges := alset2 g.edges a q.1 q.2 }) g)).nodes = g.nodes := by
  induction qs with
  | nil => intro g a; rfl
  | cons q qs ih =>
    intro g a
    rw [List.foldl_cons, ih]

theorem add_fold_nodes (ea : List (Int × List (Int × ℚ))) :
    ∀ (g : Graph), (ea.foldl add_edges_step g).nodes = g.nodes := by
  induction ea with
  | nil => intro g; rfl
  | cons p ps ih =>
    intro g
    rw [List.foldl_cons, ih]
    exact add_inner_nodes p.2 g p.1

theorem map_eq_append {α β : Type} (f : α → β) :
    ∀ (l : List α) (b1 b2 : List β), l.map f = b1 ++ b2 →
    ∃ l1 l2, l = l1 ++ l2 ∧ l1.map f = b1 ∧ l2.map f = b2 := by
  intro l
  induction l with
  | nil =>
    intro b1 b2 h
    rw [List.map_nil] at h
    rcases List.append_eq_nil.mp h.symm with ⟨h1, h2⟩
    exact ⟨[], [], rfl, by simp [h1], by simp [h2]⟩
  | cons x xs ih =>
    intro b1 b2 h
    cases b1 with
    | nil =>
      exact ⟨[], x :: xs, rfl, rfl, by simpa using h⟩
    | cons y b1 =>
      simp only [List.map_cons, List.cons_append, List.cons.injEq] at h
      obtain ⟨l1, l2, hl, hm1, hm2⟩ := ih b1 b2 h.2
      exact ⟨x :: l1, l2, by simp [hl], by simp [h.1, hm1], hm2⟩

theorem add_fold_isSome (ea : List (Int × List (Int × ℚ))) :
    ∀ (g : Graph) (x : Int),
    (alget (ea.foldl add_edges_step g).edges x).isSome = true →
    (alget g.edges x).isSome = true ∨ x ∈ ea.map Prod.fst := by
  intro g x h
  by_cases hx : x ∈ ea.map Prod.fst
  · exact Or.inr hx
  · rw [add_fold_not_mem ea g x hx] at h
    exact Or.inl h

theorem clone_fold_isSome (nn : List (Int × Int)) :
    ∀ (g : Graph) (x : Int),
    (alget (nn.foldl clone_node_step g).edges x).isSome = true →
    (alget g.edges x).isSome = true ∨ x ∈ nn.map Prod.fst := by
  intro g x h
  by_cases hx : x ∈ nn.map Prod.fst
  · exact Or.inr hx
  · rw [clone_fold_edges_not_mem nn g x hx] at h
    exact Or.inl h

/-- racn_go_spec specialised to the fresh change buffer that
_store_restriction starts from. -/
theorem store_walk (g : Graph)
    (hreg : ∀ x nd, alget g.nodes x = some nd → nd.external_id = x)
    (htgt : ∀ a m, alget g.edges a = some m → ∀ p ∈ m,
      (alget g.nodes p.1).isSome = true)
    (n0 last : Int) (mids : List Int) (ch2 : GraphChange) (cloned : List Int)
    (hn0le : n0 ≤ g.phantom_node_id_counter)
    (hml : ∀ x ∈ mids, x ≠ last)
    (hrun : restriction_as_cloned_nodes g (GraphChange.init g)
      (n0 :: (mids ++ [last])) = some (ch2, cloned)) :
    ch2.phantom_node_id_counter =
      g.phantom_node_id_counter + (mids.length : Int) ∧
    ch2.new_nodes = (chainIds g.phantom_node_id_counter mids.length).zip mids ∧
    ch2.edges_to_remove =
      (n0 :: (chainIds g.phantom_node_id_counter mids.length).dropLast).zip
        mids ∧
    (∃ ws : List ℚ, ws.length = mids.length ∧
      ch2.edges_to_add = singletonAdds
        ((n0 :: (chainIds g.phantom_node_id_counter mids.length).dropLast).zip
          (chainIds g.phantom_node_id_counter mids.length)) ws) ∧
    cloned = n0 :: (chainIds g.phantom_node_id_counter mids.length ++ [last]) ∧
    (∀ x ∈ mids, (alget g.nodes x).isSome = true) ∧
    (alget g.nodes last).isSome = true ∧
    ((n0 :: mids) ++ [last]).Chain'
      (fun a b => b ∈ ((alget g.edges a).getD []).map Prod.fst) := by
  unfold restriction_as_cloned_nodes at hrun
  have hlast : lastD (n0 :: (mids ++ [last])) = last := by
    rw [← List.cons_append]
    exact lastD_concat _ _
  rw [hlast] at hrun
  have hspec := racn_go_spec g hreg htgt last mids n0 n0 (GraphChange.init g)
    [n0] ch2 cloned rfl (by simp [GraphChange.init]) (by simp [GraphChange.init])
    rfl hn0le hml hrun
  obtain ⟨h1, h2, h3, ⟨ws, hwl, h4⟩, h5, h6, h7, h8⟩ := hspec
  simp only [GraphChange.init] at h1 h2 h3 h4 h5
  refine ⟨h1, by simpa using h2, by simpa using h3,
    ⟨ws, hwl, by simpa using h4⟩, by simpa using h5, h6, h7, h8⟩

/-- The removal set that one ensure_only_edge call appends. -/
def ensureRemovals (g : Graph) (nn : List (Int × Int)) (pr : Int × Int) :
    List (Int × Int) :=
  ((alget g.edges ((alget nn pr.1).getD pr.1)).getD []).filterMap
    (fun p => if p.1 ≠ pr.2 then some (pr.1, p.1) else none)

theorem ensure_only_edge_spec (g : Graph) (ch : GraphChange) (f t : Int)
    (hea : ∀ m, alget ch.edges_to_add f = some m → ∃ w, m = [(t, w)]) :
    ensure_only_edge g ch f t =
      { ch with edges_to_remove :=
          ch.edges_to_remove ++ ensureRemovals g ch.new_nodes (f, t) } := by
  unfold ensure_only_edge ensureRemovals
  cases he : alget ch.edges_to_add f with
  | none => rfl
  | some m =>
    obtain ⟨w, hw⟩ := hea m he
    subst hw
    have hfilter : List.filter (fun p => decide (p.1 = t)) [(t, w)] =
        [(t, w)] := by simp
    simp only [hfilter]
    rw [alset_self_of_alget _ _ _ he]

theorem ensure_fold_spec (g : Graph) :
    ∀ (pairs : List (Int × Int)) (ch : GraphChange),
    (∀ pr ∈ pairs, ∀ m, alget ch.edges_to_add pr.1 = some m →
      ∃ w, m = [(pr.2, w)]) →
    (pairs.foldl (fun c pr => ensure_only_edge g c pr.1 pr.2) ch) =
      { ch with edges_to_remove := ch.edges_to_remove ++
          pairs.bind (ensureRemovals g ch.new_nodes) } := by
  intro pairs
  induction pairs with
  | nil =>
    intro ch _
    cases ch
    simp
  | cons pr prs ih =>
    intro ch hea
    rw [List.foldl_cons,
      ensure_only_edge_spec g ch pr.1 pr.2 (hea pr (List.mem_cons_self _ _))]
    rw [ih { ch with edges_to_remove := ch.edges_to_remove ++
        ensureRemovals g ch.new_nodes (pr.1, pr.2) }
      (fun pr2 hpr2 => hea pr2 (List.mem_cons_of_mem _ hpr2))]
    simp [List.append_assoc]

/-- A membership in an edge target list forces the edge map to be present. -/
theorem targets_some (g : Graph) (a b : Int)
    (h : b ∈ ((alget g.edges a).getD []).map Prod.fst) :
    (alget g.edges a).isSome = true := by
  cases he : alget g.edges a with
  | none => rw [he] at h; simp at h
  | some m => rfl

theorem chain_rel {α : Type} (R : α → α → Prop) :
    ∀ (l : List α) (i : Nat) (a b : α), l.Chain' R →
      l.get? i = some a → l.get? (i + 1) = some b → R a b := by
  intro l
  induction l with
  | nil => intro i a b _ h; simp at h
  | cons x xs ih =>
    intro i a b hch ha hb
    cases i with
    | zero =>
      simp only [List.get?_cons_zero, Option.some_inj] at ha
      subst ha
      simp only [List.get?_cons_succ] at hb
      cases xs with
      | nil => simp at hb
      | cons y ys =>
        simp only [List.get?_cons_zero, Option.some_inj] at hb
        subst hb
        exact (List.chain'_cons.mp hch).1
    | succ i =>
      simp only [List.get?_cons_succ] at ha hb
      exact ih i a b (List.Chain'.tail hch) ha hb

theorem chain_get (ctr n0 : Int) (m : Nat) :
    ∀ i : Nat, (n0 :: chainIds ctr m).get? i =
      if i = 0 then some n0
      else if i ≤ m then some (ctr + (i : Int)) else none := by
  intro i
  cases i with
  | zero => rfl
  | succ i =>
    simp only [List.get?_cons_succ, chainIds_get]
    by_cases h : i < m
    · rw [if_pos h, if_neg (Nat.succ_ne_zero i), if_pos (by omega)]
      congr 1
      push_cast
      ring
    · rw [if_neg h, if_neg (Nat.succ_ne_zero i), if_neg (by omega)]

theorem chain_lastD :
    ∀ (m : Nat) (ctr n0 : Int), lastD (n0 :: chainIds ctr m) =
      if m = 0 then n0 else ctr + (m : Int) := by
  intro m
  induction m with
  | zero => intro ctr n0; simp [chainIds, lastD]
  | succ m ih =>
    intro ctr n0
    have h1 : n0 :: chainIds ctr (m + 1) =
        n0 :: (ctr + 1) :: chainIds (ctr + 1) m := rfl
    have h2 : lastD (n0 :: (ctr + 1) :: chainIds (ctr + 1) m) =
        lastD ((ctr + 1) :: chainIds (ctr + 1) m) := by
      simp [lastD, List.getLast?_cons_cons]
    rw [h1, h2, ih (ctr + 1) (ctr + 1), if_neg (Nat.succ_ne_zero m)]
    by_cases h : m = 0
    · subst h; simp
    · rw [if_neg h]
      push_cast
      ring

theorem chain_cons_nodup (ctr n0 : Int) (m : Nat) (h : n0 ≤ ctr) :
    (n0 :: chainIds ctr m).Nodup := by
  simp only [List.nodup_cons]
  exact ⟨fun hm => absurd (chainIds_mem_gt ctr m n0 hm) (by omega),
    chainIds_nodup ctr m⟩

theorem chain_sources_nodup (ctr n0 : Int) (m : Nat) (h : n0 ≤ ctr) :
    (n0 :: (chainIds ctr m).dropLast).Nodup := by
  simp only [List.nodup_cons]
  constructor
  · intro hm
    have hmem : n0 ∈ chainIds ctr m :=
      (List.dropLast_sublist (chainIds ctr m)).subset hm
    exact absurd (chainIds_mem_gt ctr m n0 hmem) (by omega)
  · exact (chainIds_nodup ctr m).sublist (List.dropLast_sublist _)

theorem zip_map_fst {α β : Type} :
    ∀ (l1 : List α) (l2 : List β), l1.length ≤ l2.length →
    (l1.zip l2).map Prod.fst = l1 := by
  intro l1
  induction l1 with
  | nil => intro l2 _; simp
  | cons a l1 ih =>
    intro l2 h
    cases l2 with
    | nil => simp at h
    | cons b l2 =>
      simp only [List.zip_cons_cons, List.map_cons]
      rw [ih l2 (by simpa using h)]

theorem zip_fst_sub {α β : Type} (l1 : List α) (l2 : List β) (x : α)
    (h : x ∈ (l1.zip l2).map Prod.fst) : x ∈ l1 := by
  obtain ⟨pr, hpr, he⟩ := List.mem_map.mp h
  exact he ▸ (List.mem_zip hpr).1

theorem get_lt {α : Type} :
    ∀ (l : List α) (i : Nat), i < l.length → ∃ a, l.get? i = some a := by
  intro l
  induction l with
  | nil => intro i h; simp at h
  | cons x xs ih =>
    intro i h
    cases i with
    | zero => exact ⟨x, rfl⟩
    | succ i => exact ih i (by simpa using h)

theorem get_concat_length {α : Type} :
    ∀ (l : List α) (a : α), (l ++ [a]).get? l.length = some a := by
  intro l
  induction l with
  | nil => intro a; rfl
  | cons x xs ih => intro a; simpa using ih a

theorem walk_first_some (g : Graph) (n0 last : Int) (mids : List Int)
    (hchain : ((n0 :: mids) ++ [last]).Chain'
      (fun a b => b ∈ ((alget g.edges a).getD []).map Prod.fst)) :
    (alget g.edges n0).isSome = true := by
  cases mids with
  | nil =>
    rw [List.cons_append, List.nil_append] at hchain
    exact targets_some g n0 last (List.chain'_cons.mp hchain).1
  | cons v vs =>
    rw [List.cons_append, List.cons_append] at hchain
    exact targets_some g n0 v (List.chain'_cons.mp hchain).1

/-- After applying a walk-shaped change, every edge source is either an
original edge source or one of the fresh clone ids. -/
theorem apply_keys (g : Graph) (n0 last : Int) (mids : List Int)
    (ch' : GraphChange) (ws : List ℚ)
    (hn0le : n0 ≤ g.phantom_node_id_counter)
    (hnn : ch'.new_nodes =
      (chainIds g.phantom_node_id_counter mids.length).zip mids)
    (hea : ch'.edges_to_add = singletonAdds
      ((n0 :: (chainIds g.phantom_node_id_counter mids.length).dropLast).zip
        (chainIds g.phantom_node_id_counter mids.length)) ws)
    (hchain : ((n0 :: mids) ++ [last]).Chain'
      (fun a b => b ∈ ((alget g.edges a).getD []).map Prod.fst)) :
    ∀ x, (alget (apply_change g ch').edges x).isSome = true →
      (alget g.edges x).isSome = true ∨
      x ∈ chainIds g.phantom_node_id_counter mids.length := by
  intro x h
  simp only [apply_change] at h
  rcases add_fold_isSome _ _ _ h with h3 | hkey
  · rw [remove_fold_edges] at h3
    rw [Option.isSome_map'] at h3
    rcases clone_fold_isSome _ _ _ h3 with h2 | hkey
    · exact Or.inl h2
    · rw [hnn] at hkey
      exact Or.inr (zip_fst_sub _ _ _ hkey)
  · rw [hea] at hkey
    have hx := zip_fst_sub _ _ _ (singletonAdds_keys _ _ _ hkey)
    rcases List.mem_cons.mp hx with rfl | hx
    · exact Or.inl (walk_first_some g x last mids hchain)
    · exact Or.inr
        ((List.dropLast_sublist
          (chainIds g.phantom_node_id_counter mids.length)).subset hx)

/-- The node table after applying a walk-shaped change is unchanged away
from the clone ids. -/
theorem apply_nodes_eq (g : Graph) (mids : List Int) (ch' : GraphChange)
    (hnn : ch'.new_nodes =
      (chainIds g.phantom_node_id_counter mids.length).zip mids)
    (x : Int) (hx : x ∉ chainIds g.phantom_node_id_counter mids.length) :
    alget (apply_change g ch').nodes x = alget g.nodes x := by
  simp only [apply_change]
  rw [add_fold_nodes, remove_fold_nodes, hnn]
  exact clone_fold_nodes_not_mem _ _ _ (fun hm => hx (zip_fst_sub _ _ _ hm))

/-- The clones store the external id of their originals, which on a
phantom-free graph is the original id itself. -/
theorem apply_ext (g : Graph) (mids : List Int) (ch' : GraphChange)
    (hreg : ∀ x nd, alget g.nodes x = some nd → nd.external_id = x)
    (hnodebound : ∀ x nd, alget g.nodes x = some nd →
      x ≤ g.phantom_node_id_counter)
    (hstored : ∀ x ∈ mids, (alget g.nodes x).isSome = true)
    (hnn : ch'.new_nodes =
      (chainIds g.phantom_node_id_counter mids.length).zip mids)
    (i : Nat) (c v : Int)
    (hc : (chainIds g.phantom_node_id_counter mids.length).get? i = some c)
    (hv : mids.get? i = some v) :
    extId (apply_change g ch') c = v := by
  have hkeys : ((chainIds g.phantom_node_id_counter mids.length).zip
      mids).map Prod.fst = chainIds g.phantom_node_id_counter mids.length :=
    zip_map_fst _ _ (by rw [chainIds_length])
  have hmem : (c, v) ∈ (chainIds g.phantom_node_id_counter mids.length).zip
      mids := by
    refine mem_of_get _ i _ ?_
    rw [zip_get, hc, hv]
  have hdisj : ∀ pr ∈ (chainIds g.phantom_node_id_counter mids.length).zip
      mids, pr.2 ∉ ((chainIds g.phantom_node_id_counter mids.length).zip
        mids).map Prod.fst := by
    intro pr hpr hm
    rw [hkeys] at hm
    have h2 := (List.mem_zip hpr).2
    obtain ⟨nd, hnd⟩ := Option.isSome_iff_exists.mp (hstored pr.2 h2)
    exact absurd (chainIds_mem_gt _ _ _ hm) (by
      have := hnodebound pr.2 nd hnd
      omega)
  have hcf := clone_fold_mem _
    { g with phantom_node_id_counter := ch'.phantom_node_id_counter } c v
    (by rw [hkeys]; exact chainIds_nodup _ _) hdisj hmem
  obtain ⟨nd, hnd⟩ := Option.isSome_iff_exists.mp (hstored v
    (List.mem_zip hmem).2)
  unfold extId getNodeD
  simp only [apply_change]
  rw [add_fold_nodes, remove_fold_nodes, hnn, hcf.1]
  simp only [Option.getD_some]
  show (getNodeD { g with
    phantom_node_id_counter := ch'.phantom_node_id_counter } v).external_id = v
  unfold getNodeD
  show ((alget g.nodes v).getD ⟨0, (0, 0), 0⟩).external_id = v
  rw [hnd]
  exact hreg v nd hnd

/-- The removal and addition stages over the i-th chain node (i strictly
inside the walk): erase the walked-through target and the extra removals,
then add the edge to the next clone. -/
theorem apply_step_tail (g : Graph) (n0 : Int) (mids : List Int)
    (ch' : GraphChange) (rmX : List (Int × Int)) (ws : List ℚ)
    (E : List (Int × ℚ))
    (hn0le : n0 ≤ g.phantom_node_id_counter)
    (hws : ws.length = mids.length)
    (hnn : ch'.new_nodes =
      (chainIds g.phantom_node_id_counter mids.length).zip mids)
    (hea : ch'.edges_to_add = singletonAdds
      ((n0 :: (chainIds g.phantom_node_id_counter mids.length).dropLast).zip
        (chainIds g.phantom_node_id_counter mids.length)) ws)
    (hrm : ch'.edges_to_remove =
      ((n0 :: (chainIds g.phantom_node_id_counter mids.length).dropLast).zip
        mids) ++ rmX)
    (i : Nat) (s c v : Int)
    (hsrcget : (n0 ::
      (chainIds g.phantom_node_id_counter mids.length).dropLast).get? i =
      some s)
    (hcsi : (chainIds g.phantom_node_id_counter mids.length).get? i = some c)
    (hv : mids.get? i = some v)
    (hclone : alget
      (((chainIds g.phantom_node_id_counter mids.length).zip mids).foldl
        clone_node_step
        { g with phantom_node_id_counter := ch'.phantom_node_id_counter
        }).edges s = some E) :
    ∃ w, alget (apply_change g ch').edges s =
      some (alset (eraseAll E (v :: removalTargets rmX s)) c w) := by
  have hmge : i < mids.length := by
    by_contra hge
    rw [chainIds_get, if_neg hge] at hcsi
    exact absurd hcsi (by simp)
  have hsrcnd : (n0 ::
      (chainIds g.phantom_node_id_counter mids.length).dropLast).Nodup :=
    chain_sources_nodup _ _ _ hn0le
  have hsrclen : (n0 ::
      (chainIds g.phantom_node_id_counter mids.length).dropLast).length =
      mids.length := by
    simp only [List.length_cons, List.length_dropLast, chainIds_length]
    omega
  simp only [apply_change]
  rw [hnn, hea, hrm]
  have hremt : removalTargets
      (((n0 ::
        (chainIds g.phantom_node_id_counter mids.length).dropLast).zip
        mids) ++ rmX) s = v :: removalTargets rmX s := by
    rw [removalTargets_append,
      removalTargets_zip_get _ mids s i hsrcnd hsrcget, hv]
    rfl
  have hg3 : alget ((((n0 ::
      (chainIds g.phantom_node_id_counter mids.length).dropLast).zip
        mids) ++ rmX).foldl remove_edge_step
      (((chainIds g.phantom_node_id_counter mids.length).zip mids).foldl
        clone_node_step
        { g with phantom_node_id_counter := ch'.phantom_node_id_counter
        })).edges s = some (eraseAll E (v :: removalTargets rmX s)) := by
    rw [remove_fold_edges, hclone, hremt]
    rfl
  have hmemA : (s, c) ∈ (n0 ::
      (chainIds g.phantom_node_id_counter mids.length).dropLast).zip
      (chainIds g.phantom_node_id_counter mids.length) := by
    refine mem_of_get _ i _ ?_
    rw [zip_get, hsrcget, hcsi]
  have hkeysA : ((n0 ::
      (chainIds g.phantom_node_id_counter mids.length).dropLast).zip
      (chainIds g.phantom_node_id_counter mids.length)).map Prod.fst =
      n0 :: (chainIds g.phantom_node_id_counter mids.length).dropLast :=
    zip_map_fst _ _ (by rw [hsrclen, chainIds_length])
  have hlenA : ws.length = ((n0 ::
      (chainIds g.phantom_node_id_counter mids.length).dropLast).zip
      (chainIds g.phantom_node_id_counter mids.length)).length := by
    rw [List.length_zip, hsrclen, chainIds_length, hws]
    omega
  obtain ⟨w, hw⟩ := add_fold_singleton_mem _ ws _ s c
    (by rw [hkeysA]; exact hsrcnd) hlenA hmemA
  rw [hg3] at hw
  exact ⟨w, hw⟩

/-- The edge map of the i-th chain node after applying a walk-shaped change:
the resolved original map with the walked-through target and the extra
removals erased, plus a singleton edge to the next clone. -/
theorem apply_step (g : Graph) (n0 last : Int) (mids : List Int)
    (ch' : GraphChange) (rmX : List (Int × Int)) (ws : List ℚ)
    (htgt : ∀ a m, alget g.edges a = some m → ∀ p ∈ m,
      (alget g.nodes p.1).isSome = true)
    (hmnd : ∀ a m, alget g.edges a = some m → (m.map Prod.fst).Nodup)
    (hnodebound : ∀ x nd, alget g.nodes x = some nd →
      x ≤ g.phantom_node_id_counter)
    (hn0le : n0 ≤ g.phantom_node_id_counter)
    (hws : ws.length = mids.length)
    (hstored : ∀ x ∈ mids, (alget g.nodes x).isSome = true)
    (hnn : ch'.new_nodes =
      (chainIds g.phantom_node_id_counter mids.length).zip mids)
    (hea : ch'.edges_to_add = singletonAdds
      ((n0 :: (chainIds g.phantom_node_id_counter mids.length).dropLast).zip
        (chainIds g.phantom_node_id_counter mids.length)) ws)
    (hrm : ch'.edges_to_remove =
      ((n0 :: (chainIds g.phantom_node_id_counter mids.length).dropLast).zip
        mids) ++ rmX)
    (hchain : (n0 :: (mids ++ [last])).Chain'
      (fun a b => b ∈ ((alget g.edges a).getD []).map Prod.fst))
    (i : Nat) (s c v : Int)
    (hs : (n0 :: chainIds g.phantom_node_id_counter mids.length).get? i =
      some s)
    (hc : (chainIds g.phantom_node_id_counter mids.length).get? i = some c)
    (hv : mids.get? i = some v) :
    ∃ E w,
      alget g.edges
        ((alget ((chainIds g.phantom_node_id_counter mids.length).zip mids)
          s).getD s) = some E ∧
      (∀ p ∈ E, (alget g.nodes p.1).isSome = true ∧
        p.1 ≤ g.phantom_node_id_counter) ∧
      (E.map Prod.fst).Nodup ∧
      alget (apply_change g ch').edges s =
        some (alset (eraseAll E (v :: removalTargets rmX s)) c w) := by
  have hilt : i < mids.length := by
    by_contra hge
    rw [chainIds_get, if_neg hge] at hc
    exact absurd hc (by simp)
  have hprops : ∀ (o : Int) (E : List (Int × ℚ)), alget g.edges o = some E →
      (∀ p ∈ E, (alget g.nodes p.1).isSome = true ∧
        p.1 ≤ g.phantom_node_id_counter) ∧ (E.map Prod.fst).Nodup := by
    intro o E hE
    refine ⟨fun p hp => ⟨htgt o E hE p hp, ?_⟩, hmnd o E hE⟩
    obtain ⟨nd, hnd⟩ := Option.isSome_iff_exists.mp (htgt o E hE p hp)
    exact hnodebound p.1 nd hnd
  cases i with
  | zero =>
    rw [chain_get, if_pos rfl, Option.some_inj] at hs
    subst hs
    have hres : alget
        ((chainIds g.phantom_node_id_counter mids.length).zip mids) n0 =
        none := by
      refine alget_eq_none (fun hm => ?_)
      exact absurd (chainIds_mem_gt _ _ _ (zip_fst_sub _ _ _ hm)) (by omega)
    have hget1 : (n0 :: (mids ++ [last])).get? 1 = some v := by
      simp only [List.get?_cons_succ]
      rw [List.get?_append hilt, hv]
    have hrel := chain_rel _ _ 0 n0 v hchain rfl hget1
    have hsome := targets_some g n0 v hrel
    obtain ⟨E, hE⟩ := Option.isSome_iff_exists.mp hsome
    have hclone : alget
        (((chainIds g.phantom_node_id_counter mids.length).zip mids).foldl
          clone_node_step
          { g with phantom_node_id_counter := ch'.phantom_node_id_counter
          }).edges n0 = some E := by
      rw [clone_fold_edges_not_mem _ _ _ (fun hm =>
        absurd (chainIds_mem_gt _ _ _ (zip_fst_sub _ _ _ hm)) (by omega))]
      exact hE
    have hsrcget : (n0 ::
        (chainIds g.phantom_node_id_counter mids.length).dropLast).get? 0 =
        some n0 := rfl
    obtain ⟨w, hw⟩ := apply_step_tail g n0 mids ch' rmX ws E hn0le hws hnn
      hea hrm 0 n0 c v hsrcget hc hv hclone
    refine ⟨E, w, ?_, (hprops n0 E hE).1, (hprops n0 E hE).2, hw⟩
    rw [hres]
    exact hE
  | succ j =>
    have hjlt : j < mids.length := by omega
    rw [chain_get, if_neg (Nat.succ_ne_zero j), if_pos (by omega),
      Option.some_inj] at hs
    have hcsj : (chainIds g.phantom_node_id_counter mids.length).get? j =
        some s := by
      rw [chainIds_get, if_pos hjlt, Option.some_inj]
      rw [← hs]
      push_cast
      ring
    obtain ⟨ov, hovj⟩ := get_lt mids j hjlt
    have hmemz : (s, ov) ∈
        (chainIds g.phantom_node_id_counter mids.length).zip mids := by
      refine mem_of_get _ j _ ?_
      rw [zip_get, hcsj, hovj]
    have hres : alget
        ((chainIds g.phantom_node_id_counter mids.length).zip mids) s =
        some ov :=
      mem_alget (by
        rw [zip_map_fst _ _ (by rw [chainIds_length])]
        exact chainIds_nodup _ _) hmemz
    have hget1 : (n0 :: (mids ++ [last])).get? (j + 1) = some ov := by
      simp only [List.get?_cons_succ]
      rw [List.get?_append hjlt, hovj]
    have hget2 : (n0 :: (mids ++ [last])).get? (j + 1 + 1) = some v := by
      simp only [List.get?_cons_succ]
      rw [List.get?_append hilt, hv]
    have hrel := chain_rel _ _ (j + 1) ov v hchain hget1 hget2
    have hsome := targets_some g ov v hrel
    obtain ⟨E, hE⟩ := Option.isSome_iff_exists.mp hsome
    have hcf := clone_fold_mem _
      { g with phantom_node_id_counter := ch'.phantom_node_id_counter } s ov
      (by
        rw [zip_map_fst _ _ (by rw [chainIds_length])]
        exact chainIds_nodup _ _)
      (by
        intro pr hpr hm
        rw [zip_map_fst _ _ (by rw [chainIds_length])] at hm
        obtain ⟨nd, hnd⟩ := Option.isSome_iff_exists.mp
          (hstored pr.2 (List.mem_zip hpr).2)
        exact absurd (chainIds_mem_gt _ _ _ hm) (by
          have := hnodebound pr.2 nd hnd
          omega))
      hmemz
    have hclone : alget
        (((chainIds g.phantom_node_id_counter mids.length).zip mids).foldl
          clone_node_step
          { g with phantom_node_id_counter := ch'.phantom_node_id_counter
          }).edges s = some E := by
      rw [hcf.2]
      show some ((alget g.edges ov).getD []) = some E
      rw [hE]
      rfl
    have hsrcget : (n0 ::
        (chainIds g.phantom_node_id_counter mids.length).dropLast).get?
        (j + 1) = some s := by
      simp only [List.get?_cons_succ]
      obtain ⟨k, hk⟩ : ∃ k, mids.length = k + 1 := ⟨mids.length - 1, by omega⟩
      rw [hk, chainIds_dropLast, chainIds_get, if_pos (by omega),
        Option.some_inj, ← hs]
      push_cast
      ring
    obtain ⟨w, hw⟩ := apply_step_tail g n0 mids ch' rmX ws E hn0le hws hnn
      hea hrm (j + 1) s c v hsrcget hc hv hclone
    refine ⟨E, w, ?_, (hprops ov E hE).1, (hprops ov E hE).2, hw⟩
    rw [hres]
    exact hE

/-- The edge map of the final chain node after applying a walk-shaped
change: the resolved original map with only the extra removals erased, no
additions. -/
theorem apply_last (g : Graph) (n0 last : Int) (mids : List Int)
    (ch' : GraphChange) (rmX : List (Int × Int)) (ws : List ℚ)
    (htgt : ∀ a m, alget g.edges a = some m → ∀ p ∈ m,
      (alget g.nodes p.1).isSome = true)
    (hmnd : ∀ a m, alget g.edges a = some m → (m.map Prod.fst).Nodup)
    (hnodebound : ∀ x nd, alget g.nodes x = some nd →
      x ≤ g.phantom_node_id_counter)
    (hn0le : n0 ≤ g.phantom_node_id_counter)
    (hstored : ∀ x ∈ mids, (alget g.nodes x).isSome = true)
    (hnn : ch'.new_nodes =
      (chainIds g.phantom_node_id_counter mids.length).zip mids)
    (hea : ch'.edges_to_add = singletonAdds
      ((n0 :: (chainIds g.phantom_node_id_counter mids.length).dropLast).zip
        (chainIds g.phantom_node_id_counter mids.length)) ws)
    (hrm : ch'.edges_to_remove =
      ((n0 :: (chainIds g.phantom_node_id_counter mids.length).dropLast).zip
        mids) ++ rmX)
    (hchain : (n0 :: (mids ++ [last])).Chain'
      (fun a b => b ∈ ((alget g.edges a).getD []).map Prod.fst))
    (s : Int)
    (hs : (n0 :: chainIds g.phantom_node_id_counter mids.length).get?
      mids.length = some s) :
    ∃ E,
      alget g.edges
        ((alget ((chainIds g.phantom_node_id_counter mids.length).zip mids)
          s).getD s) = some E ∧
      (∀ p ∈ E, (alget g.nodes p.1).isSome = true ∧
        p.1 ≤ g.phantom_node_id_counter) ∧
      (E.map Prod.fst).Nodup ∧
      alget (apply_change g ch').edges s =
        some (eraseAll E (removalTargets rmX s)) := by
  have hprops : ∀ (o : Int) (E : List (Int × ℚ)), alget g.edges o = some E →
      (∀ p ∈ E, (alget g.nodes p.1).isSome = true ∧
        p.1 ≤ g.phantom_node_id_counter) ∧ (E.map Prod.fst).Nodup := by
    intro o E hE
    refine ⟨fun p hp => ⟨htgt o E hE p hp, ?_⟩, hmnd o E hE⟩
    obtain ⟨nd, hnd⟩ := Option.isSome_iff_exists.mp (htgt o E hE p hp)
    exact hnodebound p.1 nd hnd
  have hgetlast : (n0 :: (mids ++ [last])).get? (mids.length + 1) =
      some last := by
    simp only [List.get?_cons_succ]
    exact get_concat_length mids last
  by_cases hmz : mids.length = 0
  · -- no middle nodes: the final chain node is the start itself
    have hmids : mids = [] := List.length_eq_zero.mp hmz
    rw [chain_get, if_pos hmz, Option.some_inj] at hs
    subst hs
    have hrel : last ∈ ((alget g.edges n0).getD []).map Prod.fst := by
      refine chain_rel _ _ 0 n0 last hchain rfl ?_
      rw [hmids]
      rfl
    obtain ⟨E, hE⟩ :=
      Option.isSome_iff_exists.mp (targets_some g n0 last hrel)
    have hkeysnil : (chainIds g.phantom_node_id_counter mids.length).zip
        mids = [] := by
      rw [hmids]
      simp
    have hrmnil : ((n0 ::
        (chainIds g.phantom_node_id_counter mids.length).dropLast).zip
        mids) = [] := by
      rw [hmids]
      simp
    have heanil : singletonAdds
        ((n0 :: (chainIds g.phantom_node_id_counter mids.length).dropLast).zip
          (chainIds g.phantom_node_id_counter mids.length)) ws = [] := by
      rw [hmids]
      simp [chainIds, singletonAdds]
    simp only [apply_change]
    rw [hnn, hea, hrm, hkeysnil, hrmnil, heanil]
    simp only [List.nil_append, List.foldl_nil]
    rw [remove_fold_edges]
    refine ⟨E, by simpa [alget] using hE, (hprops n0 E hE).1,
      (hprops n0 E hE).2, ?_⟩
    show (alget g.edges n0).map _ = _
    rw [hE]
    rfl
  · obtain ⟨k, hk⟩ : ∃ k, mids.length = k + 1 := ⟨mids.length - 1, by omega⟩
    rw [chain_get, if_neg hmz, if_pos (le_refl _), Option.some_inj] at hs
    have hcsk : (chainIds g.phantom_node_id_counter mids.length).get? k =
        some s := by
      rw [chainIds_get, if_pos (by omega), Option.some_inj, ← hs]
      push_cast [hk]
      ring
    obtain ⟨ov, hovk⟩ := get_lt mids k (by omega)
    have hmemz : (s, ov) ∈
        (chainIds g.phantom_node_id_counter mids.length).zip mids := by
      refine mem_of_get _ k _ ?_
      rw [zip_get, hcsk, hovk]
    have hres : alget
        ((chainIds g.phantom_node_id_counter mids.length).zip mids) s =
        some ov :=
      mem_alget (by
        rw [zip_map_fst _ _ (by rw [chainIds_length])]
        exact chainIds_nodup _ _) hmemz
    have hget1 : (n0 :: (mids ++ [last])).get? (k + 1) = some ov := by
      simp only [List.get?_cons_succ]
      rw [List.get?_append (by omega), hovk]
    have hrel := chain_rel _ _ (k + 1) ov last hchain hget1
      (by rw [show k + 1 + 1 = mids.length + 1 by omega]; exact hgetlast)
    obtain ⟨E, hE⟩ := Option.isSome_iff_exists.mp
      (targets_some g ov last hrel)
    have hcf := clone_fold_mem _
      { g with phantom_node_id_counter := ch'.phantom_node_id_counter } s ov
      (by
        rw [zip_map_fst _ _ (by rw [chainIds_length])]
        exact chainIds_nodup _ _)
      (by
        intro pr hpr hm
        rw [zip_map_fst _ _ (by rw [chainIds_length])] at hm
        obtain ⟨nd, hnd⟩ := Option.isSome_iff_exists.mp
          (hstored pr.2 (List.mem_zip hpr).2)
        exact absurd (chainIds_mem_gt _ _ _ hm) (by
          have := hnodebound pr.2 nd hnd
          omega))
      hmemz
    have hclone : alget
        (((chainIds g.phantom_node_id_counter mids.length).zip mids).foldl
          clone_node_step
          { g with phantom_node_id_counter := ch'.phantom_node_id_counter
          }).edges s = some E := by
      rw [hcf.2]
      show some ((alget g.edges ov).getD []) = some E
      rw [hE]
      rfl
    -- s is beyond every source key of the walk removals and additions
    have hsge : s = g.phantom_node_id_counter + (mids.length : Int) := hs.symm
    have hsrc_ne : ∀ x ∈ n0 ::
        (chainIds g.phantom_node_id_counter mids.length).dropLast, x ≠ s := by
      intro x hx hh
      rcases List.mem_cons.mp hx with rfl | hx
      · rw [hh] at hn0le
        omega
      · rw [hk, chainIds_dropLast] at hx
        have := chainIds_mem_le _ _ _ hx
        omega
    have hremw : removalTargets
        (((n0 ::
          (chainIds g.phantom_node_id_counter mids.length).dropLast).zip
          mids) ++ rmX) s = removalTargets rmX s := by
      rw [removalTargets_append, removalTargets_not_mem _ _ (fun hm =>
        hsrc_ne s (zip_fst_sub _ _ _ hm) rfl)]
      rfl
    simp only [apply_change]
    rw [hnn, hea, hrm]
    rw [add_fold_not_mem _ _ _ (fun hm =>
      hsrc_ne s (zip_fst_sub _ _ _ (singletonAdds_keys _ _ _ hm)) rfl)]
    rw [remove_fold_edges, hclone, hremw]
    exact ⟨E, by rw [hres]; exact hE, (hprops ov E hE).1,
      (hprops ov E hE).2, rfl⟩

/-- A well-formed phantom-free graph, the state of the builder graph before
any restriction is stored: stored nodes carry their id as external id, all
edge endpoints are stored, edge maps do not repeat targets, and every
stored id is bounded by the phantom id counter. -/
def PhantomFree (g : Graph) : Prop :=
  (∀ pr ∈ g.nodes, pr.2.external_id = pr.1) ∧
  (∀ pr ∈ g.edges, ∀ q ∈ pr.2, (alget g.nodes q.1).isSome = true) ∧
  (∀ pr ∈ g.edges, (pr.2.map Prod.fst).Nodup) ∧
  (∀ pr ∈ g.nodes, pr.1 ≤ g.phantom_node_id_counter) ∧
  (∀ pr ∈ g.edges, (alget g.nodes pr.1).isSome = true)

instance (g : Graph) : Decidable (PhantomFree g) := by
  unfold PhantomFree
  infer_instance

theorem PF_reg {g : Graph} (h : PhantomFree g) :
    ∀ x nd, alget g.nodes x = some nd → nd.external_id = x :=
  fun x nd hx => h.1 (x, nd) (alget_mem hx)

theorem PF_tgt {g : Graph} (h : PhantomFree g) :
    ∀ a m, alget g.edges a = some m → ∀ p ∈ m,
      (alget g.nodes p.1).isSome = true :=
  fun a m hm => h.2.1 (a, m) (alget_mem hm)

theorem PF_mnd {g : Graph} (h : PhantomFree g) :
    ∀ a m, alget g.edges a = some m → (m.map Prod.fst).Nodup :=
  fun a m hm => h.2.2.1 (a, m) (alget_mem hm)

theorem PF_nbound {g : Graph} (h : PhantomFree g) :
    ∀ x nd, alget g.nodes x = some nd → x ≤ g.phantom_node_id_counter :=
  fun x nd hx => h.2.2.2.1 (x, nd) (alget_mem hx)

theorem PF_src {g : Graph} (h : PhantomFree g) :
    ∀ a m, alget g.edges a = some m → (alget g.nodes a).isSome = true :=
  fun a m hm => h.2.2.2.2 (a, m) (alget_mem hm)

theorem racn_entry_some (g : Graph) (last x : Int) (rest : List Int)
    (ch : GraphChange) (prev : Int) (acc : List Int)
    (out : GraphChange × List Int)
    (h : racn_go g last (x :: rest) ch prev acc = some out) :
    ∃ t, get_to_node_id g ch prev x = some t := by
  simp only [racn_go] at h
  cases hg : get_to_node_id g ch prev x with
  | none => rw [hg] at h; exact absurd h (by simp)
  | some t => exact ⟨t, rfl⟩

theorem get_to_node_id_edges_some (g : Graph) (ch : GraphChange)
    (prev osm t : Int) (h : get_to_node_id g ch prev osm = some t) :
    (alget g.edges ((alget ch.new_nodes prev).getD prev)).isSome = true := by
  unfold get_to_node_id at h
  simp only at h
  cases he : alget g.edges ((alget ch.new_nodes prev).getD prev) with
  | none =>
    rw [he] at h
    exact absurd h (by simp)
  | some m => rfl

theorem edgeCost_src_some (g : Graph) (a b : Int)
    (h : (edgeCost g a b).isSome = true) :
    (alget g.edges a).isSome = true := by
  unfold edgeCost getEdges at h
  cases he : alget g.edges a with
  | none => rw [he] at h; simp [alget] at h
  | some m => rfl

/-- C1 (amended): for a prohibitory restriction over a route of pairwise
distinct OSM nodes, successfully stored on a phantom-free graph, no directed
path in the resulting graph projects through external ids onto any extension
of the forbidden route: the exact sequence never appears as a contiguous
slice of a path projection. The original claim without the distinctness
requirement is refuted by C1_counterexample. -/
theorem C1_prohibitory_blocks_route (g g' : Graph) (n0 last : Int)
    (mids : List Int)
    (hPF : PhantomFree g)
    (hnd : (n0 :: (mids ++ [last])).Nodup)
    (hstore : store_restriction g (n0 :: (mids ++ [last])) false = some g') :
    ∀ p pre suf, pathIn g' p →
      p.map (extId g') ≠ pre ++ (n0 :: (mids ++ [last])) ++ suf := by
  intro p pre suf hpath heq
  have hreg := PF_reg hPF
  have htgt := PF_tgt hPF
  have hmnd := PF_mnd hPF
  have hnodebound := PF_nbound hPF
  have hsrc := PF_src hPF
  unfold store_restriction at hstore
  cases hr : restriction_as_cloned_nodes g (GraphChange.init g)
      (n0 :: (mids ++ [last])) with
  | none => rw [hr] at hstore; exact absurd hstore (by simp)
  | some pr =>
  obtain ⟨ch, cloned⟩ := pr
  rw [hr] at hstore
  simp only [Bool.false_eq_true, if_false, Option.some_inj] at hstore
  have hms : ∃ x rest', mids ++ [last] = x :: rest' := by
    cases mids with
    | nil => exact ⟨last, [], rfl⟩
    | cons v vs => exact ⟨v, vs ++ [last], rfl⟩
  obtain ⟨x1, rest1, hxr⟩ := hms
  have hentry : (alget g.edges n0).isSome = true := by
    have hr2 := hr
    unfold restriction_as_cloned_nodes at hr2
    rw [hxr] at hr2
    obtain ⟨t, ht⟩ := racn_entry_some _ _ _ _ _ _ _ _ hr2
    have := get_to_node_id_edges_some _ _ _ _ _ ht
    simpa [GraphChange.init, alget] using this
  obtain ⟨E0, hE0⟩ := Option.isSome_iff_exists.mp hentry
  obtain ⟨nd0, hnd0⟩ := Option.isSome_iff_exists.mp (hsrc n0 E0 hE0)
  have hn0le : n0 ≤ g.phantom_node_id_counter := hnodebound n0 nd0 hnd0
  rcases List.nodup_cons.mp hnd with ⟨hn0nm, hnd2⟩
  have hdisj2 := List.disjoint_of_nodup_append hnd2
  have hml : ∀ x ∈ mids, x ≠ last := fun x hx hh =>
    hdisj2 hx (by rw [hh]; exact List.mem_singleton.mpr rfl)
  have hn0mids : n0 ∉ mids := fun hm => hn0nm (List.mem_append_left _ hm)
  obtain ⟨hctr, hnnw, hrmw, ⟨ws, hws, heaw⟩, hclw, hmidsst, hlastst, hchW⟩ :=
    store_walk g hreg htgt n0 last mids ch cloned hn0le hml hr
  have hchain : (n0 :: (mids ++ [last])).Chain'
      (fun a b => b ∈ ((alget g.edges a).getD []).map Prod.fst) := by
    rw [← List.cons_append]
    exact hchW
  have hdropl : cloned.dropLast =
      n0 :: chainIds g.phantom_node_id_counter mids.length := by
    rw [hclw, show n0 :: (chainIds g.phantom_node_id_counter mids.length ++
      [last]) = (n0 :: chainIds g.phantom_node_id_counter mids.length) ++
      [last] from (List.cons_append _ _ _).symm]
    exact List.dropLast_concat
  have hlastc : lastD cloned = last := by
    rw [hclw, show n0 :: (chainIds g.phantom_node_id_counter mids.length ++
      [last]) = (n0 :: chainIds g.phantom_node_id_counter mids.length) ++
      [last] from (List.cons_append _ _ _).symm]
    exact lastD_concat _ _
  have hL : lastD cloned.dropLast =
      if mids.length = 0 then n0
      else g.phantom_node_id_counter + (mids.length : Int) := by
    rw [hdropl]
    exact chain_lastD _ _ _
  have hch2 : ∃ ch2 : GraphChange, apply_change g ch2 = g' ∧
      ch2.new_nodes = ch.new_nodes ∧
      ch2.edges_to_add = ch.edges_to_add ∧
      ch2.edges_to_remove = ch.edges_to_remove ++
        [(lastD cloned.dropLast, lastD cloned)] :=
    ⟨_, hstore, rfl, rfl, rfl⟩
  obtain ⟨ch2, hg', hnn2, hea2, hrm2⟩ := hch2
  have hnnM : ch2.new_nodes =
      (chainIds g.phantom_node_id_counter mids.length).zip mids :=
    hnn2.trans hnnw
  have heaM : ch2.edges_to_add = singletonAdds
      ((n0 :: (chainIds g.phantom_node_id_counter mids.length).dropLast).zip
        (chainIds g.phantom_node_id_counter mids.length)) ws :=
    hea2.trans heaw
  have hrmM : ch2.edges_to_remove =
      ((n0 :: (chainIds g.phantom_node_id_counter mids.length).dropLast).zip
        mids) ++ [(lastD cloned.dropLast, last)] := by
    rw [hrm2, hrmw, hlastc]
  have hkeysF : ∀ x, (alget g'.edges x).isSome = true →
      (alget g.edges x).isSome = true ∨
      x ∈ chainIds g.phantom_node_id_counter mids.length := by
    intro x hx
    rw [← hg'] at hx
    exact apply_keys g n0 last mids ch2 ws hn0le hnnM heaM hchW x hx
  have hnodesF : ∀ x, x ∉ chainIds g.phantom_node_id_counter mids.length →
      alget g'.nodes x = alget g.nodes x := by
    intro x hx
    rw [← hg']
    exact apply_nodes_eq g mids ch2 hnnM x hx
  have hextF : ∀ i c v,
      (chainIds g.phantom_node_id_counter mids.length).get? i = some c →
      mids.get? i = some v → extId g' c = v := by
    intro i c v hc hv
    rw [← hg']
    exact apply_ext g mids ch2 hreg hnodebound hmidsst hnnM i c v hc hv
  have hregularT : ∀ t, (alget g.nodes t).isSome = true →
      t ≤ g.phantom_node_id_counter → extId g' t = t := by
    intro t hst hle
    have htnot : t ∉ chainIds g.phantom_node_id_counter mids.length :=
      fun hm => absurd (chainIds_mem_gt _ _ _ hm) (by omega)
    obtain ⟨nd, hnd1⟩ := Option.isSome_iff_exists.mp hst
    unfold extId getNodeD
    rw [hnodesF t htnot, hnd1]
    exact hreg t nd hnd1
  have hlt_of : ∀ (i : Nat) (c : Int),
      (chainIds g.phantom_node_id_counter mids.length).get? i = some c →
      i < mids.length := by
    intro i c hc
    by_contra hge
    rw [chainIds_get, if_neg hge] at hc
    exact absurd hc (by simp)
  have hjle_of : ∀ (j : Nat) (X : Int),
      (n0 :: chainIds g.phantom_node_id_counter mids.length).get? j =
        some X → j ≤ mids.length := by
    intro j X hXj
    by_cases h0 : j = 0
    · omega
    · by_cases hj : j ≤ mids.length
      · exact hj
      · rw [chain_get, if_neg h0, if_neg hj] at hXj
        exact absurd hXj (by simp)
  have hstepF : ∀ (i : Nat) (X c v y : Int),
      (n0 :: chainIds g.phantom_node_id_counter mids.length).get? i =
        some X →
      (chainIds g.phantom_node_id_counter mids.length).get? i = some c →
      mids.get? i = some v →
      (edgeCost g' X y).isSome = true →
      y = c ∨ (extId g' y = y ∧ y ≠ v) := by
    intro i X c v y hXi hci hvi hy
    have hiltm : i < mids.length := hlt_of i c hci
    have hXne : X ≠ lastD cloned.dropLast := by
      rw [hL, if_neg (by omega)]
      rw [chain_get] at hXi
      by_cases hi0 : i = 0
      · rw [if_pos hi0, Option.some_inj] at hXi
        omega
      · rw [if_neg hi0, if_pos (by omega), Option.some_inj] at hXi
        omega
    have hrT : removalTargets [(lastD cloned.dropLast, last)] X = [] :=
      removalTargets_const_key _ _ _
        (fun pr hpr => by rw [List.mem_singleton.mp hpr])
        (Ne.symm hXne)
    obtain ⟨E, w, hresE, hpropsE, hndE, hlook⟩ := apply_step g n0 last mids
      ch2 [(lastD cloned.dropLast, last)] ws htgt hmnd hnodebound hn0le hws
      hmidsst hnnM heaM hrmM hchain i X c v hXi hci hvi
    rw [hg', hrT] at hlook
    have hredef : eraseAll E (v :: ([] : List Int)) = alerase E v := rfl
    rw [hredef] at hlook
    unfold edgeCost getEdges at hy
    rw [hlook] at hy
    simp only [Option.getD_some] at hy
    by_cases hyc : y = c
    · exact Or.inl hyc
    · rw [alget_alset_ne _ _ _ _ hyc] at hy
      have hymem : y ∈ (alerase E v).map Prod.fst :=
        (alget_isSome_iff _ _).mp hy
      have hyE : y ∈ E.map Prod.fst := alerase_keys_subset E v y hymem
      obtain ⟨q, hq, hqf⟩ := List.mem_map.mp hyE
      have hqp := hpropsE q hq
      refine Or.inr ⟨hregularT y (hqf ▸ hqp.1) (hqf ▸ hqp.2), ?_⟩
      intro hyv
      rw [hyv, alget_alerase_self E v hndE] at hy
      exact absurd hy (by simp)
  have hlastF : ∀ (X y : Int),
      (n0 :: chainIds g.phantom_node_id_counter mids.length).get?
        mids.length = some X →
      (edgeCost g' X y).isSome = true →
      extId g' y = y ∧ y ≠ last := by
    intro X y hX hy
    have hXL : lastD cloned.dropLast = X := by
      rw [hL]
      rw [chain_get] at hX
      by_cases hm0 : mids.length = 0
      · rw [if_pos hm0] at hX
        rw [if_pos hm0]
        exact Option.some_inj.mp hX
      · rw [if_neg hm0, if_pos (le_refl _), Option.some_inj] at hX
        rw [if_neg hm0]
        exact hX
    have hrT : removalTargets [(lastD cloned.dropLast, last)] X = [last] := by
      rw [hXL]
      simp [removalTargets]
    obtain ⟨E, hresE, hpropsE, hndE, hlook⟩ := apply_last g n0 last mids ch2
      [(lastD cloned.dropLast, last)] ws htgt hmnd hnodebound hn0le hmidsst
      hnnM heaM hrmM hchain X hX
    rw [hg', hrT] at hlook
    have hredef : eraseAll E [last] = alerase E last := rfl
    rw [hredef] at hlook
    unfold edgeCost getEdges at hy
    rw [hlook] at hy
    simp only [Option.getD_some] at hy
    have hymem : y ∈ (alerase E last).map Prod.fst :=
      (alget_isSome_iff _ _).mp hy
    have hyE : y ∈ E.map Prod.fst := alerase_keys_subset E last y hymem
    obtain ⟨q, hq, hqf⟩ := List.mem_map.mp hyE
    have hqp := hpropsE q hq
    refine ⟨hregularT y (hqf ▸ hqp.1) (hqf ▸ hqp.2), ?_⟩
    intro hyl
    rw [hyl, alget_alerase_self E last hndE] at hy
    exact absurd hy (by simp)
  have hforce : ∀ (rest : List Int) (j : Nat) (X : Int),
      (n0 :: chainIds g.phantom_node_id_counter mids.length).get? j =
        some X →
      pathIn g' (X :: rest) →
      (X :: rest).map (extId g') =
        (n0 :: (mids ++ [last])).drop j ++ suf →
      False := by
    intro rest
    induction rest with
    | nil =>
      intro j X hXj hp heq2
      have hjle := hjle_of j X hXj
      have hlen := congrArg List.length heq2
      simp only [List.map_cons, List.map_nil, List.length_cons,
        List.length_nil, List.length_append, List.length_drop,
        List.length_singleton] at hlen
      omega
    | cons y rest' ih =>
      intro j X hXj hp heq2
      have hjle := hjle_of j X hXj
      obtain ⟨rj, hrj⟩ := get_lt (n0 :: (mids ++ [last])) j (by
        simp only [List.length_cons, List.length_append,
          List.length_singleton]
        omega)
      rw [drop_eq_cons _ _ _ hrj] at heq2
      simp only [List.map_cons, List.cons_append, List.cons.injEq] at heq2
      obtain ⟨hheadeq, htaileq⟩ := heq2
      have hedge : (edgeCost g' X y).isSome = true :=
        (List.chain'_cons.mp hp).1
      have htail : pathIn g' (y :: rest') := (List.chain'_cons.mp hp).2
      by_cases hjm : j < mids.length
      · obtain ⟨c, hcj⟩ := get_lt
          (chainIds g.phantom_node_id_counter mids.length) j
          (by rw [chainIds_length]; omega)
        obtain ⟨v, hvj⟩ := get_lt mids j hjm
        have hrj1 : (n0 :: (mids ++ [last])).get? (j + 1) = some v := by
          simp only [List.get?_cons_succ]
          rw [List.get?_append hjm, hvj]
        have htl2 := htaileq
        rw [drop_eq_cons _ _ _ hrj1] at htl2
        simp only [List.map_cons, List.cons_append, List.cons.injEq] at htl2
        have hexty : extId g' y = v := htl2.1
        rcases hstepF j X c v y hXj hcj hvj hedge with hyc | ⟨hey, hneq⟩
        · refine ih (j + 1) y ?_ htail htaileq
          simp only [List.get?_cons_succ]
          rw [hyc]
          exact hcj
        · exact hneq (hey.symm.trans hexty)
      · have hjm' : j = mids.length := by omega
        subst hjm'
        have hrj1 : (n0 :: (mids ++ [last])).get? (mids.length + 1) =
            some last := by
          simp only [List.get?_cons_succ]
          exact get_concat_length mids last
        have htl2 := htaileq
        rw [drop_eq_cons _ _ _ hrj1] at htl2
        simp only [List.map_cons, List.cons_append, List.cons.injEq] at htl2
        have hexty : extId g' y = last := htl2.1
        obtain ⟨hey, hneq⟩ := hlastF X y hXj hedge
        exact hneq (hey.symm.trans hexty)
  have heq' : p.map (extId g') =
      pre ++ ((n0 :: (mids ++ [last])) ++ suf) := by
    rw [← List.append_assoc]
    exact heq
  obtain ⟨p1, p2, hp12, hm1, hm2⟩ := map_eq_append (extId g') p pre
    ((n0 :: (mids ++ [last])) ++ suf) heq'
  have hpath2 : pathIn g' p2 := by
    have hdp := pathIn_drop g' p hpath p1.length
    rw [hp12, List.drop_left] at hdp
    exact hdp
  cases p2 with
  | nil =>
    rw [List.map_nil] at hm2
    exact absurd hm2.symm (by simp)
  | cons x0 rest =>
    rw [List.map_cons, List.cons_append] at hm2
    injection hm2 with hm2h hm2t
    cases rest with
    | nil =>
      rw [List.map_nil] at hm2t
      exact absurd hm2t.symm (by simp)
    | cons y rest' =>
      have hedge0 : (edgeCost g' x0 y).isSome = true :=
        (List.chain'_cons.mp hpath2).1
      have hx0keys : (alget g'.edges x0).isSome = true :=
        edgeCost_src_some g' x0 y hedge0
      have hx0 : x0 = n0 := by
        rcases hkeysF x0 hx0keys with hx0e | hx0c
        · obtain ⟨E1, hE1⟩ := Option.isSome_iff_exists.mp hx0e
          obtain ⟨nd1, hnd1⟩ := Option.isSome_iff_exists.mp (hsrc x0 E1 hE1)
          have hex := hregularT x0 (by rw [hnd1]; rfl)
            (hnodebound x0 nd1 hnd1)
          exact hex.symm.trans hm2h
        · obtain ⟨i, hi⟩ := get_of_mem _ x0 hx0c
          have hilt := hlt_of i x0 hi
          obtain ⟨v, hv⟩ := get_lt mids i hilt
          have hxv := hextF i x0 v hi hv
          have hvn0 : v = n0 := hxv.symm.trans hm2h
          exact absurd (mem_of_get mids i v hv) (hvn0 ▸ hn0mids)
      refine hforce (y :: rest') 0 x0 (by rw [hx0]; rfl) hpath2 ?_
      rw [List.drop_zero, List.map_cons, List.cons_append, hm2h, hm2t]

theorem singletonAdds_mem_shape (prs : List (Int × Int)) :
    ∀ (ws : List ℚ) (a : Int) (l : List (Int × ℚ)),
    (a, l) ∈ singletonAdds prs ws →
    ∃ b w, (a, b) ∈ prs ∧ l = [(b, w)] := by
  induction prs with
  | nil => intro ws a l h; simp [singletonAdds] at h
  | cons p ps ih =>
    intro ws a l h
    cases ws with
    | nil => simp [singletonAdds] at h
    | cons w ws =>
      simp only [singletonAdds, List.mem_cons] at h
      rcases h with h | h
      · injection h with h1 h2
        exact ⟨p.2, w, by rw [h1]; exact List.mem_cons_self _ _, h2⟩
      · obtain ⟨b, w2, hb, hl⟩ := ih ws a l h
        exact ⟨b, w2, List.mem_cons_of_mem _ hb, hl⟩

theorem mem_zip_index {α β : Type} (l1 : List α) (l2 : List β) (a : α)
    (b : β) (h : (a, b) ∈ l1.zip l2) :
    ∃ i, l1.get? i = some a ∧ l2.get? i = some b := by
  obtain ⟨i, hi⟩ := get_of_mem _ _ h
  rw [zip_get] at hi
  cases h1 : l1.get? i with
  | none => rw [h1] at hi; simp at hi
  | some a' =>
    cases h2 : l2.get? i with
    | none => rw [h1, h2] at hi; simp at hi
    | some b' =>
      rw [h1, h2] at hi
      simp only [Option.some_inj, Prod.mk.injEq] at hi
      exact ⟨i, by rw [h1, hi.1], by rw [h2, hi.2]⟩

theorem removalTargets_filterMap_self (X t0 : Int) :
    ∀ (l : List (Int × ℚ)),
    removalTargets (l.filterMap
      (fun p => if p.1 ≠ t0 then some (X, p.1) else none)) X =
    l.filterMap (fun p => if p.1 ≠ t0 then some p.1 else none) := by
  intro l
  induction l with
  | nil => rfl
  | cons q qs ih =>
    by_cases hq : q.1 ≠ t0
    · simp only [List.filterMap_cons, if_pos hq, removalTargets,
        List.filterMap_cons, if_pos rfl] at ih ⊢
      rw [← ih]
      rfl
    · simp only [List.filterMap_cons, if_neg hq] at ih ⊢
      exact ih

theorem bind_all_nil {β γ : Type} (f : β → List γ) :
    ∀ (l : List β), (∀ b ∈ l, f b = []) → l.bind f = [] := by
  intro l
  induction l with
  | nil => intro _; rfl
  | cons x xs ih =>
    intro h
    show f x ++ xs.bind f = []
    rw [h x (List.mem_cons_self _ _), ih (fun b hb =>
      h b (List.mem_cons_of_mem _ hb)), List.nil_append]

theorem bind_eq_single {β γ : Type} (f : β → List γ) :
    ∀ (l : List β) (b : β) (i : Nat), l.get? i = some b →
    (∀ (k : Nat) (b2 : β), l.get? k = some b2 → k ≠ i → f b2 = []) →
    l.bind f = f b := by
  intro l
  induction l with
  | nil => intro b i h _; simp at h
  | cons x xs ih =>
    intro b i hi hothers
    cases i with
    | zero =>
      simp only [List.get?_cons_zero, Option.some_inj] at hi
      subst hi
      show f x ++ xs.bind f = f x
      rw [bind_all_nil f xs (fun b2 hb2 => by
        obtain ⟨k, hk⟩ := get_of_mem xs b2 hb2
        exact hothers (k + 1) b2 hk (Nat.succ_ne_zero k)), List.append_nil]
    | succ i =>
      simp only [List.get?_cons_succ] at hi
      show f x ++ xs.bind f = f b
      rw [hothers 0 x rfl (by omega),
        ih b i hi (fun k b2 hk hne =>
          hothers (k + 1) b2 hk (by omega)), List.nil_append]

theorem get_some_lt {α : Type} :
    ∀ (l : List α) (i : Nat) (a : α), l.get? i = some a → i < l.length := by
  intro l
  induction l with
  | nil => intro i a h; simp at h
  | cons x xs ih =>
    intro i a h
    cases i with
    | zero => simp
    | succ i =>
      simp only [List.get?_cons_succ] at h
      have := ih i a h
      simp only [List.length_cons]
      omega

theorem nodup_index_unique {α : Type} :
    ∀ (l : List α), l.Nodup → ∀ (i k : Nat) (a : α),
      l.get? i = some a → l.get? k = some a → i = k := by
  intro l
  induction l with
  | nil => intro _ i k a h; simp at h
  | cons x xs ih =>
    intro hnd i k a hi hk
    rcases List.nodup_cons.mp hnd with ⟨hx, hxs⟩
    cases i with
    | zero =>
      cases k with
      | zero => rfl
      | succ k =>
        simp only [List.get?_cons_zero, Option.some_inj] at hi
        simp only [List.get?_cons_succ] at hk
        exact absurd (mem_of_get xs k a hk) (hi ▸ hx)
    | succ i =>
      cases k with
      | zero =>
        simp only [List.get?_cons_zero, Option.some_inj] at hk
        simp only [List.get?_cons_succ] at hi
        exact absurd (mem_of_get xs i a hi) (hk ▸ hx)
      | succ k =>
        simp only [List.get?_cons_succ] at hi hk
        rw [ih hxs i k a hi hk]

theorem eraseAll_keys_subset (ts : List Int) :
    ∀ (m : List (Int × ℚ)) (t : Int),
    t ∈ (eraseAll m ts).map Prod.fst → t ∈ m.map Prod.fst := by
  induction ts with
  | nil => intro m t h; simpa [eraseAll] using h
  | cons s ss ih =>
    intro m t h
    simp only [eraseAll, List.foldl_cons] at h
    exact alerase_keys_subset m s t (ih (alerase m s) t h)

theorem ensureRemovals_key (g : Graph) (nn : List (Int × Int))
    (pr : Int × Int) : ∀ q ∈ ensureRemovals g nn pr, q.1 = pr.1 := by
  intro q hq
  obtain ⟨pq, hpq, hqe⟩ := List.mem_filterMap.mp hq
  by_cases hc : pq.1 ≠ pr.2
  · rw [if_pos hc] at hqe
    rw [← Option.some_inj.mp hqe]
  · rw [if_neg hc] at hqe
    exact absurd hqe (by simp)

/-- C2 (amended): for a mandatory restriction over a route of pairwise
distinct OSM nodes, successfully stored on a phantom-free graph, any path
whose external-id projection passes the entry pair (n0, n1) follows the
route for as long as the path extends: from that point on, one projection
is a prefix of the other. The original claim over arbitrary add_features
graphs (with earlier restrictions already applied) is refuted by
C2_counterexample. -/
theorem C2_mandatory_forces_route (g g' : Graph) (n0 last : Int)
    (mids : List Int)
    (hPF : PhantomFree g)
    (hnd : (n0 :: (mids ++ [last])).Nodup)
    (hstore : store_restriction g (n0 :: (mids ++ [last])) true = some g') :
    ∀ p p1 p2, pathIn g' p → p = p1 ++ p2 →
      (p2.map (extId g')).take 2 = (n0 :: (mids ++ [last])).take 2 →
      List.IsPrefix (p2.map (extId g')) (n0 :: (mids ++ [last])) ∨
      List.IsPrefix (n0 :: (mids ++ [last])) (p2.map (extId g')) := by
  intro p p1 p2 hpath hsplit htake2
  have hreg := PF_reg hPF
  have htgt := PF_tgt hPF
  have hmnd := PF_mnd hPF
  have hnodebound := PF_nbound hPF
  have hsrc := PF_src hPF
  unfold store_restriction at hstore
  cases hr : restriction_as_cloned_nodes g (GraphChange.init g)
      (n0 :: (mids ++ [last])) with
  | none => rw [hr] at hstore; exact absurd hstore (by simp)
  | some prc =>
  obtain ⟨ch, cloned⟩ := prc
  rw [hr] at hstore
  simp only [if_true, Option.some_inj] at hstore
  have hms : ∃ x rest', mids ++ [last] = x :: rest' := by
    cases mids with
    | nil => exact ⟨last, [], rfl⟩
    | cons v vs => exact ⟨v, vs ++ [last], rfl⟩
  obtain ⟨x1, rest1, hxr⟩ := hms
  have hentry : (alget g.edges n0).isSome = true := by
    have hr2 := hr
    unfold restriction_as_cloned_nodes at hr2
    rw [hxr] at hr2
    obtain ⟨t, ht⟩ := racn_entry_some _ _ _ _ _ _ _ _ hr2
    have := get_to_node_id_edges_some _ _ _ _ _ ht
    simpa [GraphChange.init, alget] using this
  obtain ⟨E0, hE0⟩ := Option.isSome_iff_exists.mp hentry
  obtain ⟨nd0, hnd0⟩ := Option.isSome_iff_exists.mp (hsrc n0 E0 hE0)
  have hn0le : n0 ≤ g.phantom_node_id_counter := hnodebound n0 nd0 hnd0
  rcases List.nodup_cons.mp hnd with ⟨hn0nm, hnd2⟩
  have hdisj2 := List.disjoint_of_nodup_append hnd2
  have hml : ∀ x ∈ mids, x ≠ last := fun x hx hh =>
    hdisj2 hx (by rw [hh]; exact List.mem_singleton.mpr rfl)
  have hn0mids : n0 ∉ mids := fun hm => hn0nm (List.mem_append_left _ hm)
  have hn0last : n0 ≠ last := fun hh =>
    hn0nm (List.mem_append_right _ (List.mem_singleton.mpr hh))
  obtain ⟨hctr, hnnw, hrmw, ⟨ws, hws, heaw⟩, hclw, hmidsst, hlastst, hchW⟩ :=
    store_walk g hreg htgt n0 last mids ch cloned hn0le hml hr
  obtain ⟨ndl, hndl⟩ := Option.isSome_iff_exists.mp hlastst
  have hlastle : last ≤ g.phantom_node_id_counter := hnodebound last ndl hndl
  have hchain : (n0 :: (mids ++ [last])).Chain'
      (fun a b => b ∈ ((alget g.edges a).getD []).map Prod.fst) := by
    rw [← List.cons_append]
    exact hchW
  have hdrop1 : cloned.drop 1 =
      chainIds g.phantom_node_id_counter mids.length ++ [last] := by
    rw [hclw]
    rfl
  have hdrop2 : cloned.drop 2 =
      (chainIds g.phantom_node_id_counter mids.length ++ [last]).drop 1 := by
    rw [hclw]
    rfl
  have hensure : ∀ pr ∈ (cloned.drop 1).zip (cloned.drop 2),
      ∀ mp, alget ch.edges_to_add pr.1 = some mp →
      ∃ w, mp = [(pr.2, w)] := by
    intro pr hpr mp hmp
    rw [hdrop1, hdrop2] at hpr
    have hpr2 : (pr.1, pr.2) ∈
        (chainIds g.phantom_node_id_counter mids.length ++ [last]).zip
        ((chainIds g.phantom_node_id_counter mids.length ++ [last]).drop
          1) := by
      simpa using hpr
    obtain ⟨jp, hp1, hp2⟩ := mem_zip_index _ _ _ _ hpr2
    rw [List.get?_drop, Nat.add_comm] at hp2
    rw [heaw] at hmp
    obtain ⟨y, w, hyy, hshape⟩ :=
      singletonAdds_mem_shape _ _ _ _ (alget_mem hmp)
    obtain ⟨k, hk1, hk2⟩ := mem_zip_index _ _ _ _ hyy
    have hjpm : jp < mids.length := by
      by_contra hge
      have hjl := get_some_lt _ _ _ hp1
      rw [List.length_append, chainIds_length, List.length_singleton] at hjl
      have hjpe : jp = mids.length := by omega
      have hcl : (chainIds g.phantom_node_id_counter mids.length).length =
          mids.length := chainIds_length _ _
      have hgl := get_concat_length
        (chainIds g.phantom_node_id_counter mids.length) last
      rw [hcl] at hgl
      rw [hjpe, hgl, Option.some_inj] at hp1
      cases k with
      | zero =>
        simp only [List.get?_cons_zero, Option.some_inj] at hk1
        exact hn0last (hk1.trans hp1.symm)
      | succ k2 =>
        simp only [List.get?_cons_succ] at hk1
        have hmem : pr.1 ∈
            (chainIds g.phantom_node_id_counter mids.length).dropLast :=
          mem_of_get _ k2 _ hk1
        have hmem2 : pr.1 ∈ chainIds g.phantom_node_id_counter mids.length :=
          (List.dropLast_sublist _).subset hmem
        have := chainIds_mem_gt _ _ _ hmem2
        rw [hp1] at hlastle
        omega
    have hp1' : (chainIds g.phantom_node_id_counter mids.length).get? jp =
        some pr.1 := by
      rw [List.get?_append (by rw [chainIds_length]; omega)] at hp1
      exact hp1
    rw [chainIds_get, if_pos hjpm, Option.some_inj] at hp1'
    cases k with
    | zero =>
      simp only [List.get?_cons_zero, Option.some_inj] at hk1
      rw [← hk1] at hp1'
      omega
    | succ k2 =>
      simp only [List.get?_cons_succ] at hk1
      obtain ⟨mm, hmm⟩ : ∃ mm, mids.length = mm + 1 :=
        ⟨mids.length - 1, by omega⟩
      rw [hmm, chainIds_dropLast] at hk1
      have hk2lt : k2 < mm := by
        by_contra hge
        rw [chainIds_get, if_neg hge] at hk1
        exact absurd hk1 (by simp)
      rw [chainIds_get, if_pos hk2lt, Option.some_inj] at hk1
      have hk2jp : k2 = jp := by omega
      subst hk2jp
      by_cases hj1m : k2 + 1 < mids.length
      · rw [List.get?_append (by rw [chainIds_length]; omega), hk2,
          Option.some_inj] at hp2
        exact ⟨w, by rw [hshape, hp2]⟩
      · rw [chainIds_get, if_neg (by omega)] at hk2
        exact absurd hk2 (by simp)
  rw [ensure_fold_spec g _ ch hensure] at hstore
  have hch2 : ∃ ch2 : GraphChange, apply_change g ch2 = g' ∧
      ch2.new_nodes = ch.new_nodes ∧
      ch2.edges_to_add = ch.edges_to_add ∧
      ch2.edges_to_remove = ch.edges_to_remove ++
        ((cloned.drop 1).zip (cloned.drop 2)).bind
          (ensureRemovals g ch.new_nodes) :=
    ⟨_, hstore, rfl, rfl, rfl⟩
  obtain ⟨ch2, hg', hnn2, hea2, hrm2⟩ := hch2
  have hnnM : ch2.new_nodes =
      (chainIds g.phantom_node_id_counter mids.length).zip mids :=
    hnn2.trans hnnw
  have heaM : ch2.edges_to_add = singletonAdds
      ((n0 :: (chainIds g.phantom_node_id_counter mids.length).dropLast).zip
        (chainIds g.phantom_node_id_counter mids.length)) ws :=
    hea2.trans heaw
  have hrmM : ch2.edges_to_remove =
      ((n0 :: (chainIds g.phantom_node_id_counter mids.length).dropLast).zip
        mids) ++
      (((chainIds g.phantom_node_id_counter mids.length ++ [last]).zip
        ((chainIds g.phantom_node_id_counter mids.length ++ [last]).drop
          1)).bind
        (ensureRemovals g
          ((chainIds g.phantom_node_id_counter mids.length).zip mids))) := by
    rw [hrm2, hrmw, hnnw, hdrop1, hdrop2]
  have hkeysF : ∀ x, (alget g'.edges x).isSome = true →
      (alget g.edges x).isSome = true ∨
      x ∈ chainIds g.phantom_node_id_counter mids.length := by
    intro x hx
    rw [← hg'] at hx
    exact apply_keys g n0 last mids ch2 ws hn0le hnnM heaM hchW x hx
  have hnodesF : ∀ x, x ∉ chainIds g.phantom_node_id_counter mids.length →
      alget g'.nodes x = alget g.nodes x := by
    intro x hx
    rw [← hg']
    exact apply_nodes_eq g mids ch2 hnnM x hx
  have hextF : ∀ i c v,
      (chainIds g.phantom_node_id_counter mids.length).get? i = some c →
      mids.get? i = some v → extId g' c = v := by
    intro i c v hc hv
    rw [← hg']
    exact apply_ext g mids ch2 hreg hnodebound hmidsst hnnM i c v hc hv
  have hregularT : ∀ t, (alget g.nodes t).isSome = true →
      t ≤ g.phantom_node_id_counter → extId g' t = t := by
    intro t hst hle
    have htnot : t ∉ chainIds g.phantom_node_id_counter mids.length :=
      fun hm => absurd (chainIds_mem_gt _ _ _ hm) (by omega)
    obtain ⟨nd, hnd1⟩ := Option.isSome_iff_exists.mp hst
    unfold extId getNodeD
    rw [hnodesF t htnot, hnd1]
    exact hreg t nd hnd1
  have hlt_of : ∀ (i : Nat) (c : Int),
      (chainIds g.phantom_node_id_counter mids.length).get? i = some c →
      i < mids.length := by
    intro i c hc
    by_contra hge
    rw [chainIds_get, if_neg hge] at hc
    exact absurd hc (by simp)
  have hcatnd : (chainIds g.phantom_node_id_counter mids.length ++
      [last]).Nodup :=
    List.Nodup.append (chainIds_nodup _ _) (List.nodup_singleton _)
      (fun a ha hb => by
        rw [List.mem_singleton] at hb
        have := chainIds_mem_gt _ _ _ ha
        rw [hb] at this
        omega)
  have hpairsget : ∀ (k : Nat) (pr : Int × Int),
      ((chainIds g.phantom_node_id_counter mids.length ++ [last]).zip
        ((chainIds g.phantom_node_id_counter mids.length ++ [last]).drop
          1)).get? k = some pr →
      (chainIds g.phantom_node_id_counter mids.length ++ [last]).get? k =
        some pr.1 ∧
      (chainIds g.phantom_node_id_counter mids.length ++ [last]).get?
        (k + 1) = some pr.2 := by
    intro k pr hk
    rw [zip_get] at hk
    cases h1 : (chainIds g.phantom_node_id_counter mids.length ++
        [last]).get? k with
    | none => rw [h1] at hk; simp at hk
    | some a =>
      cases h2 : ((chainIds g.phantom_node_id_counter mids.length ++
          [last]).drop 1).get? k with
      | none => rw [h1, h2] at hk; simp at hk
      | some b =>
        rw [h1, h2] at hk
        simp only [Option.some_inj] at hk
        rw [List.get?_drop, Nat.add_comm] at h2
        have e1 : pr.1 = a := by rw [← hk]
        have e2 : pr.2 = b := by rw [← hk]
        rw [e1, e2]
        exact ⟨rfl, h2⟩
  have hrT0 : removalTargets
      (((chainIds g.phantom_node_id_counter mids.length ++ [last]).zip
        ((chainIds g.phantom_node_id_counter mids.length ++ [last]).drop
          1)).bind
        (ensureRemovals g
          ((chainIds g.phantom_node_id_counter mids.length).zip mids)))
      n0 = [] := by
    rw [removalTargets_bind]
    refine bind_all_nil _ _ (fun pr hpr => ?_)
    obtain ⟨k, hk⟩ := get_of_mem _ _ hpr
    obtain ⟨h1, _⟩ := hpairsget k pr hk
    refine removalTargets_const_key _ pr.1 n0 (ensureRemovals_key g _ pr) ?_
    rcases List.mem_append.mp (mem_of_get _ _ _ h1) with hin | hin
    · have := chainIds_mem_gt _ _ _ hin
      intro hh
      omega
    · rw [List.mem_singleton] at hin
      intro hh
      exact hn0last (by rw [← hh, hin])
  have hrTX : ∀ (j : Nat) (X nxt : Int),
      ((chainIds g.phantom_node_id_counter mids.length ++ [last]).zip
        ((chainIds g.phantom_node_id_counter mids.length ++ [last]).drop
          1)).get? j = some (X, nxt) →
      removalTargets
        (((chainIds g.phantom_node_id_counter mids.length ++ [last]).zip
          ((chainIds g.phantom_node_id_counter mids.length ++ [last]).drop
            1)).bind
          (ensureRemovals g
            ((chainIds g.phantom_node_id_counter mids.length).zip mids)))
        X =
      ((alget g.edges
        ((alget ((chainIds g.phantom_node_id_counter mids.length).zip mids)
          X).getD X)).getD []).filterMap
        (fun q => if q.1 ≠ nxt then some q.1 else none) := by
    intro j X nxt hj
    have hothers : ∀ (k : Nat) (pr2 : Int × Int),
        ((chainIds g.phantom_node_id_counter mids.length ++ [last]).zip
          ((chainIds g.phantom_node_id_counter mids.length ++ [last]).drop
            1)).get? k = some pr2 → k ≠ j →
        removalTargets (ensureRemovals g
          ((chainIds g.phantom_node_id_counter mids.length).zip mids) pr2)
          X = [] := by
      intro k pr2 hk hkj
      refine removalTargets_const_key _ pr2.1 X
        (ensureRemovals_key g _ pr2) ?_
      intro hh
      obtain ⟨hk1, _⟩ := hpairsget k pr2 hk
      obtain ⟨hj1, _⟩ := hpairsget j (X, nxt) hj
      exact hkj (nodup_index_unique _ hcatnd k j X (hh ▸ hk1) hj1)
    rw [removalTargets_bind, bind_eq_single _ _ (X, nxt) j hj hothers]
    unfold ensureRemovals
    exact removalTargets_filterMap_self X nxt _
  have hentryF : ∀ (c v y : Int),
      (chainIds g.phantom_node_id_counter mids.length).get? 0 = some c →
      mids.get? 0 = some v →
      (edgeCost g' n0 y).isSome = true →
      y = c ∨ (extId g' y = y ∧ y ≠ v) := by
    intro c v y hc hv hy
    obtain ⟨E, w, hresE, hpropsE, hndE, hlook⟩ := apply_step g n0 last mids
      ch2 _ ws htgt hmnd hnodebound hn0le hws hmidsst hnnM heaM hrmM hchain
      0 n0 c v rfl hc hv
    rw [hg', hrT0] at hlook
    have hredef : eraseAll E (v :: ([] : List Int)) = alerase E v := rfl
    rw [hredef] at hlook
    unfold edgeCost getEdges at hy
    rw [hlook] at hy
    simp only [Option.getD_some] at hy
    by_cases hyc : y = c
    · exact Or.inl hyc
    · rw [alget_alset_ne _ _ _ _ hyc] at hy
      have hymem : y ∈ (alerase E v).map Prod.fst :=
        (alget_isSome_iff _ _).mp hy
      have hyE : y ∈ E.map Prod.fst := alerase_keys_subset E v y hymem
      obtain ⟨q, hq, hqf⟩ := List.mem_map.mp hyE
      have hqp := hpropsE q hq
      refine Or.inr ⟨hregularT y (hqf ▸ hqp.1) (hqf ▸ hqp.2), ?_⟩
      intro hyv
      rw [hyv, alget_alerase_self E v hndE] at hy
      exact absurd hy (by simp)
  have hforcedF : ∀ (j : Nat) (X y : Int),
      (chainIds g.phantom_node_id_counter mids.length).get? j = some X →
      (edgeCost g' X y).isSome = true →
      ∃ nxt, (chainIds g.phantom_node_id_counter mids.length ++
        [last]).get? (j + 1) = some nxt ∧ y = nxt := by
    intro j X y hXj hy
    have hjlt : j < mids.length := hlt_of j X hXj
    by_cases hj1 : j + 1 < mids.length
    · obtain ⟨c2, hc2⟩ := get_lt
        (chainIds g.phantom_node_id_counter mids.length) (j + 1)
        (by rw [chainIds_length]; omega)
      obtain ⟨v2, hv2⟩ := get_lt mids (j + 1) hj1
      have hpg : ((chainIds g.phantom_node_id_counter mids.length ++
          [last]).zip
          ((chainIds g.phantom_node_id_counter mids.length ++ [last]).drop
            1)).get? j = some (X, c2) := by
        rw [zip_get,
          List.get?_append (by rw [chainIds_length]; omega), hXj,
          List.get?_drop, Nat.add_comm,
          List.get?_append (by rw [chainIds_length]; omega), hc2]
      have hrT := hrTX j X c2 hpg
      obtain ⟨E, w, hresE, hpropsE, hndE, hlook⟩ := apply_step g n0 last
        mids ch2 _ ws htgt hmnd hnodebound hn0le hws hmidsst hnnM heaM hrmM
        hchain (j + 1) X c2 v2 (by simp only [List.get?_cons_succ]; exact hXj)
        hc2 hv2
      rw [hg', hrT] at hlook
      have hE2 : ((alget g.edges
          ((alget ((chainIds g.phantom_node_id_counter mids.length).zip
            mids) X).getD X)).getD []) = E := by
        rw [hresE]
        rfl
      rw [hE2] at hlook
      unfold edgeCost getEdges at hy
      rw [hlook] at hy
      simp only [Option.getD_some] at hy
      by_cases hyc : y = c2
      · refine ⟨c2, ?_, hyc⟩
        rw [List.get?_append (by rw [chainIds_length]; omega)]
        exact hc2
      · rw [alget_alset_ne _ _ _ _ hyc] at hy
        have hynotin : y ∉ v2 :: E.filterMap
            (fun q => if q.1 ≠ c2 then some q.1 else none) := by
          intro hin
          rw [alget_eraseAll_mem _ E y hndE hin] at hy
          exact absurd hy (by simp)
        have hyE : y ∈ E.map Prod.fst := by
          have := (alget_isSome_iff _ _).mp hy
          exact eraseAll_keys_subset _ E y this
        obtain ⟨q, hq, hqf⟩ := List.mem_map.mp hyE
        have hmem_tl : y ∈ E.filterMap
            (fun q => if q.1 ≠ c2 then some q.1 else none) := by
          refine List.mem_filterMap.mpr ⟨q, hq, ?_⟩
          rw [if_pos (by rw [hqf]; exact hyc), hqf]
        exact absurd (List.mem_cons_of_mem _ hmem_tl) hynotin
    · have hj1' : j + 1 = mids.length := by omega
      have hglast : (chainIds g.phantom_node_id_counter mids.length ++
          [last]).get? (j + 1) = some last := by
        rw [hj1']
        have hcl : (chainIds g.phantom_node_id_counter mids.length).length =
            mids.length := chainIds_length _ _
        have := get_concat_length
          (chainIds g.phantom_node_id_counter mids.length) last
        rw [hcl] at this
        exact this
      have hpg : ((chainIds g.phantom_node_id_counter mids.length ++
          [last]).zip
          ((chainIds g.phantom_node_id_counter mids.length ++ [last]).drop
            1)).get? j = some (X, last) := by
        rw [zip_get,
          List.get?_append (by rw [chainIds_length]; omega), hXj,
          List.get?_drop, Nat.add_comm, hglast]
      have hrT := hrTX j X last hpg
      obtain ⟨E, hresE, hpropsE, hndE, hlook⟩ := apply_last g n0 last mids
        ch2 _ ws htgt hmnd hnodebound hn0le hmidsst hnnM heaM hrmM hchain X
        (by
          have hh : (n0 ::
              chainIds g.phantom_node_id_counter mids.length).get? (j + 1) =
              some X := by
            simp only [List.get?_cons_succ]
            exact hXj
          rw [hj1'] at hh
          exact hh)
      rw [hg', hrT] at hlook
      have hE2 : ((alget g.edges
          ((alget ((chainIds g.phantom_node_id_counter mids.length).zip
            mids) X).getD X)).getD []) = E := by
        rw [hresE]
        rfl
      rw [hE2] at hlook
      unfold edgeCost getEdges at hy
      rw [hlook] at hy
      simp only [Option.getD_some] at hy
      have hynotin : y ∉ E.filterMap
          (fun q => if q.1 ≠ last then some q.1 else none) := by
        intro hin
        rw [alget_eraseAll_mem _ E y hndE hin] at hy
        exact absurd hy (by simp)
      have hyE : y ∈ E.map Prod.fst := by
        have := (alget_isSome_iff _ _).mp hy
        exact eraseAll_keys_subset _ E y this
      obtain ⟨q, hq, hqf⟩ := List.mem_map.mp hyE
      by_cases hyl : y = last
      · exact ⟨last, hglast, hyl⟩
      · have hmem_tl : y ∈ E.filterMap
            (fun q => if q.1 ≠ last then some q.1 else none) := by
          refine List.mem_filterMap.mpr ⟨q, hq, ?_⟩
          rw [if_pos (by rw [hqf]; exact hyl), hqf]
        exact absurd hmem_tl hynotin
  have hchase : ∀ (rest : List Int) (j : Nat) (X : Int),
      (chainIds g.phantom_node_id_counter mids.length).get? j = some X →
      pathIn g' (X :: rest) →
      List.IsPrefix ((X :: rest).map (extId g'))
        (mids.drop j ++ [last]) ∨
      List.IsPrefix (mids.drop j ++ [last])
        ((X :: rest).map (extId g')) := by
    intro rest
    induction rest with
    | nil =>
      intro j X hXj _
      have hjlt : j < mids.length := hlt_of j X hXj
      obtain ⟨v, hv⟩ := get_lt mids j hjlt
      have hextX := hextF j X v hXj hv
      refine Or.inl ⟨mids.drop (j + 1) ++ [last], ?_⟩
      rw [drop_eq_cons _ _ _ hv, List.map_cons, List.map_nil, List.cons_append,
        List.nil_append, hextX, List.cons_append]
    | cons y rest2 ih =>
      intro j X hXj hp
      have hjlt : j < mids.length := hlt_of j X hXj
      obtain ⟨v, hv⟩ := get_lt mids j hjlt
      have hextX := hextF j X v hXj hv
      have hdj : mids.drop j = v :: mids.drop (j + 1) := drop_eq_cons _ _ _ hv
      have hedge : (edgeCost g' X y).isSome = true :=
        (List.chain'_cons.mp hp).1
      have htail : pathIn g' (y :: rest2) := (List.chain'_cons.mp hp).2
      obtain ⟨nxt, hnxt, hynxt⟩ := hforcedF j X y hXj hedge
      by_cases hj1 : j + 1 < mids.length
      · have hcs1 : (chainIds g.phantom_node_id_counter mids.length).get?
            (j + 1) = some nxt := by
          rw [List.get?_append (by rw [chainIds_length]; omega)] at hnxt
          exact hnxt
        have hih := ih (j + 1) y (by rw [hynxt]; exact hcs1)
          htail
        rcases hih with ⟨t, ht⟩ | ⟨t, ht⟩
        · refine Or.inl ⟨t, ?_⟩
          rw [List.map_cons, List.cons_append, ht, hextX, hdj,
            List.cons_append]
        · refine Or.inr ⟨t, ?_⟩
          rw [List.map_cons, hextX, hdj, List.cons_append,
            List.cons_append, ht]
      · have hj1' : j + 1 = mids.length := by omega
        have hnlast : nxt = last := by
          rw [hj1'] at hnxt
          have hcl : (chainIds g.phantom_node_id_counter
              mids.length).length = mids.length := chainIds_length _ _
          have hgl := get_concat_length
            (chainIds g.phantom_node_id_counter mids.length) last
          rw [hcl] at hgl
          rw [hgl, Option.some_inj] at hnxt
          exact hnxt.symm
        have hexty : extId g' y = last := by
          rw [hynxt, hnlast]
          exact hregularT last hlastst hlastle
        have hdrop_end : mids.drop (j + 1) = [] := by
          rw [hj1']
          exact List.drop_length _
        refine Or.inr ⟨rest2.map (extId g'), ?_⟩
        rw [hdj, hdrop_end, List.map_cons, List.map_cons, hextX, hexty]
        rfl
  have hpath2 : pathIn g' p2 := by
    have hdp := pathIn_drop g' p hpath p1.length
    rw [hsplit, List.drop_left] at hdp
    exact hdp
  have htake2' : (p2.map (extId g')).take 2 = [n0, x1] := by
    rw [htake2, hxr]
    rfl
  cases p2 with
  | nil => simp at htake2'
  | cons a p2t =>
    cases p2t with
    | nil =>
      have hpair : (extId g' a) :: ([] : List Int) = [n0, x1] := htake2'
      injection hpair with _ hbad
      exact absurd hbad.symm (by simp)
    | cons b p3 =>
      have hpair : (extId g' a) :: (extId g' b) :: ([] : List Int) =
          [n0, x1] := htake2'
      injection hpair with hexta hrest
      injection hrest with hextb _
      cases hmids : mids with
      | nil =>
        have hx1 : x1 = last := by
          rw [hmids, List.nil_append] at hxr
          injection hxr.symm with h1 _
        refine Or.inr ⟨p3.map (extId g'), ?_⟩
        rw [List.map_cons, List.map_cons, hexta, hextb, hx1]
        simp
      | cons v0 vrest =>
        have hx1 : x1 = v0 := by
          rw [hmids, List.cons_append] at hxr
          injection hxr with h1 _
          exact h1.symm
        have hmpos : 0 < mids.length := by rw [hmids]; simp
        have hedgeab : (edgeCost g' a b).isSome = true :=
          (List.chain'_cons.mp hpath2).1
        have hakeys : (alget g'.edges a).isSome = true :=
          edgeCost_src_some g' a b hedgeab
        have ha : a = n0 := by
          rcases hkeysF a hakeys with hae | hac
          · obtain ⟨E1, hE1⟩ := Option.isSome_iff_exists.mp hae
            obtain ⟨nd1, hnd1⟩ := Option.isSome_iff_exists.mp
              (hsrc a E1 hE1)
            have hex := hregularT a (by rw [hnd1]; rfl)
              (hnodebound a nd1 hnd1)
            exact hex.symm.trans hexta
          · obtain ⟨i, hi⟩ := get_of_mem _ a hac
            have hilt := hlt_of i a hi
            obtain ⟨v, hv⟩ := get_lt mids i hilt
            have hxv := hextF i a v hi hv
            have hvn0 : v = n0 := hxv.symm.trans hexta
            exact absurd (mem_of_get mids i v hv) (hvn0 ▸ hn0mids)
        obtain ⟨c0, hc0⟩ := get_lt
          (chainIds g.phantom_node_id_counter mids.length) 0
          (by rw [chainIds_length]; omega)
        have hv0get : mids.get? 0 = some v0 := by rw [hmids]; rfl
        have hb : b = c0 := by
          have hedge0 : (edgeCost g' n0 b).isSome = true := by
            rw [← ha]
            exact hedgeab
          rcases hentryF c0 v0 b hc0 hv0get hedge0 with h | ⟨hey, hneq⟩
          · exact h
          · exact absurd (hey.symm.trans (hextb.trans hx1)) hneq
        have hpathb : pathIn g' (b :: p3) := (List.chain'_cons.mp hpath2).2
        have hch := hchase p3 0 b (by rw [hb]; exact hc0) hpathb
        rw [List.drop_zero] at hch
        rcases hch with ⟨t, ht⟩ | ⟨t, ht⟩
        · refine Or.inl ⟨t, ?_⟩
          rw [hmids] at ht
          rw [List.map_cons, List.cons_append, hexta, ht]
        · refine Or.inr ⟨t, ?_⟩
          rw [hmids] at ht
          rw [List.map_cons, hexta, List.cons_append, ht]

/-- A small phantom-free graph for the C1 witness: 1 → 2 → 3. -/
def c1WG : Graph :=
  ⟨c6Profile,
   [(1, ⟨1, (0, 0), 1⟩), (2, ⟨2, (0, 1), 2⟩), (3, ⟨3, (1, 1), 3⟩)],
   [(1, [(2, 1)]), (2, [(3, 1)])], MAX_NODE_ID⟩

def c1WGres : Graph := (store_restriction c1WG [1, 2, 3] false).getD c1WG

/-- Witness for C1: storing the prohibitory restriction 1→2→3 on the
concrete graph succeeds and the theorem yields the no-slice guarantee. -/
theorem C1_witness :
    PhantomFree c1WG ∧ ((1 : Int) :: ([2] ++ [3])).Nodup ∧
    store_restriction c1WG ((1 : Int) :: ([2] ++ [3])) false =
      some c1WGres ∧
    (∀ p pre suf, pathIn c1WGres p →
      p.map (extId c1WGres) ≠ pre ++ ((1 : Int) :: ([2] ++ [3])) ++ suf) :=
  ⟨by decide, by decide, rfl,
   C1_prohibitory_blocks_route c1WG c1WGres 1 3 [2] (by decide) (by decide)
     rfl⟩

/-- The C1 counterexample input: a railway graph with ways 11 = [1, 2] and
12 = [1, 3] and a no_u_turn restriction from way 11 via way 11 to way 12,
whose flattened route is 1, 2, 1, 3 - the route revisits node 1. -/
def c1CFeatures : List Feature :=
  [Feature.node ⟨1, (0, 0), []⟩, Feature.node ⟨2, (0, 1), []⟩,
   Feature.node ⟨3, (1, 0), []⟩,
   Feature.way ⟨11, [1, 2], [("railway", "rail")]⟩,
   Feature.way ⟨12, [1, 3], [("railway", "rail")]⟩,
   Feature.relation ⟨77,
     [⟨MemberType.way, 11, "from"⟩, ⟨MemberType.way, 11, "via"⟩,
      ⟨MemberType.way, 12, "to"⟩],
     [("type", "restriction"), ("restriction", "no_u_turn")]⟩]

def c1CGraph : Graph :=
  match Graph.add_features (fun _ _ => 1)
      ⟨RailwayProfile, [], [], MAX_NODE_ID⟩ c1CFeatures with
  | .ok g => g
  | .error _ => ⟨RailwayProfile, [], [], MAX_NODE_ID⟩

/-- Counterexample to C1 as stated: the no_u_turn restriction with route
1, 2, 1, 3 is applied by add_features (the phantom clones are present), yet
the graph contains a directed path whose external-id projection is exactly
the forbidden sequence 1, 2, 1, 3. -/
theorem C1_counterexample :
    (Graph.add_features (fun _ _ => 1)
      ⟨RailwayProfile, [], [], MAX_NODE_ID⟩ c1CFeatures).isOk = true ∧
    (alget c1CGraph.nodes (MAX_NODE_ID + 1)).isSome = true ∧
    (alget c1CGraph.nodes (MAX_NODE_ID + 2)).isSome = true ∧
    pathIn c1CGraph [MAX_NODE_ID + 2, 2, 1, 3] ∧
    [MAX_NODE_ID + 2, 2, 1, 3].map (extId c1CGraph) = [1, 2, 1, 3] := by
  refine ⟨by decide, by decide, by decide, by decide, by decide⟩

/-- A small phantom-free graph for the C2 witness: 1 → 2 → {3, 4}. -/
def c2WG : Graph :=
  ⟨c6Profile,
   [(1, ⟨1, (0, 0), 1⟩), (2, ⟨2, (0, 1), 2⟩), (3, ⟨3, (1, 1), 3⟩),
    (4, ⟨4, (1, 0), 4⟩)],
   [(1, [(2, 1)]), (2, [(3, 1), (4, 1)])], MAX_NODE_ID⟩

def c2WGres : Graph := (store_restriction c2WG [1, 2, 3] true).getD c2WG

/-- Witness for C2: storing the mandatory restriction 1→2→3 on the concrete
graph succeeds, and a path entering through the projected pair (1, 2) is
forced along the route. -/
theorem C2_witness :
    PhantomFree c2WG ∧ ((1 : Int) :: ([2] ++ [3])).Nodup ∧
    store_restriction c2WG ((1 : Int) :: ([2] ++ [3])) true =
      some c2WGres ∧
    (List.IsPrefix ([1, MAX_NODE_ID + 1, 3].map (extId c2WGres))
        ((1 : Int) :: ([2] ++ [3])) ∨
     List.IsPrefix ((1 : Int) :: ([2] ++ [3]))
        ([1, MAX_NODE_ID + 1, 3].map (extId c2WGres))) :=
  ⟨by decide, by decide, rfl,
   C2_mandatory_forces_route c2WG c2WGres 1 3 [2] (by decide) (by decide)
     rfl [1, MAX_NODE_ID + 1, 3] [] [1, MAX_NODE_ID + 1, 3] (by decide)
     (List.nil_append _).symm (by decide)⟩

/-- The C2 counterexample input: a railway graph where a prohibitory
restriction 10→1→5 is stored first (cloning node 1), and a mandatory
only_straight_on restriction 1→2→3 is stored second. The clone of node 1
keeps its edge to the original node 2, bypassing the mandatory clone. -/
def c2CFeatures : List Feature :=
  [Feature.node ⟨10, (0, 0), []⟩, Feature.node ⟨1, (0, 1), []⟩,
   Feature.node ⟨2, (0, 2), []⟩, Feature.node ⟨3, (0, 3), []⟩,
   Feature.node ⟨4, (1, 2), []⟩, Feature.node ⟨5, (1, 1), []⟩,
   Feature.way ⟨20, [10, 1], [("railway", "rail")]⟩,
   Feature.way ⟨11, [1, 2], [("railway", "rail")]⟩,
   Feature.way ⟨14, [1, 5], [("railway", "rail")]⟩,
   Feature.way ⟨12, [2, 3], [("railway", "rail")]⟩,
   Feature.way ⟨13, [2, 4], [("railway", "rail")]⟩,
   Feature.relation ⟨91,
     [⟨MemberType.way, 20, "from"⟩, ⟨MemberType.node, 1, "via"⟩,
      ⟨MemberType.way, 14, "to"⟩],
     [("type", "restriction"), ("restriction", "no_u_turn")]⟩,
   Feature.relation ⟨92,
     [⟨MemberType.way, 11, "from"⟩, ⟨MemberType.node, 2, "via"⟩,
      ⟨MemberType.way, 12, "to"⟩],
     [("type", "restriction"), ("restriction", "only_straight_on")]⟩]

def c2CGraph : Graph :=
  match Graph.add_features (fun _ _ => 1)
      ⟨RailwayProfile, [], [], MAX_NODE_ID⟩ c2CFeatures with
  | .ok g => g
  | .error _ => ⟨RailwayProfile, [], [], MAX_NODE_ID⟩

/-- Counterexample to C2 as stated: after add_features stores the
prohibitory restriction 10→1→5 and then the mandatory restriction 1→2→3,
the graph contains a path (clone of 1, node 2, node 4) that projects onto
1, 2, 4: it passes the projected pair (1, 2) but continues with 4 instead
of the mandated 3, because the earlier clone of node 1 kept its edge to
the original node 2 rather than to the mandatory clone. -/
theorem C2_counterexample :
    (Graph.add_features (fun _ _ => 1)
      ⟨RailwayProfile, [], [], MAX_NODE_ID⟩ c2CFeatures).isOk = true ∧
    (alget c2CGraph.nodes (MAX_NODE_ID + 2)).isSome = true ∧
    pathIn c2CGraph [MAX_NODE_ID + 1, 2, 4] ∧
    [MAX_NODE_ID + 1, 2, 4].map (extId c2CGraph) = [1, 2, 4] ∧
    ([1, 2, 4].take 2 = [1, 2, 3].take 2) ∧
    ¬ List.IsPrefix [1, 2, 4] [1, 2, 3] ∧
    ¬ List.IsPrefix [1, 2, 3] [1, 2, 4] := by
  refine ⟨by decide, by decide, by decide, by decide, by decide, ?_, ?_⟩
  · rintro ⟨t, ht⟩
    simp at ht
  · rintro ⟨t, ht⟩
    simp at ht

/-! ## Path cost lemmas and heap lemmas for the A-star analysis -/

theorem pathCost_nonneg (g : Graph)
    (hnn : ∀ a m, alget g.edges a = some m → ∀ q ∈ m, 0 ≤ q.2) :
    ∀ p, pathIn g p → 0 ≤ pathCost g p := by
  intro p
  induction p with
  | nil => intro _; simp [pathCost]
  | cons a rest ih =>
    intro hp
    cases rest with
    | nil => simp [pathCost]
    | cons b rest2 =>
      rcases List.chain'_cons.mp hp with ⟨hab, htail⟩
      have h2 := ih htail
      have hw : 0 ≤ (edgeCost g a b).getD 0 := by
        cases he : edgeCost g a b with
        | none => simp
        | some w =>
          simp only [Option.getD_some]
          unfold edgeCost getEdges at he
          cases hm : alget g.edges a with
          | none => rw [hm] at he; simp [alget] at he
          | some m =>
            rw [hm] at he
            simp only [Option.getD_some] at he
            exact hnn a m hm (b, w) (alget_mem he)
      show 0 ≤ (edgeCost g a b).getD 0 + pathCost g (b :: rest2)
      exact add_nonneg hw h2

theorem edge_nonneg (g : Graph)
    (hnn : ∀ a m, alget g.edges a = some m → ∀ q ∈ m, 0 ≤ q.2)
    (a b : Int) (w : ℚ) (he : edgeCost g a b = some w) : 0 ≤ w := by
  unfold edgeCost getEdges at he
  cases hm : alget g.edges a with
  | none => rw [hm] at he; simp [alget] at he
  | some m =>
    rw [hm] at he
    simp only [Option.getD_some] at he
    exact hnn a m hm (b, w) (alget_mem he)

theorem pathIn_append_edge (g : Graph) :
    ∀ (p : List Int) (y u : Int), p.getLast? = some y → pathIn g p →
    (edgeCost g y u).isSome = true → pathIn g (p ++ [u]) := by
  intro p
  induction p with
  | nil => intro y u h; simp at h
  | cons a rest ih =>
    intro y u hlast hp he
    cases rest with
    | nil =>
      simp only [List.getLast?_singleton, Option.some_inj] at hlast
      subst hlast
      exact List.chain'_cons.mpr ⟨he, by simp [pathIn]⟩
    | cons b rest2 =>
      rcases List.chain'_cons.mp hp with ⟨hab, htail⟩
      rw [List.getLast?_cons_cons] at hlast
      have := ih y u hlast htail he
      exact List.chain'_cons.mpr ⟨hab, this⟩

theorem pathCost_append_edge (g : Graph) :
    ∀ (p : List Int) (y u : Int) (w : ℚ), p.getLast? = some y →
    edgeCost g y u = some w →
    pathCost g (p ++ [u]) = pathCost g p + w := by
  intro p
  induction p with
  | nil => intro y u w h; simp at h
  | cons a rest ih =>
    intro y u w hlast he
    cases rest with
    | nil =>
      have ha : a = y := by simpa using hlast
      rw [← ha] at he
      show (edgeCost g a u).getD 0 + pathCost g [u] = pathCost g [a] + w
      rw [he]
      simp [pathCost]
    | cons b rest2 =>
      rw [List.getLast?_cons_cons] at hlast
      show (edgeCost g a b).getD 0 + pathCost g ((b :: rest2) ++ [u]) =
        ((edgeCost g a b).getD 0 + pathCost g (b :: rest2)) + w
      rw [ih y u w hlast he]
      ring

theorem pathCost_split (g : Graph) :
    ∀ (p1 : List Int) (y : Int) (p2 : List Int),
    pathCost g (p1 ++ y :: p2) = pathCost g (p1 ++ [y]) + pathCost g (y :: p2) := by
  intro p1
  induction p1 with
  | nil =>
    intro y p2
    simp [pathCost]
  | cons a rest ih =>
    intro y p2
    cases rest with
    | nil =>
      show (edgeCost g a y).getD 0 + pathCost g (y :: p2) =
        ((edgeCost g a y).getD 0 + pathCost g [y]) + pathCost g (y :: p2)
      simp [pathCost]
    | cons b rest2 =>
      show (edgeCost g a b).getD 0 + pathCost g ((b :: rest2) ++ y :: p2) =
        ((edgeCost g a b).getD 0 + pathCost g ((b :: rest2) ++ [y])) +
          pathCost g (y :: p2)
      rw [ih y p2]
      ring

theorem routePath_suffix (g : Graph) (startv endv : Int) (q1 : List Int)
    (y : Int) (q2 : List Int)
    (h : IsRoutePath g startv endv (q1 ++ y :: q2)) :
    IsRoutePath g y endv (y :: q2) := by
  obtain ⟨hne, hh, hl, hp⟩ := h
  refine ⟨by simp, rfl, ?_, ?_⟩
  · rw [List.getLast?_append] at hl
    cases hq : (y :: q2).getLast? with
    | none =>
      have hns : ((y :: q2).getLast?).isSome = true :=
        List.getLast?_isSome.mpr (by simp)
      rw [hq] at hns
      simp at hns
    | some z =>
      rw [hq] at hl
      rw [show (some z).or q1.getLast? = some z from rfl] at hl
      exact hl
  · have := pathIn_drop g _ hp q1.length
    rw [List.drop_left] at this
    exact this

theorem selectMin_spec (x : AStarQueueItem) :
    ∀ (ys : List AStarQueueItem),
    (selectMin x ys).1 ∈ x :: ys ∧
    (∀ z ∈ x :: ys, (selectMin x ys).1.score ≤ z.score) ∧
    (∀ z ∈ x :: ys, z = (selectMin x ys).1 ∨ z ∈ (selectMin x ys).2) ∧
    (∀ z ∈ (selectMin x ys).2, z ∈ x :: ys) := by
  intro ys
  induction ys generalizing x with
  | nil =>
    refine ⟨by simp [selectMin], ?_, ?_, ?_⟩
    · intro z hz
      rcases List.mem_cons.mp hz with h | h
      · rw [h]; exact le_refl _
      · simp at h
    · intro z hz
      rcases List.mem_cons.mp hz with h | h
      · exact Or.inl (by rw [h]; rfl)
      · simp at h
    · intro z hz
      simp [selectMin] at hz
  | cons y ys ih =>
    by_cases hc : y.score < x.score
    · have hsel : selectMin x (y :: ys) =
        ((selectMin y ys).1, x :: (selectMin y ys).2) := by
        simp [selectMin, hc]
      have hr := ih y
      rw [hsel]
      refine ⟨?_, ?_, ?_, ?_⟩
      · exact List.mem_cons_of_mem _ hr.1
      · intro z hz
        rcases List.mem_cons.mp hz with h | hz2
        · rw [h]
          exact le_trans (hr.2.1 y (List.mem_cons_self _ _)) (le_of_lt hc)
        · exact hr.2.1 z hz2
      · intro z hz
        rcases List.mem_cons.mp hz with h | hz2
        · exact Or.inr (by rw [h]; exact List.mem_cons_self _ _)
        · rcases hr.2.2.1 z hz2 with h | h
          · exact Or.inl h
          · exact Or.inr (List.mem_cons_of_mem _ h)
      · intro z hz
        rcases List.mem_cons.mp hz with h | hz2
        · rw [h]; exact List.mem_cons_self _ _
        · exact List.mem_cons_of_mem _ (hr.2.2.2 z hz2)
    · have hsel : selectMin x (y :: ys) =
        ((selectMin x ys).1, y :: (selectMin x ys).2) := by
        simp [selectMin, hc]
      have hr := ih x
      rw [hsel]
      refine ⟨?_, ?_, ?_, ?_⟩
      · rcases List.mem_cons.mp hr.1 with h | h
        · rw [h]; exact List.mem_cons_self _ _
        · exact List.mem_cons_of_mem _ (List.mem_cons_of_mem _ h)
      · intro z hz
        rcases List.mem_cons.mp hz with h | hz2
        · rw [h]
          exact hr.2.1 x (List.mem_cons_self _ _)
        · rcases List.mem_cons.mp hz2 with h | hz3
          · rw [h]
            exact le_trans (hr.2.1 x (List.mem_cons_self _ _))
              (le_of_not_lt hc)
          · exact hr.2.1 z (List.mem_cons_of_mem _ hz3)
      · intro z hz
        rcases List.mem_cons.mp hz with h | hz2
        · rcases hr.2.2.1 x (List.mem_cons_self _ _) with h2 | h2
          · exact Or.inl (by rw [h]; exact h2)
          · exact Or.inr (by rw [h]; exact List.mem_cons_of_mem _ h2)
        · rcases List.mem_cons.mp hz2 with h | hz3
          · exact Or.inr (by rw [h]; exact List.mem_cons_self _ _)
          · rcases hr.2.2.1 z (List.mem_cons_of_mem _ hz3) with h | h
            · exact Or.inl h
            · exact Or.inr (List.mem_cons_of_mem _ h)
      · intro z hz
        rcases List.mem_cons.mp hz with h | hz2
        · rw [h]
          exact List.mem_cons_of_mem _ (List.mem_cons_self _ _)
        · rcases List.mem_cons.mp (hr.2.2.2 z hz2) with h | h
          · rw [h]; exact List.mem_cons_self _ _
          · exact List.mem_cons_of_mem _ (List.mem_cons_of_mem _ h)

theorem heappop_spec (q : List AStarQueueItem) (it : AStarQueueItem)
    (rest : List AStarQueueItem) (h : heappop q = some (it, rest)) :
    it ∈ q ∧ (∀ z ∈ q, it.score ≤ z.score) ∧
    (∀ z ∈ q, z = it ∨ z ∈ rest) ∧ (∀ z ∈ rest, z ∈ q) := by
  cases q with
  | nil => simp [heappop] at h
  | cons x xs =>
    simp only [heappop, Option.some_inj] at h
    have hs := selectMin_spec x xs
    rw [show (selectMin x xs).1 = it from by rw [h]] at hs
    rw [show (selectMin x xs).2 = rest from by rw [h]] at hs
    exact hs

/-! ## The loop invariant of the A-star search -/

/-- Every known cost is realised by an actual path from the start node. -/
def InvA (g : Graph) (start : Int) (kc : List (Int × ℚ)) : Prop :=
  ∀ v c, alget kc v = some c →
    ∃ p, p ≠ [] ∧ p.head? = some start ∧ p.getLast? = some v ∧
      pathIn g p ∧ pathCost g p = c

/-- The start node keeps cost zero and never acquires a predecessor. -/
def InvB (start : Int) (cf : List (Int × Int)) (kc : List (Int × ℚ)) : Prop :=
  alget kc start = some 0 ∧ alget cf start = none

/-- Every came_from entry is backed by an edge whose endpoints both have
known costs that telescope. -/
def InvC (g : Graph) (cf : List (Int × Int)) (kc : List (Int × ℚ)) : Prop :=
  ∀ v pv, alget cf v = some pv →
    ∃ w c cp, edgeCost g pv v = some w ∧ alget kc v = some c ∧
      alget kc pv = some cp ∧ cp + w ≤ c

/-- Every non-start node with a known cost has a came_from entry. -/
def InvD (start : Int) (cf : List (Int × Int)) (kc : List (Int × ℚ)) : Prop :=
  ∀ v, (alget kc v).isSome = true → v ≠ start → (alget cf v).isSome = true

/-- Every queue item is backed by a known cost no larger than its own, and
its score is its cost plus the heuristic at its node. -/
def InvE (g : Graph) (d : Position → Position → ℚ) (ep : Position)
    (queue : List AStarQueueItem) (kc : List (Int × ℚ)) : Prop :=
  ∀ it ∈ queue, ∃ c, alget kc it.node_id = some c ∧ c ≤ it.cost ∧
    it.score = it.cost + d ep (getNodeD g it.node_id).position

/-- The node is open: some queue item carries it at exactly its known cost. -/
def OpenAt (queue : List AStarQueueItem) (v : Int) (c : ℚ) : Prop :=
  ∃ it ∈ queue, it.node_id = v ∧ it.cost = c

/-- The node is closed: all its outgoing edges have been relaxed against
its known cost. -/
def ClosedAt (g : Graph) (kc : List (Int × ℚ)) (v : Int) (c : ℚ) : Prop :=
  ∀ u w, edgeCost g v u = some w → ∃ cu, alget kc u = some cu ∧ cu ≤ c + w

/-- Every node with a known cost is open or closed. -/
def InvG (g : Graph) (queue : List AStarQueueItem) (kc : List (Int × ℚ)) :
    Prop :=
  ∀ v c, alget kc v = some c → OpenAt queue v c ∨ ClosedAt g kc v c

/-- The conjunction of all components of the loop invariant. -/
def AStarInv (g : Graph) (d : Position → Position → ℚ) (ep : Position)
    (start : Int) (queue : List AStarQueueItem) (cf : List (Int × Int))
    (kc : List (Int × ℚ)) : Prop :=
  InvA g start kc ∧ InvB start cf kc ∧ InvC g cf kc ∧ InvD start cf kc ∧
  InvE g d ep queue kc ∧ InvG g queue kc

theorem astar_inv_init (g : Graph) (d : Position → Position → ℚ)
    (ep : Position) (start : Int) :
    AStarInv g d ep start
      [⟨start, 0, d ep (getNodeD g start).position, none⟩] [] [(start, 0)] := by
  refine ⟨?_, ⟨by simp [alget], rfl⟩, ?_, ?_, ?_, ?_⟩
  · intro v c hv
    simp only [alget] at hv
    by_cases h : start = v
    · rw [if_pos h] at hv
      subst h
      refine ⟨[start], by simp, rfl, rfl, by simp [pathIn], ?_⟩
      simp only [Option.some_inj] at hv
      rw [← hv]
      rfl
    · rw [if_neg h] at hv
      simp [alget] at hv
  · intro v pv hv
    simp [alget] at hv
  · intro v hv hne
    simp only [alget] at hv
    by_cases h : start = v
    · exact absurd h.symm hne
    · rw [if_neg h] at hv
      simp [alget] at hv
  · intro it hit
    simp only [List.mem_singleton] at hit
    subst hit
    refine ⟨0, by simp [alget], le_refl _, ?_⟩
    show d ep (getNodeD g start).position = 0 + d ep (getNodeD g start).position
    rw [zero_add]
  · intro v c hv
    simp only [alget] at hv
    by_cases h : start = v
    · rw [if_pos h] at hv
      subst h
      simp only [Option.some_inj] at hv
      exact Or.inl ⟨_, List.mem_singleton_self _, rfl, hv⟩
    · rw [if_neg h] at hv
      simp [alget] at hv

theorem kc_nonneg (g : Graph) (start : Int) (kc : List (Int × ℚ))
    (hnn : ∀ a m, alget g.edges a = some m → ∀ q ∈ m, 0 ≤ q.2)
    (hA : InvA g start kc) :
    ∀ v c, alget kc v = some c → 0 ≤ c := by
  intro v c hv
  obtain ⟨p, _, _, _, hp, hc⟩ := hA v c hv
  rw [← hc]
  exact pathCost_nonneg g hnn p hp

theorem astar_frontier (g : Graph) (d : Position → Position → ℚ)
    (ep : Position) (start : Int) (queue : List AStarQueueItem)
    (cf : List (Int × Int)) (kc : List (Int × ℚ))
    (hinv : AStarInv g d ep start queue cf kc) :
    ∀ (P : List Int) (z : Int), P ≠ [] → P.head? = some start →
    P.getLast? = some z → pathIn g P →
    (∃ c, alget kc z = some c ∧ c ≤ pathCost g P) ∨
    (∃ it ∈ queue, ∃ P1 P2, P = P1 ++ it.node_id :: P2 ∧
      it.cost ≤ pathCost g (P1 ++ [it.node_id])) := by
  intro P
  induction P using List.reverseRecOn with
  | nil => intro z h; exact absurd rfl h
  | append_singleton Q zq ih =>
    intro z hne hh hl hp
    rw [List.getLast?_concat] at hl
    simp only [Option.some_inj] at hl
    subst hl
    cases hQ : Q with
    | nil =>
      subst hQ
      simp only [List.nil_append, List.head?_cons, Option.some_inj] at hh
      subst hh
      exact Or.inl ⟨0, hinv.2.1.1, by simp [pathCost]⟩
    | cons q0 Qr =>
      have hQne : Q ≠ [] := by rw [hQ]; simp
      rw [← hQ] at *
      have hhQ : Q.head? = some start := by
        rw [List.head?_append_of_ne_nil _ hQne] at hh
        exact hh
      obtain ⟨y, hy⟩ : ∃ y, Q.getLast? = some y := by
        cases hgl : Q.getLast? with
        | none =>
          have := List.getLast?_isSome.mpr hQne
          rw [hgl] at this
          simp at this
        | some y => exact ⟨y, rfl⟩
      have hQeq : Q.dropLast ++ [y] = Q := by
        have := List.getLast?_eq_getLast Q hQne
        rw [this] at hy
        simp only [Option.some_inj] at hy
        rw [← hy]
        exact List.dropLast_append_getLast hQne
      have hpQ : pathIn g Q := by
        rcases List.chain'_append.mp hp with ⟨h1, _, _⟩
        exact h1
      have hedge : (edgeCost g y zq).isSome = true := by
        rcases List.chain'_append.mp hp with ⟨_, _, h3⟩
        have := h3 y hy zq (by simp)
        exact this
      obtain ⟨w, hw⟩ := Option.isSome_iff_exists.mp hedge
      have hcostP : pathCost g (Q ++ [zq]) = pathCost g Q + w :=
        pathCost_append_edge g Q y zq w hy hw
      rcases ih y hQne hhQ hy hpQ with ⟨cy, hcy, hcyle⟩ | ⟨it, hit, P1, P2, hsplit, hcb⟩
      · rcases hinv.2.2.2.2.2 y cy hcy with hopen | hclosed
        · obtain ⟨it, hit, hitn, hitc⟩ := hopen
          refine Or.inr ⟨it, hit, Q.dropLast, [zq], ?_, ?_⟩
          · rw [hitn, ← hQeq]
            simp
          · rw [hitn, hitc]
            calc cy ≤ pathCost g Q := hcyle
            _ = pathCost g (Q.dropLast ++ [y]) := by rw [hQeq]
        · obtain ⟨cz, hcz, hczle⟩ := hclosed zq w hw
          refine Or.inl ⟨cz, hcz, ?_⟩
          rw [hcostP]
          calc cz ≤ cy + w := hczle
          _ ≤ pathCost g Q + w := by
              exact add_le_add_right hcyle w
      · refine Or.inr ⟨it, hit, P1, P2 ++ [zq], ?_, hcb⟩
        rw [hsplit]
        simp

theorem reconstruct_spec (g : Graph) (start : Int) (cf : List (Int × Int))
    (kc : List (Int × ℚ))
    (hB : InvB start cf kc) (hC : InvC g cf kc) (hD : InvD start cf kc)
    (hnn0 : ∀ v c, alget kc v = some c → 0 ≤ c) :
    ∀ (fuel : Nat) (nd : Int) (acc : List Int) (c : ℚ) (p : List Int),
    alget kc nd = some c →
    reconstruct_path cf fuel nd acc = some p →
    ∃ q, p = q ++ acc ∧ q ≠ [] ∧ q.head? = some start ∧
      q.getLast? = some nd ∧ pathIn g q ∧ pathCost g q ≤ c := by
  intro fuel
  induction fuel with
  | zero => intro nd acc c p _ hr; simp [reconstruct_path] at hr
  | succ fuel ih =>
    intro nd acc c p hkc hr
    cases hcf : alget cf nd with
    | none =>
      have hnd : nd = start := by
        by_contra hne
        have := hD nd (by rw [hkc]; rfl) hne
        rw [hcf] at this
        simp at this
      simp only [reconstruct_path, hcf, Option.some_inj] at hr
      refine ⟨[nd], by rw [← hr]; rfl, by simp, by rw [hnd]; rfl, by simp, ?_, ?_⟩
      · simp [pathIn]
      · show (0 : ℚ) ≤ c
        exact hnn0 nd c hkc
    | some pv =>
      simp only [reconstruct_path, hcf] at hr
      obtain ⟨w, c2, cp, hw, hc2, hcp, hle⟩ := hC nd pv hcf
      rw [hkc] at hc2
      simp only [Option.some_inj] at hc2
      subst hc2
      obtain ⟨q, hq, hqne, hqh, hql, hqp, hqc⟩ :=
        ih pv (nd :: acc) cp p hcp hr
      refine ⟨q ++ [nd], ?_, by simp, ?_, ?_, ?_, ?_⟩
      · rw [hq, List.append_assoc]
        rfl
      · rw [List.head?_append_of_ne_nil _ hqne]
        exact hqh
      · rw [List.getLast?_concat]
      · exact pathIn_append_edge g q pv nd hql hqp (by rw [hw]; rfl)
      · rw [pathCost_append_edge g q pv nd w hql hw]
        calc pathCost g q + w ≤ cp + w := add_le_add_right hqc w
        _ ≤ c := hle

theorem relax_fold_spec (g : Graph) (d : Position → Position → ℚ)
    (ep : Position) (start : Int)
    (hnn : ∀ a m, alget g.edges a = some m → ∀ q ∈ m, 0 ≤ q.2)
    (item : AStarQueueItem) :
    ∀ (E : List (Int × ℚ)) (queue : List AStarQueueItem)
      (cf : List (Int × Int)) (kc : List (Int × ℚ))
      (qf : List AStarQueueItem) (cff : List (Int × Int))
      (kcf : List (Int × ℚ)),
    E.foldl (relaxOne g d ep item) (queue, cf, kc) = (qf, cff, kcf) →
    (∀ e ∈ E, edgeCost g item.node_id e.1 = some e.2) →
    alget kc item.node_id = some item.cost →
    InvA g start kc → InvB start cf kc → InvC g cf kc → InvD start cf kc →
    InvE g d ep queue kc →
    (∀ v c, v ≠ item.node_id → alget kc v = some c →
      OpenAt queue v c ∨ ClosedAt g kc v c) →
    InvA g start kcf ∧ InvB start cff kcf ∧ InvC g cff kcf ∧
    InvD start cff kcf ∧ InvE g d ep qf kcf ∧
    (∀ v c, v ≠ item.node_id → alget kcf v = some c →
      OpenAt qf v c ∨ ClosedAt g kcf v c) ∧
    alget kcf item.node_id = some item.cost ∧
    (∀ v c, alget kc v = some c → ∃ c2, alget kcf v = some c2 ∧ c2 ≤ c) ∧
    (∀ e ∈ E, ∃ cu, alget kcf e.1 = some cu ∧ cu ≤ item.cost + e.2) := by
  intro E
  induction E with
  | nil =>
    intro queue cf kc qf cff kcf hfold hE hkcy hA hB hC hD hEq hG
    simp only [List.foldl_nil, Prod.mk.injEq] at hfold
    obtain ⟨h1, h2, h3⟩ := hfold
    subst h1; subst h2; subst h3
    refine ⟨hA, hB, hC, hD, hEq, hG, hkcy, ?_, ?_⟩
    · intro v c hv
      exact ⟨c, hv, le_refl c⟩
    · intro e he
      simp at he
  | cons e E2 ih =>
    intro queue cf kc qf cff kcf hfold hE hkcy hA hB hC hD hEq hG
    have hEe : edgeCost g item.node_id e.1 = some e.2 :=
      hE e (List.mem_cons_self _ _)
    have hE2 : ∀ x ∈ E2, edgeCost g item.node_id x.1 = some x.2 := by
      intro x hx
      exact hE x (List.mem_cons_of_mem _ hx)
    have h2nn : 0 ≤ e.2 := edge_nonneg g hnn item.node_id e.1 e.2 hEe
    have hcit_nn : 0 ≤ item.cost :=
      kc_nonneg g start kc hnn hA item.node_id item.cost hkcy
    have hnc_nn : 0 ≤ item.cost + e.2 := add_nonneg hcit_nn h2nn
    rw [List.foldl_cons] at hfold
    by_cases hbet : (match alget kc e.1 with
      | some k => item.cost + e.2 < k
      | none => True)
    · -- the relaxation fires
      have hstrict : ∀ c0, alget kc e.1 = some c0 → item.cost + e.2 < c0 := by
        intro c0 hc0
        rw [hc0] at hbet
        exact hbet
      have he1y : e.1 ≠ item.node_id := by
        intro hh
        have := hstrict item.cost (by rw [hh]; exact hkcy)
        exact absurd this (not_lt_of_le (le_add_of_nonneg_right h2nn))
      have he1start : e.1 ≠ start := by
        intro hh
        have := hstrict 0 (by rw [hh]; exact hB.1)
        exact absurd this (not_lt_of_le hnc_nn)
      have hstep : relaxOne g d ep item (queue, cf, kc) e =
          (queue ++ [⟨e.1, item.cost + e.2,
            item.cost + e.2 + d ep (getNodeD g e.1).position, none⟩],
           alset cf e.1 item.node_id, alset kc e.1 (item.cost + e.2)) := by
        cases hb : alget kc e.1 with
        | none => simp [relaxOne, hb]
        | some k =>
          have hlt : item.cost + e.2 < k := hstrict k hb
          simp [relaxOne, hb, hlt]
      rw [hstep] at hfold
      obtain ⟨Py, hPyne, hPyh, hPyl, hPyp, hPyc⟩ :=
        hA item.node_id item.cost hkcy
      -- the new known-costs entry decreases or creates the value at e.1
      have hmono1 : ∀ v c, alget kc v = some c →
          ∃ c2, alget (alset kc e.1 (item.cost + e.2)) v = some c2 ∧ c2 ≤ c := by
        intro v c hv
        by_cases hv1 : v = e.1
        · subst hv1
          exact ⟨item.cost + e.2, alget_alset_self _ _ _,
            le_of_lt (hstrict c hv)⟩
        · rw [alget_alset_ne kc e.1 v _ hv1]
          exact ⟨c, hv, le_refl c⟩
      have hkcy2 : alget (alset kc e.1 (item.cost + e.2)) item.node_id =
          some item.cost := by
        rw [alget_alset_ne kc e.1 item.node_id _ (Ne.symm he1y)]
        exact hkcy
      have hA2 : InvA g start (alset kc e.1 (item.cost + e.2)) := by
        intro v c hv
        by_cases hv1 : v = e.1
        · subst hv1
          rw [alget_alset_self] at hv
          simp only [Option.some_inj] at hv
          refine ⟨Py ++ [e.1], by simp, ?_, ?_, ?_, ?_⟩
          · rw [List.head?_append_of_ne_nil _ hPyne]
            exact hPyh
          · rw [List.getLast?_concat]
          · exact pathIn_append_edge g Py item.node_id e.1 hPyl hPyp
              (by rw [hEe]; rfl)
          · rw [pathCost_append_edge g Py item.node_id e.1 e.2 hPyl hEe,
              hPyc, hv]
        · rw [alget_alset_ne kc e.1 v _ hv1] at hv
          exact hA v c hv
      have hB2 : InvB start (alset cf e.1 item.node_id)
          (alset kc e.1 (item.cost + e.2)) := by
        constructor
        · rw [alget_alset_ne kc e.1 start _ (Ne.symm he1start)]
          exact hB.1
        · rw [alget_alset_ne cf e.1 start _ (Ne.symm he1start)]
          exact hB.2
      have hC2 : InvC g (alset cf e.1 item.node_id)
          (alset kc e.1 (item.cost + e.2)) := by
        intro v pv hv
        by_cases hv1 : v = e.1
        · subst hv1
          rw [alget_alset_self] at hv
          simp only [Option.some_inj] at hv
          subst hv
          exact ⟨e.2, item.cost + e.2, item.cost, hEe,
            alget_alset_self _ _ _, hkcy2, le_refl _⟩
        · rw [alget_alset_ne cf e.1 v _ hv1] at hv
          obtain ⟨w, c, cp, hw, hc, hcp, hle⟩ := hC v pv hv
          by_cases hpv1 : pv = e.1
          · subst hpv1
            refine ⟨w, c, item.cost + e.2, hw, ?_, alget_alset_self _ _ _, ?_⟩
            · rw [alget_alset_ne kc e.1 v _ hv1]
              exact hc
            · calc item.cost + e.2 + w ≤ cp + w :=
                    add_le_add_right (le_of_lt (hstrict cp hcp)) w
                _ ≤ c := hle
          · refine ⟨w, c, cp, hw, ?_, ?_, hle⟩
            · rw [alget_alset_ne kc e.1 v _ hv1]
              exact hc
            · rw [alget_alset_ne kc e.1 pv _ hpv1]
              exact hcp
      have hD2 : InvD start (alset cf e.1 item.node_id)
          (alset kc e.1 (item.cost + e.2)) := by
        intro v hv hvs
        by_cases hv1 : v = e.1
        · subst hv1
          rw [alget_alset_self]
          rfl
        · rw [alget_alset_ne kc e.1 v _ hv1] at hv
          rw [alget_alset_ne cf e.1 v _ hv1]
          exact hD v hv hvs
      have hEq2 : InvE g d ep (queue ++ [⟨e.1, item.cost + e.2,
          item.cost + e.2 + d ep (getNodeD g e.1).position, none⟩])
          (alset kc e.1 (item.cost + e.2)) := by
        intro it hit
        rcases List.mem_append.mp hit with hl | hr
        · obtain ⟨c, hc, hcle, hsc⟩ := hEq it hl
          obtain ⟨c2, hc2, hc2le⟩ := hmono1 it.node_id c hc
          exact ⟨c2, hc2, le_trans hc2le hcle, hsc⟩
        · simp only [List.mem_singleton] at hr
          subst hr
          exact ⟨item.cost + e.2, alget_alset_self _ _ _, le_refl _, rfl⟩
      have hG2 : ∀ v c, v ≠ item.node_id →
          alget (alset kc e.1 (item.cost + e.2)) v = some c →
          OpenAt (queue ++ [⟨e.1, item.cost + e.2,
            item.cost + e.2 + d ep (getNodeD g e.1).position, none⟩]) v c ∨
          ClosedAt g (alset kc e.1 (item.cost + e.2)) v c := by
        intro v c hvy hv
        by_cases hv1 : v = e.1
        · subst hv1
          rw [alget_alset_self] at hv
          simp only [Option.some_inj] at hv
          exact Or.inl ⟨_, List.mem_append_right _ (List.mem_singleton_self _),
            rfl, hv⟩
        · rw [alget_alset_ne kc e.1 v _ hv1] at hv
          rcases hG v c hvy hv with hopen | hclosed
          · obtain ⟨wit, hwit, hn, hcw⟩ := hopen
            exact Or.inl ⟨wit, List.mem_append_left _ hwit, hn, hcw⟩
          · refine Or.inr ?_
            intro u w hu
            obtain ⟨cu, hcu, hcule⟩ := hclosed u w hu
            obtain ⟨c2, hc2, hc2le⟩ := hmono1 u cu hcu
            exact ⟨c2, hc2, le_trans hc2le hcule⟩
      obtain ⟨r1, r2, r3, r4, r5, r6, r7, rmono, rpost⟩ :=
        ih _ _ _ qf cff kcf hfold hE2 hkcy2 hA2 hB2 hC2 hD2 hEq2 hG2
      refine ⟨r1, r2, r3, r4, r5, r6, r7, ?_, ?_⟩
      · intro v c hv
        obtain ⟨c2, hc2, hc2le⟩ := hmono1 v c hv
        obtain ⟨c3, hc3, hc3le⟩ := rmono v c2 hc2
        exact ⟨c3, hc3, le_trans hc3le hc2le⟩
      · intro x hx
        rcases List.mem_cons.mp hx with hx1 | hx2
        · obtain ⟨c3, hc3, hc3le⟩ := rmono e.1 (item.cost + e.2)
            (alget_alset_self _ _ _)
          rw [hx1]
          exact ⟨c3, hc3, hc3le⟩
        · exact rpost x hx2
    · -- no relaxation: the edge target already has a smaller or equal cost
      obtain ⟨k, hb, hk⟩ : ∃ k, alget kc e.1 = some k ∧
          ¬(item.cost + e.2 < k) := by
        cases hb : alget kc e.1 with
        | none => rw [hb] at hbet; exact absurd trivial hbet
        | some k =>
          rw [hb] at hbet
          exact ⟨k, rfl, hbet⟩
      have hstep : relaxOne g d ep item (queue, cf, kc) e =
          (queue, cf, kc) := by
        simp [relaxOne, hb, hk]
      rw [hstep] at hfold
      obtain ⟨r1, r2, r3, r4, r5, r6, r7, rmono, rpost⟩ :=
        ih _ _ _ qf cff kcf hfold hE2 hkcy hA hB hC hD hEq hG
      refine ⟨r1, r2, r3, r4, r5, r6, r7, rmono, ?_⟩
      intro x hx
      rcases List.mem_cons.mp hx with hx1 | hx2
      · obtain ⟨c3, hc3, hc3le⟩ := rmono e.1 k hb
        rw [hx1]
        exact ⟨c3, hc3, le_trans hc3le (le_of_not_lt hk)⟩
      · exact rpost x hx2

theorem find_route_loop_correct (g : Graph) (endId : Int)
    (d : Position → Position → ℚ) (ep : Position) (sl : Option Nat)
    (start : Int)
    (hmnd : ∀ a m, alget g.edges a = some m → (m.map Prod.fst).Nodup)
    (hnn : ∀ a m, alget g.edges a = some m → ∀ q ∈ m, 0 ≤ q.2)
    (hadm : ∀ v P, IsRoutePath g v endId P →
      d ep (getNodeD g v).position ≤ pathCost g P)
    (hd0 : 0 ≤ d ep (getNodeD g endId).position) :
    ∀ (fuel : Nat) (queue : List AStarQueueItem) (cf : List (Int × Int))
      (kc : List (Int × ℚ)) (steps : Nat) (p : List Int) (steps2 : Nat)
      (kc2 : List (Int × ℚ)),
    AStarInv g d ep start queue cf kc →
    find_route_loop g endId d ep sl fuel queue cf kc steps =
      (.route p, steps2, kc2) →
    p ≠ [] →
    IsRoutePath g start endId p ∧
    ∃ ce, alget kc2 endId = some ce ∧ pathCost g p = ce ∧
      ∀ q, IsRoutePath g start endId q → ce ≤ pathCost g q := by
  intro fuel
  induction fuel with
  | zero =>
    intro queue cf kc steps p steps2 kc2 hinv hrun hne
    rw [find_route_loop_zero] at hrun
    simp at hrun
  | succ fuel ih =>
    intro queue cf kc steps p steps2 kc2 hinv hrun hne
    cases hpop : heappop queue with
    | none =>
      rw [find_route_loop_empty g endId d ep sl fuel queue cf kc steps
        hpop] at hrun
      simp only [Prod.mk.injEq, RouteResult.route.injEq] at hrun
      exact absurd hrun.1.symm hne
    | some itq =>
      obtain ⟨item, rest⟩ := itq
      by_cases hend : item.node_id = endId
      · rw [find_route_loop_pop_end g endId d ep sl fuel queue cf kc steps
          item rest hpop hend] at hrun
        cases hrec : reconstruct_path cf (cf.length + 1) endId [] with
        | none =>
          rw [hrec] at hrun
          simp at hrun
        | some p0 =>
          rw [hrec] at hrun
          simp only [Prod.mk.injEq, RouteResult.route.injEq] at hrun
          obtain ⟨hp0, hsteps, hkc⟩ := hrun
          subst hp0
          subst hkc
          obtain ⟨hA, hB, hC, hD, hE, hG⟩ := hinv
          have hps := heappop_spec queue item rest hpop
          obtain ⟨ce, hce, hcele, hsc⟩ := hE item hps.1
          rw [hend] at hce
          have hmin : ∀ q, IsRoutePath g start endId q →
              ce ≤ pathCost g q := by
            intro q hq
            obtain ⟨hqne, hqh, hql, hqp⟩ := hq
            rcases astar_frontier g d ep start queue cf kc
                ⟨hA, hB, hC, hD, hE, hG⟩ q endId hqne hqh hql hqp with
              ⟨c, hc, hcle⟩ | ⟨it2, hit2, P1, P2, hsplit, hcb⟩
            · rw [hce] at hc
              simp only [Option.some_inj] at hc
              rw [hc]
              exact hcle
            · obtain ⟨c2, hc2, hc2le, hsc2⟩ := hE it2 hit2
              have hmin2 := hps.2.1 it2 hit2
              have hsuffix : IsRoutePath g it2.node_id endId
                  (it2.node_id :: P2) := by
                refine routePath_suffix g start endId P1 it2.node_id P2 ?_
                rw [← hsplit]
                exact ⟨hqne, hqh, hql, hqp⟩
              have hadm2 := hadm it2.node_id (it2.node_id :: P2) hsuffix
              have hcost : pathCost g q =
                  pathCost g (P1 ++ [it2.node_id]) +
                    pathCost g (it2.node_id :: P2) := by
                rw [hsplit]
                exact pathCost_split g P1 it2.node_id P2
              calc ce ≤ item.cost := hcele
                _ ≤ item.cost + d ep (getNodeD g item.node_id).position := by
                    refine le_add_of_nonneg_right ?_
                    rw [hend]
                    exact hd0
                _ = item.score := hsc.symm
                _ ≤ it2.score := hmin2
                _ = it2.cost + d ep (getNodeD g it2.node_id).position := hsc2
                _ ≤ pathCost g (P1 ++ [it2.node_id]) +
                    pathCost g (it2.node_id :: P2) := add_le_add hcb hadm2
                _ = pathCost g q := hcost.symm
          obtain ⟨q0, hq0eq, hq0ne, hq0h, hq0l, hq0p, hq0c⟩ :=
            reconstruct_spec g start cf kc hB hC hD
              (kc_nonneg g start kc hnn hA) (cf.length + 1) endId [] ce p0
              hce hrec
          rw [List.append_nil] at hq0eq
          subst hq0eq
          exact ⟨⟨hq0ne, hq0h, hq0l, hq0p⟩, ce, hce,
            le_antisymm hq0c (hmin _ ⟨hq0ne, hq0h, hq0l, hq0p⟩), hmin⟩
      · by_cases hst : isStale kc item = true
        · rw [find_route_loop_pop_stale g endId d ep sl fuel queue cf kc
            steps item rest hpop hend hst] at hrun
          refine ih rest cf kc steps p steps2 kc2 ?_ hrun hne
          obtain ⟨hA, hB, hC, hD, hE, hG⟩ := hinv
          have hps := heappop_spec queue item rest hpop
          refine ⟨hA, hB, hC, hD, ?_, ?_⟩
          · intro it hit
            exact hE it (hps.2.2.2 it hit)
          · intro v c hv
            rcases hG v c hv with hopen | hclosed
            · obtain ⟨wit, hwit, hn, hc⟩ := hopen
              refine Or.inl ⟨wit, ?_, hn, hc⟩
              rcases hps.2.2.1 wit hwit with heq | hrest2
              · exfalso
                rw [heq] at hn hc
                have hlk : alget kc item.node_id = some c := by
                  rw [hn]
                  exact hv
                unfold isStale at hst
                rw [hlk] at hst
                have hlt := of_decide_eq_true hst
                rw [hc] at hlt
                exact absurd hlt (lt_irrefl c)
              · exact hrest2
            · exact Or.inr hclosed
        · have hstf : isStale kc item = false := by
            cases h2 : isStale kc item
            · rfl
            · exact absurd h2 hst
          by_cases hov : overLimit sl (steps + 1) = true
          · rw [find_route_loop_pop_over g endId d ep sl fuel queue cf kc
              steps item rest hpop hend hstf hov] at hrun
            simp at hrun
          · have hovf : overLimit sl (steps + 1) = false := by
              cases h2 : overLimit sl (steps + 1)
              · rfl
              · exact absurd h2 hov
            rw [find_route_loop_pop_expand g endId d ep sl fuel queue cf kc
              steps item rest hpop hend hstf hovf] at hrun
            obtain ⟨hA, hB, hC, hD, hE, hG⟩ := hinv
            have hps := heappop_spec queue item rest hpop
            obtain ⟨c0, hc0, hc0le, hsc0⟩ := hE item hps.1
            have hkcy : alget kc item.node_id = some item.cost := by
              unfold isStale at hstf
              rw [hc0] at hstf
              have hnlt := of_decide_eq_false hstf
              have hceq : c0 = item.cost :=
                le_antisymm hc0le (le_of_not_lt hnlt)
              rw [hc0, hceq]
            have hEdges : ∀ e ∈ getEdges g item.node_id,
                edgeCost g item.node_id e.1 = some e.2 := by
              intro e he
              show alget (getEdges g item.node_id) e.1 = some e.2
              cases hm : alget g.edges item.node_id with
              | none =>
                unfold getEdges at he
                rw [hm] at he
                simp at he
              | some m =>
                have hgm : getEdges g item.node_id = m := by
                  unfold getEdges
                  rw [hm]
                  rfl
                rw [hgm] at he ⊢
                refine mem_alget (hmnd _ m hm) ?_
                rw [Prod.mk.eta]
                exact he
            have hGo : ∀ v c, v ≠ item.node_id → alget kc v = some c →
                OpenAt rest v c ∨ ClosedAt g kc v c := by
              intro v c hvy hv
              rcases hG v c hv with hopen | hclosed
              · obtain ⟨wit, hwit, hn, hc⟩ := hopen
                refine Or.inl ⟨wit, ?_, hn, hc⟩
                rcases hps.2.2.1 wit hwit with heq | hrest2
                · exfalso
                  rw [heq] at hn
                  exact hvy hn.symm
                · exact hrest2
              · exact Or.inr hclosed
            have hErest : InvE g d ep rest kc := by
              intro it hit
              exact hE it (hps.2.2.2 it hit)
            have hrun2 : find_route_loop g endId d ep sl fuel
                ((getEdges g item.node_id).foldl (relaxOne g d ep item)
                  (rest, cf, kc)).1
                ((getEdges g item.node_id).foldl (relaxOne g d ep item)
                  (rest, cf, kc)).2.1
                ((getEdges g item.node_id).foldl (relaxOne g d ep item)
                  (rest, cf, kc)).2.2
                (steps + 1) = (.route p, steps2, kc2) := hrun
            obtain ⟨r1, r2, r3, r4, r5, r6, r7, rmono, rpost⟩ :=
              relax_fold_spec g d ep start hnn item (getEdges g item.node_id)
                rest cf kc _ _ _ rfl hEdges hkcy hA hB hC hD hErest hGo
            have hGf : InvG g
                ((getEdges g item.node_id).foldl (relaxOne g d ep item)
                  (rest, cf, kc)).1
                ((getEdges g item.node_id).foldl (relaxOne g d ep item)
                  (rest, cf, kc)).2.2 := by
              intro v c hv
              by_cases hvy : v = item.node_id
              · subst hvy
                rw [r7] at hv
                simp only [Option.some_inj] at hv
                refine Or.inr ?_
                intro u w hu
                have humem : (u, w) ∈ getEdges g item.node_id := alget_mem hu
                obtain ⟨cu, hcu, hcule⟩ := rpost (u, w) humem
                refine ⟨cu, hcu, ?_⟩
                rw [← hv]
                exact hcule
              · exact r6 v c hvy hv
            exact ih _ _ _ (steps + 1) p steps2 kc2
              ⟨r1, r2, r3, r4, r5, hGf⟩ hrun2 hne

/-- C3 (amended: the heuristic must additionally be non-negative at the end
node, and edge maps have distinct keys): when all edge costs are
non-negative and the distance function is an admissible lower bound on
remaining path cost that is non-negative at the end node, every non-empty
path returned by find_route leads from start to the end node along graph
edges, its total edge cost equals the final known cost of the end node, and
no start-to-end path is cheaper. The original claim, without the
non-negativity of the heuristic at the end node, is refuted by
C3_counterexample. -/
theorem C3_find_route_optimal (g : Graph) (start endId : Int)
    (d : Position → Position → ℚ) (sl : Option Nat) (fuel : Nat)
    (hmnd : ∀ a m, alget g.edges a = some m → (m.map Prod.fst).Nodup)
    (hnn : ∀ a m, alget g.edges a = some m → ∀ q ∈ m, 0 ≤ q.2)
    (hadm : ∀ v P, IsRoutePath g v endId P →
      d (getNodeD g endId).position (getNodeD g v).position ≤ pathCost g P)
    (hd0 : 0 ≤ d (getNodeD g endId).position (getNodeD g endId).position)
    (p : List Int) (steps : Nat) (kc : List (Int × ℚ))
    (hrun : find_route g start endId d sl fuel = (.route p, steps, kc))
    (hne : p ≠ []) :
    IsRoutePath g start endId p ∧
    ∃ ce, alget kc endId = some ce ∧ pathCost g p = ce ∧
      ∀ q, IsRoutePath g start endId q → ce ≤ pathCost g q := by
  have hrun2 : find_route_loop g endId d (getNodeD g endId).position sl fuel
      [⟨start, 0,
        d (getNodeD g endId).position (getNodeD g start).position, none⟩]
      [] [(start, 0)] 0 = (.route p, steps, kc) := hrun
  exact find_route_loop_correct g endId d (getNodeD g endId).position sl
    start hmnd hnn hadm hd0 fuel _ _ _ 0 p steps kc
    (astar_inv_init g d (getNodeD g endId).position start) hrun2 hne

def c3WG : Graph :=
  ⟨c6Profile, [(1, ⟨1, (0, 0), 1⟩), (2, ⟨2, (0, 1), 2⟩)],
   [(1, [(2, 1)])], MAX_NODE_ID⟩

def c3Wd : Position → Position → ℚ := fun _ _ => 0

def c3Wrun : RouteResult × Nat × List (Int × ℚ) :=
  find_route c3WG 1 2 c3Wd none 5

def c3Wpath : List Int :=
  match c3Wrun.1 with
  | .route p => p
  | _ => []

theorem alget_singleton_values {κ α : Type} [DecidableEq κ]
    (k : κ) (v : α) (a : κ) (m : α) (h : alget [(k, v)] a = some m) :
    m = v := by
  simp only [alget] at h
  by_cases ha : k = a
  · rw [if_pos ha] at h
    simp only [Option.some_inj] at h
    exact h.symm
  · rw [if_neg ha] at h
    simp [alget] at h

/-- Witness for C3: on a two-node graph with the zero heuristic, find_route
returns the unique route, whose cost is minimal and recorded as the known
cost of the end node. -/
theorem C3_witness :
    IsRoutePath c3WG 1 2 c3Wpath ∧
    ∃ ce, alget c3Wrun.2.2 2 = some ce ∧ pathCost c3WG c3Wpath = ce ∧
      ∀ q, IsRoutePath c3WG 1 2 q → ce ≤ pathCost c3WG q :=
  C3_find_route_optimal c3WG 1 2 c3Wd none 5
    (by
      intro a m h
      rw [alget_singleton_values _ _ _ _ h]
      decide)
    (by
      intro a m h
      rw [alget_singleton_values _ _ _ _ h]
      decide)
    (fun v P hP =>
      pathCost_nonneg c3WG
        (by
          intro a m h
          rw [alget_singleton_values _ _ _ _ h]
          decide)
        P hP.2.2.2)
    (by decide)
    c3Wpath c3Wrun.2.1 c3Wrun.2.2 rfl (by decide)

def c3CG : Graph :=
  ⟨c6Profile,
   [(1, ⟨1, (0, 0), 1⟩), (2, ⟨2, (0, 1), 2⟩), (3, ⟨3, (1, 1), 3⟩)],
   [(1, [(2, 1), (3, 10)]), (2, [(3, 1)])], MAX_NODE_ID⟩

def c3Cd : Position → Position → ℚ :=
  fun _ pv => if pv = ((1 : ℚ), (1 : ℚ)) then -100 else 0

theorem alget_values {κ α : Type} [DecidableEq κ] :
    ∀ (l : List (κ × α)) (a : κ) (m : α), alget l a = some m →
    ∃ pr ∈ l, pr.2 = m := by
  intro l
  induction l with
  | nil => intro a m h; simp [alget] at h
  | cons p ps ih =>
    intro a m h
    simp only [alget] at h
    by_cases hp : p.1 = a
    · rw [if_pos hp] at h
      simp only [Option.some_inj] at h
      exact ⟨p, List.mem_cons_self _ _, h⟩
    · rw [if_neg hp] at h
      obtain ⟨pr, hpr, he⟩ := ih a m h
      exact ⟨pr, List.mem_cons_of_mem _ hpr, he⟩

theorem c3CG_nn : ∀ a m, alget c3CG.edges a = some m → ∀ q ∈ m, 0 ≤ q.2 := by
  intro a m h q hq
  obtain ⟨pr, hpr, he⟩ := alget_values _ a m h
  rw [← he] at hq
  have hpr2 : pr = ((1 : Int), [((2 : Int), (1 : ℚ)), (3, 10)]) ∨
      pr = (2, [(3, 1)]) := by
    simpa [c3CG] using hpr
  rcases hpr2 with h2 | h2 <;>
    · rw [h2] at hq
      rcases List.mem_cons.mp hq with h3 | h3
      · rw [h3]
        norm_num
      · first
        | (rcases List.mem_cons.mp h3 with h4 | h4
           · rw [h4]
             norm_num
           · simp at h4)
        | simp at h3

/-- Counterexample to C3 as stated: on a three-node graph with non-negative
edge costs and an admissible heuristic (a lower bound on every remaining
path cost) that is negative at the end node, find_route returns the path
1→3 of cost 10 although the path 1→2→3 of cost 2 exists: the returned path
is not of minimal cost, so admissibility alone is not enough. -/
theorem C3_counterexample :
    (∀ a m, alget c3CG.edges a = some m → ∀ q ∈ m, 0 ≤ q.2) ∧
    (∀ v P, IsRoutePath c3CG v 3 P →
      c3Cd (getNodeD c3CG 3).position (getNodeD c3CG v).position ≤
        pathCost c3CG P) ∧
    (∃ st kcf, find_route c3CG 1 3 c3Cd none 5 = (.route [1, 3], st, kcf)) ∧
    IsRoutePath c3CG 1 3 [1, 3] ∧ IsRoutePath c3CG 1 3 [1, 2, 3] ∧
    pathCost c3CG [1, 2, 3] < pathCost c3CG [1, 3] := by
  refine ⟨c3CG_nn, ?_, ?_, ?_, ?_, ?_⟩
  · intro v P hP
    have h0 : c3Cd (getNodeD c3CG 3).position (getNodeD c3CG v).position ≤
        0 := by
      unfold c3Cd
      split <;> norm_num
    exact le_trans h0 (pathCost_nonneg c3CG c3CG_nn P hP.2.2.2)
  · refine ⟨1, [(1, 0), (2, 1), (3, 10)], ?_⟩
    norm_num [find_route, find_route_loop, heappop, selectMin, isStale,
      overLimit, relaxOne, reconstruct_path, getEdges, getNodeD, edgeCost,
      alget, alset, c3CG, c3Cd, List.foldl]
  · exact ⟨by simp, rfl, rfl, by decide⟩
  · exact ⟨by simp, rfl, rfl, by decide⟩
  · norm_num [pathCost, edgeCost, getEdges, alget, c3CG]

/-! ## C7: the external-id invariant of the builder -/

theorem alget_alset_isSome {κ α : Type} [DecidableEq κ]
    (l : List (κ × α)) (k k2 : κ) (v : α)
    (h : (alget l k).isSome = true) :
    (alget (alset l k2 v) k).isSome = true := by
  by_cases hk : k = k2
  · subst hk
    rw [alget_alset_self]
    rfl
  · rw [alget_alset_ne l k2 k v hk]
    exact h

theorem alset_mem {κ α : Type} [DecidableEq κ]
    {l : List (κ × α)} {k : κ} {v : α} {p : κ × α}
    (h : p ∈ alset l k v) : p = (k, v) ∨ p ∈ l := by
  induction l with
  | nil => simpa [alset] using h
  | cons q qs ih =>
    by_cases hq : q.1 = k
    · rw [alset, if_pos hq] at h
      rcases List.mem_cons.mp h with h1 | h1
      · exact Or.inl h1
      · exact Or.inr (List.mem_cons_of_mem _ h1)
    · rw [alset, if_neg hq] at h
      rcases List.mem_cons.mp h with h1 | h1
      · exact Or.inr (by rw [h1]; exact List.mem_cons_self _ _)
      · rcases ih h1 with h2 | h2
        · exact Or.inl h2
        · exact Or.inr (List.mem_cons_of_mem _ h2)

theorem alerase_mem {κ α : Type} [DecidableEq κ]
    {l : List (κ × α)} {k : κ} {p : κ × α}
    (h : p ∈ alerase l k) : p ∈ l := by
  induction l with
  | nil => simpa [alerase] using h
  | cons q qs ih =>
    by_cases hq : q.1 = k
    · rw [alerase, if_pos hq] at h
      exact List.mem_cons_of_mem _ h
    · rw [alerase, if_neg hq] at h
      rcases List.mem_cons.mp h with h1 | h1
      · exact Or.inl h1 |> List.mem_cons.mpr
      · exact List.mem_cons_of_mem _ (ih h1)

theorem alset_keys_nodup {κ α : Type} [DecidableEq κ]
    (l : List (κ × α)) (k : κ) (v : α) (h : (l.map Prod.fst).Nodup) :
    ((alset l k v).map Prod.fst).Nodup := by
  induction l with
  | nil => simp [alset]
  | cons p ps ih =>
    simp only [List.map_cons, List.nodup_cons] at h
    by_cases hp : p.1 = k
    · have he : alset (p :: ps) k v = (k, v) :: ps := by
        simp [alset, hp]
      rw [he]
      simp only [List.map_cons, List.nodup_cons]
      rw [← hp]
      exact h
    · have he : alset (p :: ps) k v = p :: alset ps k v := by
        simp [alset, hp]
      rw [he]
      simp only [List.map_cons, List.nodup_cons]
      refine ⟨?_, ih h.2⟩
      intro hmem
      obtain ⟨pr, hpr, hprk⟩ := List.mem_map.mp hmem
      rcases alset_mem hpr with h1 | h1
      · rw [h1] at hprk
        exact hp hprk.symm
      · exact h.1 (by rw [← hprk]; exact List.mem_map_of_mem _ h1)

theorem alget_foldl_alerase_not_mem {κ α : Type} [DecidableEq κ]
    (ts : List κ) : ∀ (m : List (κ × α)) (k : κ), k ∉ ts →
    alget (ts.foldl alerase m) k = alget m k := by
  induction ts with
  | nil => intro m k _; simp
  | cons t ts ih =>
    intro m k hk
    simp only [List.mem_cons] at hk
    push_neg at hk
    simp only [List.foldl_cons]
    rw [ih (alerase m t) k hk.2]
    exact alget_alerase_ne m t k hk.1

theorem alget_foldl_alerase_some {κ α : Type} [DecidableEq κ]
    (ts : List κ) : ∀ (m : List (κ × α)) (k : κ) (v : α),
    (m.map Prod.fst).Nodup →
    alget (ts.foldl alerase m) k = some v → alget m k = some v := by
  induction ts with
  | nil => intro m k v _ h; simpa using h
  | cons t ts ih =>
    intro m k v hnd h
    simp only [List.foldl_cons] at h
    have h2 := ih (alerase m t) k v (alerase_nodup m t hnd) h
    by_cases hk : k = t
    · subst hk
      rw [alget_alerase_self m k hnd] at h2
      exact absurd h2 (by simp)
    · rw [alget_alerase_ne m t k hk] at h2
      exact h2

/-- The node map respects the external-id contract: regular ids are their
own external id, phantom ids carry a regular external id whose owner is
stored. -/
def NodesOk (g : Graph) : Prop :=
  ∀ id n, alget g.nodes id = some n →
    n.id = id ∧
    (id < MAX_NODE_ID → n.external_id = id) ∧
    (MAX_NODE_ID ≤ id → n.external_id < MAX_NODE_ID ∧
      (alget g.nodes n.external_id).isSome = true)

/-- All node keys are bounded by the phantom-id counter. -/
def KeysBounded (g : Graph) : Prop :=
  ∀ id, (alget g.nodes id).isSome = true → id ≤ g.phantom_node_id_counter

/-- Edge sources and edge targets are stored nodes. -/
def EdgesOk (g : Graph) : Prop :=
  ∀ a m, alget g.edges a = some m → (alget g.nodes a).isSome = true ∧
    ∀ p ∈ m, (alget g.nodes p.1).isSome = true

/-- The graph part of the builder invariant. -/
def GraphInv (g : Graph) : Prop :=
  NodesOk g ∧ (g.nodes.map Prod.fst).Nodup ∧ KeysBounded g ∧
  MAX_NODE_ID ≤ g.phantom_node_id_counter ∧ EdgesOk g

/-- The node takes part in no edge. -/
def Untouched (g : Graph) (u : Int) : Prop :=
  alget g.edges u = none ∧
  ∀ a m, alget g.edges a = some m → ∀ p ∈ m, p.1 ≠ u

/-- The unused-node part of the builder invariant: unused nodes are regular,
touch no edge, and are nobody's phantom external id. -/
def UnusedOk (g : Graph) (unused : List Int) : Prop :=
  ∀ u ∈ unused, u < MAX_NODE_ID ∧ Untouched g u ∧
    ∀ id n, alget g.nodes id = some n → MAX_NODE_ID ≤ id →
      n.external_id ≠ u

/-- The builder invariant. -/
def BuilderInv (b : GraphBuilder) : Prop :=
  GraphInv b.g ∧ UnusedOk b.g b.unused_nodes

theorem add_node_pres (b : GraphBuilder) (node : OSMNode)
    (b2 : GraphBuilder) (hinv : BuilderInv b)
    (h : add_node b node = .ok b2) : BuilderInv b2 := by
  obtain ⟨⟨hN, hD, hK, hM, hE⟩, hU⟩ := hinv
  unfold add_node at h
  by_cases hbig : MAX_NODE_ID ≤ node.id
  · rw [if_pos hbig] at h
    exact absurd h (by simp)
  · rw [if_neg hbig] at h
    push_neg at hbig
    by_cases hpres : (alget b.g.nodes node.id).isSome = true
    · rw [if_pos hpres] at h
      simp only [Except.ok.injEq] at h
      rw [← h]
      exact ⟨⟨hN, hD, hK, hM, hE⟩, hU⟩
    · rw [if_neg hpres] at h
      simp only [Except.ok.injEq] at h
      have hfresh : alget b.g.nodes node.id = none := by
        cases h2 : alget b.g.nodes node.id
        · rfl
        · exact absurd (by rw [h2]; rfl) hpres
      rw [← h]
      refine ⟨⟨?_, ?_, ?_, hM, ?_⟩, ?_⟩
      · intro id n hid
        by_cases hi : id = node.id
        · subst hi
          rw [alget_alset_self] at hid
          simp only [Option.some_inj] at hid
          rw [← hid]
          refine ⟨rfl, fun _ => rfl, fun hge => absurd hge (not_le.mpr hbig)⟩
        · rw [alget_alset_ne _ _ _ _ hi] at hid
          obtain ⟨h1, h2, h3⟩ := hN id n hid
          refine ⟨h1, h2, fun hge => ⟨(h3 hge).1, ?_⟩⟩
          exact alget_alset_isSome _ _ _ _ (h3 hge).2
      · exact alset_keys_nodup _ _ _ hD
      · intro id hid
        by_cases hi : id = node.id
        · subst hi
          exact le_trans (le_of_lt hbig) hM
        · rw [alget_alset_ne _ _ _ _ hi] at hid
          exact hK id hid
      · intro a m ham
        obtain ⟨h1, h2⟩ := hE a m ham
        refine ⟨alget_alset_isSome _ _ _ _ h1, ?_⟩
        intro p hp
        exact alget_alset_isSome _ _ _ _ (h2 p hp)
      · intro u hu
        rcases List.mem_cons.mp hu with heq | hu2
        · subst heq
          refine ⟨hbig, ⟨?_, ?_⟩, ?_⟩
          · cases h2 : alget b.g.edges node.id with
            | none => rfl
            | some m =>
              exact absurd (hE node.id m h2).1 (by rw [hfresh]; simp)
          · intro a m ham p hp hpe
            have h4 := (hE a m ham).2 p hp
            rw [hpe, hfresh] at h4
            simp at h4
          · intro id n hid hge hext
            by_cases hi : id = node.id
            · rw [hi] at hge
              exact absurd hge (not_le.mpr hbig)
            · rw [alget_alset_ne _ _ _ _ hi] at hid
              have h4 := ((hN id n hid).2.2 hge).2
              rw [hext, hfresh] at h4
              simp at h4
        · obtain ⟨h1, h2, h3⟩ := hU u hu2
          refine ⟨h1, h2, ?_⟩
          intro id n hid hge
          by_cases hi : id = node.id
          · rw [hi] at hge
            exact absurd hge (not_le.mpr hbig)
          · rw [alget_alset_ne _ _ _ _ hi] at hid
            exact h3 id n hid hge

theorem addOneEdge_pres (g : Graph) (U : List Int) (a bb : Int) (w : ℚ)
    (hg : GraphInv g) (hu : UnusedOk g U)
    (hsa : (alget g.nodes a).isSome = true)
    (hsb : (alget g.nodes bb).isSome = true)
    (hua : ∀ u ∈ U, a ≠ u) (hub : ∀ u ∈ U, bb ≠ u) :
    GraphInv { g with edges := alset2 g.edges a bb w } ∧
    UnusedOk { g with edges := alset2 g.edges a bb w } U := by
  obtain ⟨hN, hD, hK, hM, hE⟩ := hg
  constructor
  · refine ⟨hN, hD, hK, hM, ?_⟩
    intro x m hx
    show (alget g.nodes x).isSome = true ∧ _
    by_cases hxa : x = a
    · subst hxa
      refine ⟨hsa, ?_⟩
      unfold alset2 at hx
      rw [alget_alset_self] at hx
      simp only [Option.some_inj] at hx
      intro p hp
      rw [← hx] at hp
      rcases alset_mem hp with h1 | h1
      · rw [h1]
        exact hsb
      · cases he : alget g.edges x with
        | none =>
          rw [he] at h1
          simp at h1
        | some m0 =>
          rw [he] at h1
          exact (hE x m0 he).2 p h1
    · unfold alset2 at hx
      rw [alget_alset_ne _ _ _ _ hxa] at hx
      exact hE x m hx
  · intro u hu2
    obtain ⟨h1, ⟨h2, h3⟩, h4⟩ := hu u hu2
    refine ⟨h1, ⟨?_, ?_⟩, h4⟩
    · show alget (alset2 g.edges a bb w) u = none
      unfold alset2
      rw [alget_alset_ne _ _ _ _ (Ne.symm (hua u hu2))]
      exact h2
    · intro x m hx p hp
      by_cases hxa : x = a
      · subst hxa
        unfold alset2 at hx
        rw [alget_alset_self] at hx
        simp only [Option.some_inj] at hx
        rw [← hx] at hp
        rcases alset_mem hp with hm | hm
        · rw [hm]
          exact hub u hu2
        · cases he : alget g.edges x with
          | none =>
            rw [he] at hm
            simp at hm
          | some m0 =>
            rw [he] at hm
            exact h3 x m0 he p hm
      · unfold alset2 at hx
        rw [alget_alset_ne _ _ _ _ hxa] at hx
        exact h3 x m hx p hp

theorem create_fold_pres (dist : Position → Position → ℚ) (U : List Int)
    (pen : ℚ) (f bwd : Bool) :
    ∀ (pairs : List (Int × Int)) (g : Graph),
    GraphInv g → UnusedOk g U →
    (∀ pr ∈ pairs, (alget g.nodes pr.1).isSome = true ∧
      (alget g.nodes pr.2).isSome = true ∧
      (∀ u ∈ U, pr.1 ≠ u) ∧ (∀ u ∈ U, pr.2 ≠ u)) →
    GraphInv (pairs.foldl (fun g pr =>
      let weight := pen *
        dist (getNodeD g pr.1).position (getNodeD g pr.2).position
      let g1 := if f then { g with edges := alset2 g.edges pr.1 pr.2 weight }
                else g
      if bwd then { g1 with edges := alset2 g1.edges pr.2 pr.1 weight }
      else g1) g) ∧
    UnusedOk (pairs.foldl (fun g pr =>
      let weight := pen *
        dist (getNodeD g pr.1).position (getNodeD g pr.2).position
      let g1 := if f then { g with edges := alset2 g.edges pr.1 pr.2 weight }
                else g
      if bwd then { g1 with edges := alset2 g1.edges pr.2 pr.1 weight }
      else g1) g) U ∧
    (pairs.foldl (fun g pr =>
      let weight := pen *
        dist (getNodeD g pr.1).position (getNodeD g pr.2).position
      let g1 := if f then { g with edges := alset2 g.edges pr.1 pr.2 weight }
                else g
      if bwd then { g1 with edges := alset2 g1.edges pr.2 pr.1 weight }
      else g1) g).nodes = g.nodes := by
  intro pairs
  induction pairs with
  | nil =>
    intro g hg hu _
    exact ⟨hg, hu, rfl⟩
  | cons pr prs ih =>
    intro g hg hu hps
    obtain ⟨hp1, hp2, hp3, hp4⟩ := hps pr (List.mem_cons_self _ _)
    simp only [List.foldl_cons]
    set w := pen * dist (getNodeD g pr.1).position (getNodeD g pr.2).position
      with hwdef
    have step1 : ∀ (gx : Graph), gx.nodes = g.nodes → GraphInv gx →
        UnusedOk gx U →
        GraphInv (if f then
            { gx with edges := alset2 gx.edges pr.1 pr.2 w } else gx) ∧
        UnusedOk (if f then
            { gx with edges := alset2 gx.edges pr.1 pr.2 w } else gx) U ∧
        (if f then { gx with edges := alset2 gx.edges pr.1 pr.2 w }
         else gx).nodes = g.nodes := by
      intro gx hnx hgx hux
      cases f with
      | false => exact ⟨hgx, hux, hnx⟩
      | true =>
        simp only [if_pos rfl]
        have := addOneEdge_pres gx U pr.1 pr.2 w hgx hux
          (by rw [hnx]; exact hp1) (by rw [hnx]; exact hp2) hp3 hp4
        exact ⟨this.1, this.2, hnx⟩
    have hg1 := step1 g rfl hg hu
    set g1 := if f then { g with edges := alset2 g.edges pr.1 pr.2 w } else g
      with hg1def
    have step2 : GraphInv (if bwd then
          { g1 with edges := alset2 g1.edges pr.2 pr.1 w } else g1) ∧
        UnusedOk (if bwd then
          { g1 with edges := alset2 g1.edges pr.2 pr.1 w } else g1) U ∧
        (if bwd then { g1 with edges := alset2 g1.edges pr.2 pr.1 w }
         else g1).nodes = g.nodes := by
      cases bwd with
      | false => exact ⟨hg1.1, hg1.2.1, hg1.2.2⟩
      | true =>
        simp only [if_pos rfl]
        have := addOneEdge_pres g1 U pr.2 pr.1 w hg1.1 hg1.2.1
          (by rw [hg1.2.2]; exact hp2) (by rw [hg1.2.2]; exact hp1) hp4 hp3
        exact ⟨this.1, this.2, hg1.2.2⟩
    set g2 := if bwd then { g1 with edges := alset2 g1.edges pr.2 pr.1 w }
      else g1 with hg2def
    have hrest := ih g2 step2.1 step2.2.1 (by
      intro q hq
      obtain ⟨q1, q2, q3, q4⟩ := hps q (List.mem_cons_of_mem _ hq)
      rw [step2.2.2]
      exact ⟨q1, q2, q3, q4⟩)
    refine ⟨?_, ?_, ?_⟩
    · exact hrest.1
    · exact hrest.2.1
    · rw [hrest.2.2, step2.2.2]

theorem add_way_pres (dist : Position → Position → ℚ) (b : GraphBuilder)
    (way : OSMWay) (b2 : GraphBuilder) (hinv : BuilderInv b)
    (h : add_way dist b way = .ok b2) : BuilderInv b2 := by
  unfold add_way at h
  cases hpen : get_way_penalty b way with
  | error e =>
    rw [hpen] at h
    exact absurd h (by simp)
  | ok openalty =>
    rw [hpen] at h
    cases openalty with
    | none =>
      simp only [Except.ok.injEq] at h
      rw [← h]
      exact hinv
    | some pen =>
      cases hnodes : get_way_nodes b way with
      | none =>
        rw [hnodes] at h
        simp only [Except.ok.injEq] at h
        rw [← h]
        exact hinv
      | some nodes =>
        rw [hnodes] at h
        simp only [Except.ok.injEq] at h
        have hstored : ∀ x ∈ nodes, (alget b.g.nodes x).isSome = true := by
          unfold get_way_nodes at hnodes
          simp only at hnodes
          by_cases hlen :
              (way.nodes.filter
                (fun n => (alget b.g.nodes n).isSome)).length < 2
          · rw [if_pos hlen] at hnodes
            exact absurd hnodes (by simp)
          · rw [if_neg hlen] at hnodes
            simp only [Option.some_inj] at hnodes
            intro x hx
            rw [← hnodes] at hx
            exact (List.mem_filter.mp hx).2
        set U2 := b.unused_nodes.filter (fun n => decide (n ∉ nodes))
          with hU2
        have hu2 : UnusedOk b.g U2 := by
          intro u hu
          exact hinv.2 u (List.mem_filter.mp hu).1
        have hnotin : ∀ x ∈ nodes, ∀ u ∈ U2, x ≠ u := by
          intro x hx u hu hxe
          have h2 := (List.mem_filter.mp hu).2
          rw [← hxe] at h2
          simp only [decide_eq_true_eq] at h2
          exact h2 hx
        have hpairs : ∀ pr ∈ nodes.zip nodes.tail,
            (alget b.g.nodes pr.1).isSome = true ∧
            (alget b.g.nodes pr.2).isSome = true ∧
            (∀ u ∈ U2, pr.1 ≠ u) ∧ (∀ u ∈ U2, pr.2 ≠ u) := by
          intro pr hpr
          have hm := List.of_mem_zip hpr
          have hm2 : pr.2 ∈ nodes := List.mem_of_mem_tail hm.2
          exact ⟨hstored _ hm.1, hstored _ hm2, hnotin _ hm.1,
            hnotin _ hm2⟩
        have hc := create_fold_pres dist U2 pen
          (b.g.profile.way_direction way.tags).1
          (b.g.profile.way_direction way.tags).2
          (nodes.zip nodes.tail) b.g hinv.1 hu2 hpairs
        rw [← h]
        constructor
        · exact hc.1
        · exact hc.2.1

/-- A stored node endpoint that is not an unused node. -/
def SafeEnd (g : Graph) (U : List Int) (x : Int) : Prop :=
  (alget g.nodes x).isSome = true ∧ ∀ u ∈ U, x ≠ u

/-- The change-set invariant of the restriction walk: the counter grows,
clone ids are fresh, strictly increasing and bounded by the counter, clone
originals are safe stored nodes, and all pending edge additions run between
safe stored nodes or clones. -/
def ChangeOk (g : Graph) (U : List Int) (ch : GraphChange) : Prop :=
  g.phantom_node_id_counter ≤ ch.phantom_node_id_counter ∧
  (ch.new_nodes.map Prod.fst).Pairwise (· < ·) ∧
  (∀ pr ∈ ch.new_nodes, g.phantom_node_id_counter < pr.1 ∧
    pr.1 ≤ ch.phantom_node_id_counter ∧ SafeEnd g U pr.2) ∧
  (∀ e ∈ ch.edges_to_add,
    (SafeEnd g U e.1 ∨ e.1 ∈ ch.new_nodes.map Prod.fst) ∧
    ∀ q ∈ e.2, SafeEnd g U q.1 ∨ q.1 ∈ ch.new_nodes.map Prod.fst)

theorem ChangeOk_init (g : Graph) (U : List Int) :
    ChangeOk g U (GraphChange.init g) := by
  refine ⟨le_refl _, ?_, ?_, ?_⟩
  · simp [GraphChange.init]
  · intro pr hpr
    simp [GraphChange.init] at hpr
  · intro e he
    simp [GraphChange.init] at he

theorem findSome_exists {α β : Type} (f : α → Option β) :
    ∀ (l : List α) (b : β), l.findSome? f = some b → ∃ a ∈ l, f a = some b := by
  intro l
  induction l with
  | nil => intro b h; simp [List.findSome?] at h
  | cons x xs ih =>
    intro b h
    cases hf : f x with
    | some v =>
      have h2 : some v = some b := by
        rw [← h]
        simp [List.findSome?, hf]
      exact ⟨x, List.mem_cons_self _ _, by rw [hf, h2]⟩
    | none =>
      have h2 : xs.findSome? f = some b := by
        rw [← h]
        simp [List.findSome?, hf]
      obtain ⟨a, ha, hfa⟩ := ih b h2
      exact ⟨a, List.mem_cons_of_mem _ ha, hfa⟩

theorem get_to_node_id_SafeEnd (g : Graph) (U : List Int)
    (ch : GraphChange) (fr tgt o : Int)
    (hg : GraphInv g) (hu : UnusedOk g U)
    (h : get_to_node_id g ch fr tgt = some o) : SafeEnd g U o := by
  unfold get_to_node_id at h
  simp only at h
  set a := (alget ch.new_nodes fr).getD fr with hadef
  cases he : alget g.edges a with
  | none =>
    rw [he] at h
    simp at h
  | some m =>
    rw [he] at h
    simp only [Option.getD_some] at h
    obtain ⟨p, hp, hpo⟩ := findSome_exists _ _ _ h
    by_cases hc : (getNodeD g p.1).external_id = tgt
    · rw [if_pos hc] at hpo
      simp only [Option.some_inj] at hpo
      constructor
      · rw [← hpo]
        exact (hg.2.2.2.2 a m he).2 p hp
      · intro u hu2 hoe
        have h3 := (hu u hu2).2.1.2 a m he p hp
        rw [← hpo] at hoe
        exact h3 hoe
    · rw [if_neg hc] at hpo
      exact absurd hpo (by simp)

theorem get_to_node_id_prev (g : Graph) (U : List Int)
    (ch : GraphChange) (fr tgt o : Int)
    (hg : GraphInv g) (hu : UnusedOk g U)
    (h : get_to_node_id g ch fr tgt = some o) :
    SafeEnd g U fr ∨ fr ∈ ch.new_nodes.map Prod.fst := by
  unfold get_to_node_id at h
  simp only at h
  cases hn : alget ch.new_nodes fr with
  | some orig =>
    refine Or.inr ?_
    have := (alget_isSome_iff ch.new_nodes fr).mp (by rw [hn]; rfl)
    exact this
  | none =>
    rw [hn] at h
    simp only [Option.getD_none] at h
    cases he : alget g.edges fr with
    | none =>
      rw [he] at h
      simp at h
    | some m =>
      refine Or.inl ⟨(hg.2.2.2.2 fr m he).1, ?_⟩
      intro u hu2 hfe
      have h3 := (hu u hu2).2.1.1
      rw [hfe] at he
      rw [he] at h3
      simp at h3

theorem racn_go_ChangeOk (g : Graph) (U : List Int) (last : Int)
    (hg : GraphInv g) (hu : UnusedOk g U) :
    ∀ (rest : List Int) (ch : GraphChange) (prev : Int) (acc : List Int)
      (ch2 : GraphChange) (cl : List Int),
    ChangeOk g U ch →
    racn_go g last rest ch prev acc = some (ch2, cl) →
    ChangeOk g U ch2 := by
  intro rest
  induction rest with
  | nil =>
    intro ch prev acc ch2 cl hok h
    simp only [racn_go, Option.some_inj, Prod.mk.injEq] at h
    rw [← h.1]
    exact hok
  | cons osm rest2 ih =>
    intro ch prev acc ch2 cl hok h
    simp only [racn_go] at h
    cases hget : get_to_node_id g ch prev osm with
    | none =>
      rw [hget] at h
      simp at h
    | some original =>
      rw [hget] at h
      dsimp only at h
      by_cases hcond : ¬ osm ≠ original ∧ ¬ osm = last
      · rw [if_pos hcond] at h
        simp only [make_node_clone] at h
        refine ih _ _ _ _ _ ?_ h
        obtain ⟨hc1, hc2, hc3, hc4⟩ := hok
        have hsafe := get_to_node_id_SafeEnd g U ch prev osm original
          hg hu hget
        have hprev := get_to_node_id_prev g U ch prev osm original
          hg hu hget
        refine ⟨?_, ?_, ?_, ?_⟩
        · show g.phantom_node_id_counter ≤ ch.phantom_node_id_counter + 1
          exact le_trans hc1 (by linarith)
        · show ((ch.new_nodes ++
            [(ch.phantom_node_id_counter + 1, original)]).map
              Prod.fst).Pairwise (· < ·)
          rw [List.map_append]
          rw [List.pairwise_append]
          refine ⟨hc2, by simp, ?_⟩
          intro x hx y hy
          simp only [List.map_cons, List.map_nil, List.mem_singleton] at hy
          obtain ⟨pr, hpr, hprx⟩ := List.mem_map.mp hx
          rw [hy, ← hprx]
          have := (hc3 pr hpr).2.1
          linarith
        · intro pr hpr
          show _ < pr.1 ∧ pr.1 ≤ ch.phantom_node_id_counter + 1 ∧ _
          rcases List.mem_append.mp hpr with h1 | h1
          · obtain ⟨q1, q2, q3⟩ := hc3 pr h1
            exact ⟨q1, by linarith, q3⟩
          · simp only [List.mem_singleton] at h1
            rw [h1]
            refine ⟨?_, le_refl _, hsafe⟩
            show g.phantom_node_id_counter < ch.phantom_node_id_counter + 1
            linarith
        · intro e he
          show (SafeEnd g U e.1 ∨
              e.1 ∈ (ch.new_nodes ++ [_]).map Prod.fst) ∧ _
          have hmono : ∀ x, x ∈ ch.new_nodes.map Prod.fst →
              x ∈ (ch.new_nodes ++
                [(ch.phantom_node_id_counter + 1, original)]).map
                  Prod.fst := by
            intro x hx
            rw [List.map_append]
            exact List.mem_append_left _ hx
          simp only [alset2] at he
          rcases alset_mem he with h1 | h1
          · rw [h1]
            constructor
            · rcases hprev with h2 | h2
              · exact Or.inl h2
              · exact Or.inr (hmono _ h2)
            · intro q hq
              rcases alset_mem hq with h3 | h3
              · rw [h3]
                refine Or.inr ?_
                rw [List.map_append]
                refine List.mem_append_right _ ?_
                simp
              · cases hprior : alget ch.edges_to_add prev with
                | none =>
                  rw [hprior] at h3
                  simp at h3
                | some m0 =>
                  rw [hprior] at h3
                  simp only [Option.getD_some] at h3
                  have h4 := (hc4 (prev, m0) (alget_mem hprior)).2 q h3
                  rcases h4 with h5 | h5
                  · exact Or.inl h5
                  · exact Or.inr (hmono _ h5)
          · obtain ⟨he1, he2⟩ := hc4 e h1
            constructor
            · rcases he1 with h2 | h2
              · exact Or.inl h2
              · exact Or.inr (hmono _ h2)
            · intro q hq
              rcases he2 q hq with h2 | h2
              · exact Or.inl h2
              · exact Or.inr (hmono _ h2)
      · rw [if_neg hcond] at h
        exact ih _ _ _ _ _ hok h

theorem ensure_ChangeOk (g : Graph) (U : List Int) (ch : GraphChange)
    (fr t : Int) (hok : ChangeOk g U ch) :
    ChangeOk g U (ensure_only_edge g ch fr t) := by
  obtain ⟨hc1, hc2, hc3, hc4⟩ := hok
  unfold ensure_only_edge
  cases halget : alget ch.edges_to_add fr with
  | none => exact ⟨hc1, hc2, hc3, hc4⟩
  | some m =>
    refine ⟨hc1, hc2, hc3, ?_⟩
    intro e he
    replace he : e ∈ alset ch.edges_to_add fr
        (m.filter (fun p => decide (p.1 = t))) := he
    rcases alset_mem he with h1 | h1
    · obtain ⟨hsrc, htgt⟩ := hc4 (fr, m) (alget_mem halget)
      rw [h1]
      refine ⟨hsrc, ?_⟩
      intro q hq
      exact htgt q (List.mem_filter.mp hq).1
    · exact hc4 e h1

theorem ensure_fold_ChangeOk (g : Graph) (U : List Int) :
    ∀ (pairs : List (Int × Int)) (ch : GraphChange), ChangeOk g U ch →
    ChangeOk g U
      (pairs.foldl (fun c pr => ensure_only_edge g c pr.1 pr.2) ch) := by
  intro pairs
  induction pairs with
  | nil => intro ch h; exact h
  | cons pr prs ih =>
    intro ch h
    simp only [List.foldl_cons]
    exact ih _ (ensure_ChangeOk g U ch pr.1 pr.2 h)

theorem clone_step_pres (U : List Int) (gc : Graph) (c o : Int)
    (nO : GraphNode)
    (hg : GraphInv gc) (hu : UnusedOk gc U)
    (hnO : alget gc.nodes o = some nO)
    (hfr : ∀ id, (alget gc.nodes id).isSome = true → id < c)
    (hbnd : c ≤ gc.phantom_node_id_counter)
    (hmax : MAX_NODE_ID < c)
    (hnotU : ∀ u ∈ U, o ≠ u) :
    GraphInv { gc with
      nodes := alset gc.nodes c ⟨c, nO.position, nO.external_id⟩,
      edges := alset gc.edges c ((alget gc.edges o).getD []) } ∧
    UnusedOk { gc with
      nodes := alset gc.nodes c ⟨c, nO.position, nO.external_id⟩,
      edges := alset gc.edges c ((alget gc.edges o).getD []) } U := by
  obtain ⟨hN, hD, hK, hM, hE⟩ := hg
  have hone : o ≠ c := by
    intro hh
    have := hfr o (by rw [hnO]; rfl)
    rw [hh] at this
    exact absurd this (lt_irrefl _)
  constructor
  · refine ⟨?_, ?_, ?_, hM, ?_⟩
    · intro id n hid
      replace hid : alget
          (alset gc.nodes c ⟨c, nO.position, nO.external_id⟩) id =
          some n := hid
      by_cases hi : id = c
      · subst hi
        rw [alget_alset_self] at hid
        simp only [Option.some_inj] at hid
        rw [← hid]
        refine ⟨rfl, ?_, ?_⟩
        · intro hlt
          exact absurd hlt (not_lt_of_gt hmax)
        · intro _
          obtain ⟨q1, q2, q3⟩ := hN o nO hnO
          by_cases ho : o < MAX_NODE_ID
          · have hext := q2 ho
            show nO.external_id < MAX_NODE_ID ∧
              (alget (alset gc.nodes id ⟨id, nO.position, nO.external_id⟩)
                nO.external_id).isSome = true
            rw [hext]
            exact ⟨ho, alget_alset_isSome _ _ _ _ (by rw [hnO]; rfl)⟩
          · obtain ⟨w1, w2⟩ := q3 (le_of_not_lt ho)
            exact ⟨w1, alget_alset_isSome _ _ _ _ w2⟩
      · rw [alget_alset_ne _ _ _ _ hi] at hid
        obtain ⟨q1, q2, q3⟩ := hN id n hid
        refine ⟨q1, q2, ?_⟩
        intro hge
        obtain ⟨w1, w2⟩ := q3 hge
        exact ⟨w1, alget_alset_isSome _ _ _ _ w2⟩
    · exact alset_keys_nodup _ _ _ hD
    · intro id hid
      replace hid : (alget
          (alset gc.nodes c ⟨c, nO.position, nO.external_id⟩) id).isSome =
          true := hid
      by_cases hi : id = c
      · rw [hi]
        exact hbnd
      · rw [alget_alset_ne _ _ _ _ hi] at hid
        exact hK id hid
    · intro x m hx
      replace hx : alget
          (alset gc.edges c ((alget gc.edges o).getD [])) x = some m := hx
      by_cases hxc : x = c
      · subst hxc
        rw [alget_alset_self] at hx
        simp only [Option.some_inj] at hx
        constructor
        · show (alget (alset gc.nodes x ⟨x, nO.position, nO.external_id⟩)
            x).isSome = true
          rw [alget_alset_self]
          rfl
        · intro p hp
          rw [← hx] at hp
          cases halg : alget gc.edges o with
          | none =>
            rw [halg] at hp
            simp at hp
          | some mo =>
            rw [halg] at hp
            simp only [Option.getD_some] at hp
            exact alget_alset_isSome _ _ _ _ ((hE o mo halg).2 p hp)
      · rw [alget_alset_ne _ _ _ _ hxc] at hx
        obtain ⟨w1, w2⟩ := hE x m hx
        refine ⟨alget_alset_isSome _ _ _ _ w1, ?_⟩
        intro p hp
        exact alget_alset_isSome _ _ _ _ (w2 p hp)
  · intro u hu2
    obtain ⟨h1, ⟨h2, h3⟩, h4⟩ := hu u hu2
    have huc : u ≠ c := by
      intro hh
      rw [hh] at h1
      exact absurd (lt_trans h1 hmax) (lt_irrefl _)
    refine ⟨h1, ⟨?_, ?_⟩, ?_⟩
    · show alget (alset gc.edges c ((alget gc.edges o).getD [])) u = none
      rw [alget_alset_ne _ _ _ _ huc]
      exact h2
    · intro x m hx p hp
      replace hx : alget
          (alset gc.edges c ((alget gc.edges o).getD [])) x = some m := hx
      by_cases hxc : x = c
      · subst hxc
        rw [alget_alset_self] at hx
        simp only [Option.some_inj] at hx
        rw [← hx] at hp
        cases halg : alget gc.edges o with
        | none =>
          rw [halg] at hp
          simp at hp
        | some mo =>
          rw [halg] at hp
          simp only [Option.getD_some] at hp
          exact h3 o mo halg p hp
      · rw [alget_alset_ne _ _ _ _ hxc] at hx
        exact h3 x m hx p hp
    · intro id n hid hge
      replace hid : alget
          (alset gc.nodes c ⟨c, nO.position, nO.external_id⟩) id =
          some n := hid
      by_cases hi : id = c
      · subst hi
        rw [alget_alset_self] at hid
        simp only [Option.some_inj] at hid
        rw [← hid]
        show nO.external_id ≠ u
        obtain ⟨q1, q2, q3⟩ := hN o nO hnO
        by_cases ho : o < MAX_NODE_ID
        · rw [q2 ho]
          exact hnotU u hu2
        · exact h4 o nO hnO (le_of_not_lt ho)
      · rw [alget_alset_ne _ _ _ _ hi] at hid
        exact h4 id n hid hge

theorem clone_fold_pres7 (U : List Int) :
    ∀ (L : List (Int × Int)) (gc : Graph),
    GraphInv gc → UnusedOk gc U →
    (L.map Prod.fst).Pairwise (· < ·) →
    (∀ pr ∈ L,
      (∀ id, (alget gc.nodes id).isSome = true → id < pr.1) ∧
      pr.1 ≤ gc.phantom_node_id_counter ∧
      MAX_NODE_ID < pr.1 ∧
      (alget gc.nodes pr.2).isSome = true ∧
      (∀ u ∈ U, pr.2 ≠ u)) →
    GraphInv (L.foldl clone_node_step gc) ∧
    UnusedOk (L.foldl clone_node_step gc) U ∧
    (∀ id, (alget gc.nodes id).isSome = true →
      (alget (L.foldl clone_node_step gc).nodes id).isSome = true) ∧
    (∀ pr ∈ L,
      (alget (L.foldl clone_node_step gc).nodes pr.1).isSome = true) ∧
    (L.foldl clone_node_step gc).phantom_node_id_counter =
      gc.phantom_node_id_counter := by
  intro L
  induction L with
  | nil =>
    intro gc hg hu _ _
    refine ⟨hg, hu, fun id h => h, ?_, rfl⟩
    intro pr hpr
    simp at hpr
  | cons co L2 ih =>
    intro gc hg hu hpw hL
    obtain ⟨hfr, hbnd, hmax, hsto, hnotU⟩ := hL co (List.mem_cons_self _ _)
    obtain ⟨nO, hnO⟩ := Option.isSome_iff_exists.mp hsto
    have hold : getNodeD gc co.2 = nO := by
      unfold getNodeD
      rw [hnO]
      rfl
    have hstep : clone_node_step gc co =
        { gc with
          nodes := alset gc.nodes co.1 ⟨co.1, nO.position, nO.external_id⟩,
          edges := alset gc.edges co.1 ((alget gc.edges co.2).getD []) } := by
      unfold clone_node_step
      rw [hold]
    have hcs := clone_step_pres U gc co.1 co.2 nO
      ⟨hg.1, hg.2.1, hg.2.2.1, hg.2.2.2.1, hg.2.2.2.2⟩ hu hnO hfr hbnd hmax
      hnotU
    rw [List.foldl_cons, hstep]
    have hpwt : (L2.map Prod.fst).Pairwise (· < ·) := by
      rw [List.map_cons, List.pairwise_cons] at hpw
      exact hpw.2
    have hheadlt : ∀ pr ∈ L2, co.1 < pr.1 := by
      intro pr hpr
      rw [List.map_cons, List.pairwise_cons] at hpw
      exact hpw.1 pr.1 (List.mem_map_of_mem _ hpr)
    have hL2 : ∀ pr ∈ L2,
        (∀ id, (alget ({ gc with
          nodes := alset gc.nodes co.1 ⟨co.1, nO.position, nO.external_id⟩,
          edges := alset gc.edges co.1
            ((alget gc.edges co.2).getD []) } : Graph).nodes id).isSome =
            true → id < pr.1) ∧
        pr.1 ≤ ({ gc with
          nodes := alset gc.nodes co.1 ⟨co.1, nO.position, nO.external_id⟩,
          edges := alset gc.edges co.1 ((alget gc.edges co.2).getD [])
          } : Graph).phantom_node_id_counter ∧
        MAX_NODE_ID < pr.1 ∧
        (alget ({ gc with
          nodes := alset gc.nodes co.1 ⟨co.1, nO.position, nO.external_id⟩,
          edges := alset gc.edges co.1 ((alget gc.edges co.2).getD [])
          } : Graph).nodes pr.2).isSome = true ∧
        (∀ u ∈ U, pr.2 ≠ u) := by
      intro pr hpr
      obtain ⟨w1, w2, w3, w4, w5⟩ := hL pr (List.mem_cons_of_mem _ hpr)
      refine ⟨?_, w2, w3, ?_, w5⟩
      · intro id hid
        replace hid : (alget
            (alset gc.nodes co.1 ⟨co.1, nO.position, nO.external_id⟩)
            id).isSome = true := hid
        by_cases hi : id = co.1
        · rw [hi]
          exact hheadlt pr hpr
        · rw [alget_alset_ne _ _ _ _ hi] at hid
          exact w1 id hid
      · exact alget_alset_isSome _ _ _ _ w4
    have hrest := ih _ hcs.1 hcs.2 hpwt hL2
    refine ⟨hrest.1, hrest.2.1, ?_, ?_, ?_⟩
    · intro id hid
      exact hrest.2.2.1 id (alget_alset_isSome _ _ _ _ hid)
    · intro pr hpr
      rcases List.mem_cons.mp hpr with h1 | h1
      · rw [h1]
        exact hrest.2.2.1 co.1 (by rw [alget_alset_self]; rfl)
      · exact hrest.2.2.2.1 pr h1
    · rw [hrest.2.2.2.2]

theorem remove_fold_pres7 (U : List Int) :
    ∀ (L : List (Int × Int)) (gc : Graph),
    GraphInv gc → UnusedOk gc U →
    GraphInv (L.foldl remove_edge_step gc) ∧
    UnusedOk (L.foldl remove_edge_step gc) U ∧
    (L.foldl remove_edge_step gc).nodes = gc.nodes ∧
    (L.foldl remove_edge_step gc).phantom_node_id_counter =
      gc.phantom_node_id_counter := by
  intro L
  induction L with
  | nil =>
    intro gc hg hu
    exact ⟨hg, hu, rfl, rfl⟩
  | cons pr prs ih =>
    intro gc hg hu
    rw [List.foldl_cons]
    obtain ⟨hN, hD, hK, hM, hE⟩ := hg
    cases halg : alget gc.edges pr.1 with
    | none =>
      have hstep : remove_edge_step gc pr = gc := by
        unfold remove_edge_step
        rw [halg]
      rw [hstep]
      exact ih gc ⟨hN, hD, hK, hM, hE⟩ hu
    | some m =>
      have hstep : remove_edge_step gc pr =
          { gc with edges := alset gc.edges pr.1 (alerase m pr.2) } := by
        unfold remove_edge_step
        rw [halg]
      rw [hstep]
      refine ih _ ⟨hN, hD, hK, hM, ?_⟩ ?_
      · intro x mx hx
        replace hx : alget (alset gc.edges pr.1 (alerase m pr.2)) x =
            some mx := hx
        by_cases hxa : x = pr.1
        · subst hxa
          rw [alget_alset_self] at hx
          simp only [Option.some_inj] at hx
          refine ⟨(hE pr.1 m halg).1, ?_⟩
          intro p hp
          rw [← hx] at hp
          exact (hE pr.1 m halg).2 p (alerase_mem hp)
        · rw [alget_alset_ne _ _ _ _ hxa] at hx
          exact hE x mx hx
      · intro u hu2
        obtain ⟨h1, ⟨h2, h3⟩, h4⟩ := hu u hu2
        have hua : u ≠ pr.1 := by
          intro hh
          rw [hh, halg] at h2
          exact absurd h2 (by simp)
        refine ⟨h1, ⟨?_, ?_⟩, h4⟩
        · show alget (alset gc.edges pr.1 (alerase m pr.2)) u = none
          rw [alget_alset_ne _ _ _ _ hua]
          exact h2
        · intro x mx hx p hp
          replace hx : alget (alset gc.edges pr.1 (alerase m pr.2)) x =
              some mx := hx
          by_cases hxa : x = pr.1
          · subst hxa
            rw [alget_alset_self] at hx
            simp only [Option.some_inj] at hx
            rw [← hx] at hp
            exact h3 pr.1 m halg p (alerase_mem hp)
          · rw [alget_alset_ne _ _ _ _ hxa] at hx
            exact h3 x mx hx p hp

theorem add_edges_inner_pres (U : List Int) (src : Int) :
    ∀ (lst : List (Int × ℚ)) (gc : Graph),
    GraphInv gc → UnusedOk gc U →
    (alget gc.nodes src).isSome = true → (∀ u ∈ U, src ≠ u) →
    (∀ q ∈ lst, (alget gc.nodes q.1).isSome = true ∧ ∀ u ∈ U, q.1 ≠ u) →
    GraphInv (lst.foldl (fun g q =>
      { g with edges := alset2 g.edges src q.1 q.2 }) gc) ∧
    UnusedOk (lst.foldl (fun g q =>
      { g with edges := alset2 g.edges src q.1 q.2 }) gc) U ∧
    (lst.foldl (fun g q =>
      { g with edges := alset2 g.edges src q.1 q.2 }) gc).nodes = gc.nodes ∧
    (lst.foldl (fun g q =>
      { g with edges := alset2 g.edges src q.1 q.2 })
        gc).phantom_node_id_counter = gc.phantom_node_id_counter := by
  intro lst
  induction lst with
  | nil =>
    intro gc hg hu _ _ _
    exact ⟨hg, hu, rfl, rfl⟩
  | cons q qs ih =>
    intro gc hg hu hsrc hsrcU hqs
    rw [List.foldl_cons]
    obtain ⟨hq1, hq2⟩ := hqs q (List.mem_cons_self _ _)
    have hone := addOneEdge_pres gc U src q.1 q.2 hg hu hsrc hq1 hsrcU hq2
    have hrest := ih { gc with edges := alset2 gc.edges src q.1 q.2 }
      hone.1 hone.2 hsrc hsrcU (by
        intro q2 hq2m
        exact hqs q2 (List.mem_cons_of_mem _ hq2m))
    exact hrest

theorem add_fold_pres7 (U : List Int) :
    ∀ (L : List (Int × List (Int × ℚ))) (gc : Graph),
    GraphInv gc → UnusedOk gc U →
    (∀ e ∈ L, ((alget gc.nodes e.1).isSome = true ∧ ∀ u ∈ U, e.1 ≠ u) ∧
      ∀ q ∈ e.2, (alget gc.nodes q.1).isSome = true ∧ ∀ u ∈ U, q.1 ≠ u) →
    GraphInv (L.foldl add_edges_step gc) ∧
    UnusedOk (L.foldl add_edges_step gc) U ∧
    (L.foldl add_edges_step gc).nodes = gc.nodes := by
  intro L
  induction L with
  | nil =>
    intro gc hg hu _
    exact ⟨hg, hu, rfl⟩
  | cons e es ih =>
    intro gc hg hu hL
    rw [List.foldl_cons]
    obtain ⟨⟨he1, he2⟩, he3⟩ := hL e (List.mem_cons_self _ _)
    have hinner := add_edges_inner_pres U e.1 e.2 gc hg hu he1 he2 he3
    have hstep : add_edges_step gc e = e.2.foldl (fun g q =>
        { g with edges := alset2 g.edges e.1 q.1 q.2 }) gc := rfl
    rw [hstep]
    have hrest := ih _ hinner.1 hinner.2.1 (by
      intro e2 he2m
      rw [hinner.2.2.1]
      exact hL e2 (List.mem_cons_of_mem _ he2m))
    refine ⟨hrest.1, hrest.2.1, ?_⟩
    rw [hrest.2.2, hinner.2.2.1]

theorem apply_change_pres (g : Graph) (U : List Int) (ch : GraphChange)
    (hg : GraphInv g) (hu : UnusedOk g U) (hch : ChangeOk g U ch) :
    GraphInv (apply_change g ch) ∧ UnusedOk (apply_change g ch) U := by
  obtain ⟨hc1, hc2, hc3, hc4⟩ := hch
  obtain ⟨hN, hD, hK, hM, hE⟩ := hg
  set g1 : Graph :=
    { g with phantom_node_id_counter := ch.phantom_node_id_counter }
    with hg1def
  have hg1 : GraphInv g1 := by
    refine ⟨hN, hD, ?_, le_trans hM hc1, hE⟩
    intro id hid
    exact le_trans (hK id hid) hc1
  have hu1 : UnusedOk g1 U := hu
  have hclone := clone_fold_pres7 U ch.new_nodes g1 hg1 hu1 hc2 (by
    intro pr hpr
    obtain ⟨w1, w2, w3⟩ := hc3 pr hpr
    refine ⟨?_, w2, lt_of_le_of_lt hM w1, w3.1, w3.2⟩
    intro id hid
    exact lt_of_le_of_lt (hK id hid) w1)
  set g2 := ch.new_nodes.foldl clone_node_step g1 with hg2def
  have hremove := remove_fold_pres7 U ch.edges_to_remove g2
    hclone.1 hclone.2.1
  set g3 := ch.edges_to_remove.foldl remove_edge_step g2 with hg3def
  have hadd := add_fold_pres7 U ch.edges_to_add g3 hremove.1 hremove.2.1 (by
    intro e he
    obtain ⟨hsrc, htgt⟩ := hc4 e he
    have hstored : ∀ x, (SafeEnd g U x ∨ x ∈ ch.new_nodes.map Prod.fst) →
        (alget g3.nodes x).isSome = true ∧ ∀ u ∈ U, x ≠ u := by
      intro x hx
      rcases hx with ⟨hx1, hx2⟩ | hx1
      · rw [hremove.2.2.1]
        exact ⟨hclone.2.2.1 x hx1, hx2⟩
      · obtain ⟨pr, hpr, hprx⟩ := List.mem_map.mp hx1
        rw [hremove.2.2.1, ← hprx]
        refine ⟨hclone.2.2.2.1 pr hpr, ?_⟩
        intro u hu2 hprq
        have hlt := (hu u hu2).1
        have hgt := lt_of_le_of_lt hM (hc3 pr hpr).1
        rw [hprq] at hgt
        exact absurd (lt_trans hlt hgt) (lt_irrefl _)
    refine ⟨hstored e.1 hsrc, ?_⟩
    intro q hq
    exact hstored q.1 (htgt q hq))
  exact ⟨hadd.1, hadd.2.1⟩

theorem store_restriction_pres (g : Graph) (U : List Int)
    (ns : List Int) (mand : Bool) (g2 : Graph)
    (hg : GraphInv g) (hu : UnusedOk g U)
    (h : store_restriction g ns mand = some g2) :
    GraphInv g2 ∧ UnusedOk g2 U := by
  unfold store_restriction at h
  cases hr : restriction_as_cloned_nodes g (GraphChange.init g) ns with
  | none =>
    rw [hr] at h
    exact absurd h (by simp)
  | some chcl =>
    obtain ⟨ch, cloned⟩ := chcl
    rw [hr] at h
    have hok : ChangeOk g U ch := by
      unfold restriction_as_cloned_nodes at hr
      cases ns with
      | nil => exact absurd hr (by simp)
      | cons n0 rest =>
        exact racn_go_ChangeOk g U (lastD (n0 :: rest)) hg hu rest
          (GraphChange.init g) n0 [n0] ch cloned (ChangeOk_init g U) hr
    simp only [Option.some_inj] at h
    rw [← h]
    cases mand with
    | true =>
      simp only [if_pos rfl]
      refine apply_change_pres g U _ hg hu ?_
      exact ensure_fold_ChangeOk g U _ ch hok
    | false =>
      simp only [Bool.false_eq_true, if_neg, ite_false]
      refine apply_change_pres g U _ hg hu ?_
      exact ⟨hok.1, hok.2.1, hok.2.2.1, hok.2.2.2⟩

theorem add_relation_pres (b : GraphBuilder) (r : OSMRelation)
    (hinv : BuilderInv b) : BuilderInv (add_relation b r) := by
  unfold add_relation
  by_cases h1 : b.g.profile.is_turn_restriction r.tags =
      TurnRestriction.INAPPLICABLE
  · rw [if_pos h1]
    exact hinv
  · rw [if_neg h1]
    cases h2 : get_restriction_nodes b r with
    | error e => exact hinv
    | ok nodes =>
      dsimp only
      cases h3 : store_restriction b.g nodes
          (decide (b.g.profile.is_turn_restriction r.tags =
            TurnRestriction.MANDATORY)) with
      | none => exact hinv
      | some g2 =>
        have := store_restriction_pres b.g b.unused_nodes nodes _ g2
          hinv.1 hinv.2 h3
        exact ⟨this.1, this.2⟩

theorem add_feature_pres (dist : Position → Position → ℚ)
    (b : GraphBuilder) (f : Feature) (b2 : GraphBuilder)
    (hinv : BuilderInv b) (h : add_feature dist b f = .ok b2) :
    BuilderInv b2 := by
  cases f with
  | node n => exact add_node_pres b n b2 hinv h
  | way w => exact add_way_pres dist b w b2 hinv h
  | relation r =>
    simp only [add_feature, Except.ok.injEq] at h
    rw [← h]
    exact add_relation_pres b r hinv

theorem add_features_list_pres (dist : Position → Position → ℚ) :
    ∀ (fs : List Feature) (b b2 : GraphBuilder),
    BuilderInv b → add_features_list dist b fs = .ok b2 → BuilderInv b2 := by
  intro fs
  induction fs with
  | nil =>
    intro b b2 hinv h
    simp only [add_features_list, Except.ok.injEq] at h
    rw [← h]
    exact hinv
  | cons f fs2 ih =>
    intro b b2 hinv h
    simp only [add_features_list] at h
    cases h2 : add_feature dist b f with
    | error e =>
      rw [h2] at h
      exact absurd h (by simp)
    | ok b3 =>
      rw [h2] at h
      exact ih b3 b2 (add_feature_pres dist b f b3 hinv h2) h

theorem builder_cleanup_NodesOk (b : GraphBuilder) (hinv : BuilderInv b) :
    ∀ id n, alget (builder_cleanup b).nodes id = some n →
      n.id = id ∧
      (id < MAX_NODE_ID → n.external_id = id) ∧
      (MAX_NODE_ID ≤ id → n.external_id < MAX_NODE_ID ∧
        ∃ m, alget (builder_cleanup b).nodes n.external_id = some m ∧
          m.external_id = n.external_id) := by
  obtain ⟨⟨hN, hD, hK, hM, hE⟩, hU⟩ := hinv
  intro id n hid
  replace hid : alget
      (b.unused_nodes.foldl (fun ns id2 => alerase ns id2) b.g.nodes) id =
      some n := hid
  have hfold : b.unused_nodes.foldl (fun ns id2 => alerase ns id2)
      b.g.nodes = b.unused_nodes.foldl alerase b.g.nodes := rfl
  rw [hfold] at hid
  have hund := alget_foldl_alerase_some b.unused_nodes b.g.nodes id n hD hid
  obtain ⟨q1, q2, q3⟩ := hN id n hund
  refine ⟨q1, q2, ?_⟩
  intro hge
  obtain ⟨w1, w2⟩ := q3 hge
  obtain ⟨m, hm⟩ := Option.isSome_iff_exists.mp w2
  have hextnu : n.external_id ∉ b.unused_nodes := by
    intro hmem
    exact (hU n.external_id hmem).2.2 id n hund hge rfl
  refine ⟨w1, m, ?_, ?_⟩
  · show alget (b.unused_nodes.foldl (fun ns id2 => alerase ns id2)
      b.g.nodes) n.external_id = some m
    rw [hfold, alget_foldl_alerase_not_mem _ _ _ hextnu]
    exact hm
  · exact (hN n.external_id m hm).2.1 w1

/-- C7: after add_features succeeds on a graph whose node map already
satisfies the external-id contract (in particular on a fresh graph), every
node with id below 2 to the 51st (MAX_NODE_ID) has external_id equal to its
id, and every node with id at or above that bound has a regular external_id
whose owner, a regular node with that same external_id, is stored in the
graph. -/
theorem C7_phantom_external_ids (dist : Position → Position → ℚ)
    (g0 : Graph) (features : List Feature) (g : Graph)
    (hg : GraphInv g0)
    (hrun : Graph.add_features dist g0 features = .ok g) :
    ∀ id n, alget g.nodes id = some n →
      n.id = id ∧
      (id < MAX_NODE_ID → n.external_id = id) ∧
      (MAX_NODE_ID ≤ id → n.external_id < MAX_NODE_ID ∧
        ∃ m, alget g.nodes n.external_id = some m ∧
          m.external_id = n.external_id) := by
  unfold Graph.add_features at hrun
  cases hb : add_features_list dist ⟨g0, [], []⟩ features with
  | error e =>
    rw [hb] at hrun
    exact absurd hrun (by simp [Except.map])
  | ok b2 =>
    rw [hb] at hrun
    simp only [Except.map, Except.ok.injEq] at hrun
    have hbi : BuilderInv b2 := by
      refine add_features_list_pres dist features ⟨g0, [], []⟩ b2 ⟨hg, ?_⟩ hb
      intro u hu
      simp at hu
    rw [← hrun]
    exact builder_cleanup_NodesOk b2 hbi

def c7Features : List Feature :=
  [Feature.node ⟨1, (0, 0), []⟩, Feature.node ⟨2, (0, 1), []⟩,
   Feature.node ⟨3, (1, 0), []⟩,
   Feature.way ⟨11, [1, 2], [("railway", "rail")]⟩,
   Feature.way ⟨12, [1, 3], [("railway", "rail")]⟩,
   Feature.relation ⟨77,
     [⟨MemberType.way, 11, "from"⟩, ⟨MemberType.way, 11, "via"⟩,
      ⟨MemberType.way, 12, "to"⟩],
     [("type", "restriction"), ("restriction", "no_u_turn")]⟩]

def c7Graph : Graph :=
  match Graph.add_features (fun _ _ => 1)
      ⟨RailwayProfile, [], [], MAX_NODE_ID⟩ c7Features with
  | .ok g => g
  | .error _ => ⟨RailwayProfile, [], [], MAX_NODE_ID⟩

/-- Witness for C7: the graph built from three nodes, two railway ways and
a no_u_turn restriction (which mints phantom clones) satisfies the
external-id contract. -/
theorem C7_witness :
    (alget c7Graph.nodes (MAX_NODE_ID + 1)).isSome = true ∧
    (∀ id n, alget c7Graph.nodes id = some n →
      n.id = id ∧
      (id < MAX_NODE_ID → n.external_id = id) ∧
      (MAX_NODE_ID ≤ id → n.external_id < MAX_NODE_ID ∧
        ∃ m, alget c7Graph.nodes n.external_id = some m ∧
          m.external_id = n.external_id)) :=
  ⟨by decide,
  C7_phantom_external_ids (fun _ _ => 1)
    ⟨RailwayProfile, [], [], MAX_NODE_ID⟩ c7Features c7Graph
    (by
      refine ⟨?_, ?_, ?_, le_refl _, ?_⟩
      · intro id n h
        simp [alget] at h
      · simp
      · intro id h
        simp [alget] at h
      · intro a m h
        simp [alget] at h)
    rfl⟩

end Pyroutelib3
